import Mathlib

/-! Log-format engine.

A shallow embedding of the format collision ordering (load_formats), the pattern-lock
bookkeeping of the line scanner and the rewrite engine, followed by the properties
established about them.
-/

namespace Lnav

/-! ## Format collision ordering (log_format_loader.cc, load_formats) -/

/-- An interned string (intern_string_t). Interned strings compare by identity, so a
name is represented by its index in the intern table. -/
abbrev intern_string_t := Nat

/-- The fields of external_log_format that the ordering loop of load_formats reads
and writes: the name, the builtin flag and the collision list. -/
structure external_log_format where
  elf_name : intern_string_t
  elf_builtin_format : Bool
  elf_collision : List intern_string_t
deriving DecidableEq, Repr

/-- The member call std::list::remove(value): erases every element equal to value. -/
def list_remove (c : List intern_string_t) (v : intern_string_t) : List intern_string_t :=
  c.filter (fun x => x != v)

/-- Lines 1071-1075 of load_formats: every popped name is removed from the collision
list of every format still in alpha_ordered_formats. -/
def remove_popped (popped_formats : List intern_string_t)
    (alpha : List external_log_format) : List external_log_format :=
  alpha.map (fun elf =>
    { elf with elf_collision := popped_formats.foldl list_remove elf.elf_collision })

/-- Lines 1054-1065: walk the remaining formats, skip builtin ones and clear the
collision list of the first non-builtin one. The result is none when every format is
builtin, which is the case in which broke_cycle stays false. -/
def break_cycle_non_builtin : List external_log_format → Option (List external_log_format)
  | [] => none
  | elf :: rest =>
    if elf.elf_builtin_format then
      (break_cycle_non_builtin rest).map (fun r => elf :: r)
    else
      some ({ elf with elf_collision := [] } :: rest)

/-- Line 1067: alpha_ordered_formats.front()->elf_collision.clear(). -/
def clear_front : List external_log_format → List external_log_format
  | [] => []
  | elf :: rest => { elf with elf_collision := [] } :: rest

/-- Lines 1050-1069, the body of the cycle branch. -/
def break_cycle (alpha : List external_log_format) : List external_log_format :=
  match break_cycle_non_builtin alpha with
  | some broken => broken
  | none => clear_front alpha

/-- One iteration of the while loop at lines 1034-1076. The erase sweep of lines
1037-1048 moves the formats whose collision list is empty, in order, to the end of
graph_ordered_formats and keeps the others in order. The result is the pair
(alpha_ordered_formats, graph_ordered_formats) after the iteration. -/
def order_pass (alpha graph : List external_log_format) :
    List external_log_format × List external_log_format :=
  let popped := alpha.filter (fun elf => elf.elf_collision.isEmpty)
  let remaining := alpha.filter (fun elf => !elf.elf_collision.isEmpty)
  let remaining :=
    if popped.isEmpty && !remaining.isEmpty then break_cycle remaining else remaining
  (remove_popped (popped.map (fun elf => elf.elf_name)) remaining, graph ++ popped)

/-- The while loop at lines 1034-1076, run for at most fuel iterations. The result is
graph_ordered_formats when the loop has left through its condition, and none when
the iterations allowed were used up first. -/
def order_loop : Nat → List external_log_format → List external_log_format →
    Option (List external_log_format)
  | 0, alpha, graph => if alpha.isEmpty then some graph else none
  | fuel + 1, alpha, graph =>
    if alpha.isEmpty then some graph
    else order_loop fuel (order_pass alpha graph).1 (order_pass alpha graph).2

/-- The state in which a format sits in graph_ordered_formats: its collision list
has been emptied, by removal of popped names or by cycle breaking. -/
def emitted_form (elf : external_log_format) : external_log_format :=
  { elf with elf_collision := [] }

/-- The number of loop iterations still possible: every iteration either pops a
format or empties one collision list. -/
def order_measure (alpha : List external_log_format) : Nat :=
  alpha.length + alpha.countP (fun elf => !elf.elf_collision.isEmpty)

/-- Format a collides with format b: b is named in the collision list of a. -/
def collides (fs : List external_log_format) (a b : intern_string_t) : Prop :=
  ∃ f ∈ fs, f.elf_name = a ∧ b ∈ f.elf_collision

/-- The collision graph has no cycle: no format reaches itself along collisions. -/
def acyclic_collisions (fs : List external_log_format) : Prop :=
  ∀ a, ¬ Relation.TransGen (collides fs) a a

/-- Collision lists name only formats of the set. -/
def collisions_closed (fs : List external_log_format) : Prop :=
  ∀ f ∈ fs, ∀ b ∈ f.elf_collision, b ∈ fs.map (fun elf => elf.elf_name)

/-- Format b sits strictly before format a in the evaluation order out. -/
def emitted_before (out : List external_log_format) (b a : intern_string_t) : Prop :=
  (out.map (fun elf => elf.elf_name)).indexOf b < (out.map (fun elf => elf.elf_name)).indexOf a ∧
    (out.map (fun elf => elf.elf_name)).indexOf a < out.length

/-! ## Pattern locks (log_format.cc) -/

/-- An entry of lf_pattern_locks. The constructor is
pattern_for_lines(uint32_t pfl_line, uint32_t pfl_pat_index): the line is kept reduced
modulo 2^32 by the code that builds entries. A format has far fewer than 2^31
patterns, so a pattern index is carried as an integer without reduction. -/
structure pattern_for_lines where
  pfl_line : Nat
  pfl_pat_index : Int
deriving DecidableEq, Repr

/-- The lock list is in strictly ascending line order. -/
def locks_ascending (locks : List pattern_for_lines) : Prop :=
  locks.Pairwise (fun a b => a.pfl_line < b.pfl_line)

instance (locks : List pattern_for_lines) : Decidable (locks_ascending locks) := by
  unfold locks_ascending
  infer_instance

/-- The call std::lower_bound(begin, end, line, comp) with the comparator of
pattern_index_for_line, pfl.pfl_line < line, by its library contract on a range that
the comparator partitions: the index of the first entry for which the comparator is
false, the length of the list when there is none. -/
def lower_bound_line : List pattern_for_lines → Nat → Nat
  | [], _ => 0
  | pfl :: rest, line => if pfl.pfl_line < line then lower_bound_line rest line + 1 else 0

/-- The function log_format::pattern_index_for_line (lines 2270-2285). The argument
is a uint64_t; the comparator takes it as uint32_t, so the search runs on the
argument reduced modulo 2^32, while the test after the search compares pfl_line with
the full argument. Stepping the iterator back from begin() is undefined and gives
none. -/
def pattern_index_for_line (locks : List pattern_for_lines) (line_number : Nat) :
    Option Int :=
  let iter := lower_bound_line locks (line_number % 2 ^ 32)
  let step_back : Bool :=
    match locks[iter]? with
    | none => true
    | some pfl => pfl.pfl_line != line_number
  if step_back then
    if iter = 0 then none else (locks[iter - 1]?).map (fun pfl => pfl.pfl_pat_index)
  else (locks[iter]?).map (fun pfl => pfl.pfl_pat_index)

/-- Modelled from the spec: log_format::last_pattern_index is declared in a header
that is not part of src. The authoritative index is the pattern index of the last
lock entry, and -1 when the lock list is empty. -/
def last_pattern_index (locks : List pattern_for_lines) : Int :=
  match locks.getLast? with
  | none => -1
  | some pfl => pfl.pfl_pat_index

/-- The static function next_format of lines 233-253 for a pattern vector of size n.
The result is the return value and the new value of index; locked_index is never
written. The member log_format::next_format of lines 255-273 is the same function
for an array of n formats closed by an entry without a name. -/
def next_format (n : Nat) (index locked_index : Int) : Bool × Int :=
  if locked_index = -1 then
    (decide (index + 1 < (n : Int)), index + 1)
  else if index = locked_index then
    (false, index)
  else
    (true, locked_index)

/-! ## The line scanner (log_format.cc, external_log_format::scan) -/

/-- The scan result log_format::scan_result_t. -/
inductive scan_result_t
  | SCAN_MATCH
  | SCAN_NO_MATCH
  | SCAN_INCOMPLETE
deriving DecidableEq, Repr

/-- Modelled from the spec: the severity level enum log_level_t is declared in a
header that is not part of src. LEVEL_INVALID marks a line that matched no pattern. -/
inductive log_level_t
  | LEVEL_UNKNOWN
  | LEVEL_TRACE
  | LEVEL_DEBUG
  | LEVEL_INFO
  | LEVEL_STATS
  | LEVEL_NOTICE
  | LEVEL_WARNING
  | LEVEL_ERROR
  | LEVEL_CRITICAL
  | LEVEL_FATAL
  | LEVEL_INVALID
deriving DecidableEq, Repr

/-- The struct timeval. -/
structure timeval where
  tv_sec : Int
  tv_usec : Int
deriving DecidableEq, Repr

/-- The bits of exttm::et_flags that scan and check_for_new_year test. -/
structure et_flags_t where
  ETF_DAY_SET : Bool
  ETF_MONTH_SET : Bool
  ETF_YEAR_SET : Bool
deriving DecidableEq, Repr

/-- Modelled from the spec: the class logline is declared in a header that is not
part of src. A line carries what its constructor is given in scan: the offset into
the file, the timestamp, the level, the module id and the operation id; the last two
are 0 when the constructor is called with three arguments. -/
structure logline where
  ll_offset : Int
  ll_time : timeval
  ll_level : log_level_t
  ll_module_id : Nat
  ll_opid : Nat
deriving DecidableEq, Repr

/-- What one iteration of the scan loop obtains from its collaborators when the
pattern matches and the timestamp capture scans: time and flags from
lf_date_time.scan, the level from convert_level or from the module format, the module
index from the module-format cache and the hash of the operation id. -/
structure line_match where
  log_tv : timeval
  et_flags : et_flags_t
  level : log_level_t
  mod_index : Nat
  opid : Nat
deriving DecidableEq, Repr

/-- What the pattern-matching engine and the timestamp scanner report for one pattern
on the line being scanned: the pattern does not match (line 728), it matches but the
timestamp capture does not scan in either attempt (lines 747-759), or both succeed. -/
inductive pattern_outcome
  | no_match
  | bad_timestamp
  | matched (m : line_match)
deriving DecidableEq, Repr

/-- The field of external_log_format::pattern that scan reads before matching. -/
structure pattern where
  p_module_format : Bool
deriving DecidableEq, Repr

/-- The fields of log_format and external_log_format that the text branch of scan,
log_scanf and specialized read and write. -/
structure log_format where
  elf_pattern_order : List pattern
  lf_pattern_locks : List pattern_for_lines
  lf_specialized : Bool
  lf_multiline : Bool
  lf_timestamp_flags : et_flags_t
deriving DecidableEq, Repr

/-- How the while loop of scan (lines 720-867) ends. -/
inductive search_result
  | found (curr_fmt : Int) (m : line_match)
  | no_pattern
  | undefined
  | out_of_fuel
deriving DecidableEq, Repr

/-- The while loop of scan (lines 720-867) up to the point where a pattern has
matched and its timestamp has scanned, run for at most fuel evaluations of the loop
condition. Iterations that do not reach that point change neither dst nor the lock
list. The result is found with the value of curr_fmt, no_pattern when next_format
returns false, undefined when elf_pattern_order is indexed outside its bounds. -/
def scan_search (fmt : log_format) (outcome : Nat → pattern_outcome) :
    Nat → Int → Int → search_result
  | 0, _, _ => search_result.out_of_fuel
  | fuel + 1, curr_fmt, pat_index =>
    let nf := next_format fmt.elf_pattern_order.length curr_fmt pat_index
    if nf.1 = false then search_result.no_pattern
    else if nf.2 < 0 then search_result.undefined
    else
      match fmt.elf_pattern_order[nf.2.toNat]? with
      | none => search_result.undefined
      | some fpat =>
        if fpat.p_module_format then scan_search fmt outcome fuel nf.2 pat_index
        else
          match outcome nf.2.toNat with
          | pattern_outcome.no_match =>
            if !fmt.lf_pattern_locks.isEmpty && pat_index != -1 then
              scan_search fmt outcome fuel (-1) (-1)
            else scan_search fmt outcome fuel nf.2 pat_index
          | pattern_outcome.bad_timestamp => scan_search fmt outcome fuel nf.2 pat_index
          | pattern_outcome.matched m => search_result.found nf.2 m

/-- The function log_format::check_for_new_year (lines 335-381). The calendar step
gmtime_r, subtraction of the offsets and tm2sec is the collaborator back_date, given
the four offsets and the old time; a result of -1 leaves the line as it is. -/
def check_for_new_year (back_date : Int → Int → Int → Int → Int → Int)
    (dst : List logline) (etm : et_flags_t) (log_tv : timeval) : List logline :=
  match dst.getLast? with
  | none => dst
  | some last_line =>
    let diff := last_line.ll_time.tv_sec - log_tv.tv_sec
    if diff ≤ 0 then dst
    else
      let offs : Option (Int × Int × Int × Int) :=
        if etm.ETF_MONTH_SET && decide (diff ≥ 24 * 60 * 60) then some (1, 0, 0, 0)
        else if diff ≥ 24 * 60 * 60 then some (0, 1, 0, 0)
        else if !etm.ETF_DAY_SET && decide (diff ≥ 60 * 60) then some (0, 0, 1, 0)
        else if !etm.ETF_DAY_SET then some (0, 0, 0, 1)
        else none
      match offs with
      | none => dst
      | some (off_year, off_month, off_day, off_hour) =>
        dst.map (fun ll =>
          let new_time := back_date off_year off_month off_day off_hour ll.ll_time.tv_sec
          if new_time = -1 then ll
          else { ll with ll_time := { ll.ll_time with tv_sec := new_time } })

/-- The text branch of external_log_format::scan (lines 715-880) on the line at file
offset li_offset. The regular-expression engine, the timestamp scanner, level
conversion and module dispatch are collaborators, given by outcome; the statistics
folded at lines 814-850 are not part of this state. The format scanned is not one
that module dispatch re-specializes during the call, which holds for every
specialized clone. The result is none when the loop indexes elf_pattern_order outside
its bounds or dst.back() is taken of an empty dst; otherwise it is the return value,
the format and dst after the call. -/
def scan (back_date : Int → Int → Int → Int → Int → Int) (fmt : log_format)
    (dst : List logline) (li_offset : Int) (outcome : Nat → pattern_outcome) :
    Option (scan_result_t × log_format × List logline) :=
  let orig_lock := last_pattern_index fmt.lf_pattern_locks
  match scan_search fmt outcome (fmt.elf_pattern_order.length + 2) (-1) orig_lock with
  | search_result.found curr_fmt m =>
    let dst1 :=
      if m.et_flags.ETF_DAY_SET && m.et_flags.ETF_MONTH_SET && m.et_flags.ETF_YEAR_SET
      then dst
      else check_for_new_year back_date dst m.et_flags m.log_tv
    let dst2 := dst1 ++ [logline.mk li_offset m.log_tv m.level m.mod_index m.opid]
    let locks :=
      if orig_lock ≠ curr_fmt then
        let lock_line := if fmt.lf_pattern_locks.isEmpty then 0
          else (dst2.length - 1) % 2 ^ 32
        fmt.lf_pattern_locks ++ [pattern_for_lines.mk lock_line curr_fmt]
      else fmt.lf_pattern_locks
    some (scan_result_t.SCAN_MATCH,
      { fmt with lf_pattern_locks := locks, lf_timestamp_flags := m.et_flags }, dst2)
  | search_result.no_pattern =>
    if fmt.lf_specialized && !fmt.lf_multiline then
      match dst.getLast? with
      | none => none
      | some last_line =>
        some (scan_result_t.SCAN_MATCH, fmt,
          dst ++ [logline.mk li_offset last_line.ll_time log_level_t.LEVEL_INVALID 0 0])
    else some (scan_result_t.SCAN_NO_MATCH, fmt, dst)
  | search_result.undefined => none
  | search_result.out_of_fuel => none

/-- The loop of log_format::log_scanf (lines 292-330) for an array of n formats: a
format that does not match, or whose timestamp does not scan, leaves retval null and
the loop goes on; the first one that succeeds ends it. The result is the value of
curr_fmt at the success, if any. A locked index is taken to be one of the n formats,
so that fmt[curr_fmt] is read inside the array. -/
def log_scanf_search (n : Nat) (outcome : Nat → pattern_outcome) :
    Nat → Int → Int → Option Int
  | 0, _, _ => none
  | fuel + 1, curr_fmt, pat_index =>
    let nf := next_format n curr_fmt pat_index
    if nf.1 = false then none
    else
      match outcome nf.2.toNat with
      | pattern_outcome.matched _ => some nf.2
      | _ => log_scanf_search n outcome fuel nf.2 pat_index

/-- The lock bookkeeping of log_format::log_scanf (lines 275-333): the lock list
after the call and whether the call returned a non-null pointer. The argument
line_number is a uint32_t. -/
def log_scanf (locks : List pattern_for_lines) (line_number : Nat) (n : Nat)
    (outcome : Nat → pattern_outcome) : List pattern_for_lines × Bool :=
  let pat_index := last_pattern_index locks
  match log_scanf_search n outcome (n + 2) (-1) pat_index with
  | none => (locks, false)
  | some curr_fmt =>
    if curr_fmt ≠ pat_index then
      let lock_line := if locks.isEmpty then 0 else line_number % 2 ^ 32
      (locks ++ [pattern_for_lines.mk lock_line curr_fmt], true)
    else (locks, true)

/-- The function external_log_format::specialized (lines 2222-2247) on the fields of
log_format. The clone is a copy of the format taken before anything is changed; the
lock list that is cleared is the one of the format the call is made on, and the entry
for fmt_lock goes onto the list of the clone. The result is the pair (clone, format
after the call). -/
def specialized (this : log_format) (fmt_lock : Int) : log_format × log_format :=
  let retval := { this with lf_specialized := true }
  let this1 := { this with lf_pattern_locks := [] }
  let retval :=
    if fmt_lock ≠ -1 then
      { retval with
        lf_pattern_locks := retval.lf_pattern_locks ++ [pattern_for_lines.mk 0 fmt_lock] }
    else retval
  (retval, this1)

/-! ## Auxiliary notions for the scanner properties -/

/-- The lock list that scan leaves when pattern curr_fmt has matched and the line
went to index line_index of dst. -/
def locks_after_match (locks : List pattern_for_lines) (curr_fmt : Int) (line_index : Nat) :
    List pattern_for_lines :=
  if last_pattern_index locks ≠ curr_fmt then
    locks ++ [pattern_for_lines.mk (if locks.isEmpty then 0 else line_index % 2 ^ 32) curr_fmt]
  else locks

/-- A format with two patterns, neither of them a module-format pattern, and an empty
lock list, not yet specialized. -/
def two_pattern_format : log_format :=
  { elf_pattern_order := [⟨false⟩, ⟨false⟩], lf_pattern_locks := [], lf_specialized := false,
    lf_multiline := false, lf_timestamp_flags := ⟨false, false, false⟩ }

/-- A match with a full date at second 10 and level INFO. -/
def full_date_match : line_match :=
  { log_tv := ⟨10, 0⟩, et_flags := ⟨true, true, true⟩, level := log_level_t.LEVEL_INFO,
    mod_index := 0, opid := 0 }

/-- A line that only the pattern with index i matches. -/
def only_pattern_matches (i : Nat) : Nat → pattern_outcome :=
  fun j => if j = i then pattern_outcome.matched full_date_match else pattern_outcome.no_match

/-- A calendar collaborator that leaves every time as it is. -/
def keep_time : Int → Int → Int → Int → Int → Int := fun _ _ _ _ t => t

/-- The lock list is strictly ascending and no entry holds -1, the value that stands
for no lock. -/
def lock_inv (locks : List pattern_for_lines) : Prop :=
  locks_ascending locks ∧ ∀ e ∈ locks, e.pfl_pat_index ≠ -1

/-- No pattern that scan tries matches the line: every pattern is a module-format
pattern or does not match. -/
def no_pattern_matches (fmt : log_format) (outcome : Nat → pattern_outcome) : Prop :=
  ∀ i fpat, fmt.elf_pattern_order[i]? = some fpat → fpat.p_module_format = false →
    outcome i = pattern_outcome.no_match

/-- Every lock entry names a pattern of the format. -/
def locks_in_range (fmt : log_format) : Prop :=
  ∀ e ∈ fmt.lf_pattern_locks,
    0 ≤ e.pfl_pat_index ∧ e.pfl_pat_index < (fmt.elf_pattern_order.length : Int)

/-! ## Activation of the formats (log_format_loader.cc, load_formats, lines 997-1088) -/

/-- Lines 1009-1021: the names of the other formats whose samples format elf matches
are pushed onto the collision list of elf, in the order of LOG_FORMATS. The call
elf->match_samples(check_elf->elf_samples) is the collaborator match_samples on the
two names. -/
def collide (match_samples : intern_string_t → intern_string_t → Bool)
    (formats : List external_log_format) (elf : external_log_format) : external_log_format :=
  { elf with
    elf_collision := elf.elf_collision ++
      ((formats.filter (fun check_elf =>
        check_elf.elf_name != elf.elf_name &&
          match_samples elf.elf_name check_elf.elf_name)).map (fun check_elf =>
        check_elf.elf_name)) }

/-- The loop at lines 1000-1026 over the formats not yet visited. The call
elf->build(errors) only pushes onto errors; build_errors gives what it pushes. A
format goes to alpha_ordered_formats when errors is empty at that point. The module
counter of lines 1004-1007 writes lf_mod_index only. The result is the pair
(errors, alpha_ordered_formats). -/
def build_formats (build_errors : external_log_format → List String)
    (match_samples : intern_string_t → intern_string_t → Bool)
    (formats : List external_log_format) :
    List external_log_format → List String → List external_log_format →
      List String × List external_log_format
  | [], errors, alpha => (errors, alpha)
  | elf :: rest, errors, alpha =>
    build_formats build_errors match_samples formats rest (errors ++ build_errors elf)
      (if (errors ++ build_errors elf).isEmpty then
        alpha ++ [collide match_samples formats elf]
      else alpha)

/-- The state that the second half of load_formats reads and writes: the error list
of the caller, GRAPH_ORDERED_FORMATS and the names of the root formats. -/
structure loader_state where
  errors : List String
  graph_ordered_formats : List external_log_format
  root_formats : List intern_string_t
deriving DecidableEq, Repr

/-- The function load_formats from line 997 on, for the formats registered in
LOG_FORMATS (in map order) and the errors collected so far: build every format,
return if errors is not empty, otherwise run the ordering loop and insert the whole
graph-ordered list into the root formats in front of the root format named
generic_log, at the end when there is none. The result is none when the ordering
loop does not finish within twice as many iterations as there are formats. -/
def load_formats (build_errors : external_log_format → List String)
    (match_samples : intern_string_t → intern_string_t → Bool)
    (generic_log : intern_string_t) (formats : List external_log_format)
    (st : loader_state) : Option loader_state :=
  let built := build_formats build_errors match_samples formats formats st.errors []
  if !built.1.isEmpty then some { st with errors := built.1 }
  else
    match order_loop (2 * built.2.length) built.2 st.graph_ordered_formats with
    | none => none
    | some graph =>
      some { errors := built.1,
             graph_ordered_formats := graph,
             root_formats :=
               st.root_formats.takeWhile (fun r => r != generic_log) ++
                 graph.map (fun elf => elf.elf_name) ++
                 st.root_formats.dropWhile (fun r => r != generic_log) }

/-! ## The rewrite engine (log_format.cc, origin_in_full_msg and rewrite) -/

/-- The struct line_range: the two int fields lr_start and lr_end. -/
structure line_range where
  lr_start : Int
  lr_end : Int
deriving DecidableEq, Repr

/-- The fields of logline_value that origin_in_full_msg and rewrite read and write:
the name in lv_meta, the origin and the sub-line offset. -/
structure logline_value where
  lvm_name : intern_string_t
  lv_origin : line_range
  lv_sub_offset : Int
deriving DecidableEq, Repr

/-- The call memchr(last, newline, msg_end - last) on the bytes of msg: the index of
the first newline at or after last and before msg_end, if any. -/
def memchr_newline (msg : List Char) (last msg_end : Nat) : Option Nat :=
  if ((msg.drop last).take (msg_end - last)).indexOf '\n' <
      ((msg.drop last).take (msg_end - last)).length then
    some (last + ((msg.drop last).take (msg_end - last)).indexOf '\n')
  else none

/-- The for loop of origin_in_full_msg (lines 77-90), for the number of iterations
left, the index last and the range retval. The result is none when require fails or
last has moved past msg_end, where memchr would read outside the message. -/
def origin_walk (msg : List Char) (msg_end : Nat) : Nat → Nat → line_range →
    Option (Nat × line_range)
  | 0, last, retval => some (last, retval)
  | lpc + 1, last, retval =>
    if msg_end < last then none
    else
      match memchr_newline msg last msg_end with
      | none => none
      | some found =>
        origin_walk msg msg_end lpc (found + 1 + 1)
          { lr_start := retval.lr_start + ((found + 1 : Nat) - (last : Nat) : Int),
            lr_end := if retval.lr_end ≠ -1 then
                retval.lr_end + ((found + 1 : Nat) - (last : Nat) : Int)
              else retval.lr_end }

/-- The function logline_value::origin_in_full_msg (lines 64-103) for a message given
by its bytes and the argument len; with len = -1 the length is that of the bytes up
to the first NUL. -/
def origin_in_full_msg (v : logline_value) (msg : List Char) (len : Int) :
    Option line_range :=
  if v.lv_sub_offset = 0 then some v.lv_origin
  else
    let msg_end : Nat := if len = -1 then (msg.takeWhile (fun c => c != '\x00')).length
      else len.toNat
    match origin_walk msg msg_end v.lv_sub_offset.toNat 0 v.lv_origin with
    | none => none
    | some (last, retval) =>
      if retval.lr_end = -1 then
        if msg_end < last then none
        else
          match memchr_newline msg last msg_end with
          | none => some { retval with lr_end := msg_end }
          | some eol => some { retval with lr_end := eol }
      else some retval

/-- The byte offset at which physical line k of a message starts: 0 for k = 0, and
one past the k-th newline otherwise; none when the message has fewer than k
newlines. -/
def physical_line_start (msg : List Char) : Nat → Option Nat
  | 0 => some 0
  | k + 1 =>
    match physical_line_start msg k with
    | none => none
    | some o => (memchr_newline msg o msg.length).map (fun i => i + 1)

/-- An entry of string_attrs_t: the range and the attribute type. -/
structure string_attr where
  sa_range : line_range
  sa_type : Nat
deriving DecidableEq, Repr

/-- The members of line_range that rewrite calls. They are declared in a header that
is not part of src and are taken as given. -/
structure line_range_ops where
  is_valid : line_range → Bool
  length : line_range → Int
  shift : line_range → Int → Int → line_range

/-- Modelled from the spec: the members of line_range as the sources under src use
them. A range whose lr_start is -1 is not valid (all_logs_vtab.cc tests this), an
lr_end of -1 stands for the end of the line (origin_in_full_msg resolves it), and a
shift moves the bounds at or after the start position by the length delta. -/
def default_line_range_ops : line_range_ops :=
  { is_valid := fun r => r.lr_start != -1,
    length := fun r => if r.lr_end = -1 then 2147483647 else r.lr_end - r.lr_start,
    shift := fun r start amount =>
      { lr_start := if r.lr_start ≥ start then max 0 (r.lr_start + amount) else r.lr_start,
        lr_end := if r.lr_end ≠ -1 ∧ start ≤ r.lr_end then
            max (if r.lr_start ≥ start then max 0 (r.lr_start + amount) else r.lr_start)
              (r.lr_end + amount)
          else r.lr_end } }

/-- Modelled from the spec: the function shift_string_attrs is declared in a header
that is not part of src; it shifts the range of every recorded attribute by the
length delta. -/
def shift_string_attrs (ops : line_range_ops) (sa : List string_attr) (start amount : Int) :
    List string_attr :=
  sa.map (fun a => { a with sa_range := ops.shift a.sa_range start amount })

/-- The field of value_def that rewrite reads. -/
structure value_def where
  vd_rewriter : List Char
deriving DecidableEq, Repr

/-- The state of the loop of rewrite: value_out, the line values of the execution
context, the string attributes, and the rewriter expressions handed to execute_any
so far, in order. -/
structure rewrite_state where
  value_out : List Char
  values : List logline_value
  sa : List string_attr
  executed : List (List Char)
deriving DecidableEq, Repr

/-- The conversion of a difference of lengths to int32_t. -/
def to_int32 (x : Int) : Int :=
  (x + 2 ^ 31) % 2 ^ 32 - 2 ^ 31

/-- The body of the for loop of rewrite (lines 1072-1108) for the value at index i.
The map lookup elf_value_defs.find is find_value_def, and execute_any followed by
orElse(err_to_ok).unwrap() is the collaborator execute_any, which sees the line
values and the rewriter expression. The int arguments of erase and insert convert to
size_t: a negative or too large position throws, and erase removes at most what is
left of the string. The result is none when origin_in_full_msg fails or erase or
insert throws. -/
def rewrite_step (ops : line_range_ops) (find_value_def : intern_string_t → Option value_def)
    (execute_any : List logline_value → List Char → List Char)
    (st : rewrite_state) (i : Nat) : Option rewrite_state :=
  match st.values[i]? with
  | none => some st
  | some iter =>
    if ops.is_valid iter.lv_origin = false then some st
    else
      match find_value_def iter.lvm_name with
      | none => some st
      | some vd =>
        if vd.vd_rewriter.isEmpty then some st
        else
          match origin_in_full_msg iter st.value_out st.value_out.length with
          | none => none
          | some adj_origin =>
            if adj_origin.lr_start < 0 ∨ (st.value_out.length : Int) < adj_origin.lr_start
            then none
            else
              let field_value := execute_any st.values vd.vd_rewriter
              let pos := adj_origin.lr_start.toNat
              let count := if ops.length adj_origin < 0 then st.value_out.length - pos
                else min (ops.length adj_origin).toNat (st.value_out.length - pos)
              let erased := st.value_out.take pos ++ st.value_out.drop (pos + count)
              let shift_amount := to_int32 (field_value.length - ops.length adj_origin)
              some { value_out := erased.take pos ++ field_value ++ erased.drop pos,
                     values := st.values.map (fun v =>
                       { v with
                         lv_origin := ops.shift v.lv_origin adj_origin.lr_start shift_amount }),
                     sa := shift_string_attrs ops st.sa adj_origin.lr_start shift_amount,
                     executed := st.executed ++ [vd.vd_rewriter] }

/-- The for loop of rewrite over the values from index i on; n is the number of
values left. -/
def rewrite_loop (ops : line_range_ops) (find_value_def : intern_string_t → Option value_def)
    (execute_any : List logline_value → List Char → List Char) :
    Nat → Nat → rewrite_state → Option rewrite_state
  | 0, _, st => some st
  | n + 1, i, st =>
    match rewrite_step ops find_value_def execute_any st i with
    | none => none
    | some st2 => rewrite_loop ops find_value_def execute_any n (i + 1) st2

/-- The function external_log_format::rewrite (lines 1062-1109): value_out is set to
the bytes of the line and the loop runs over the line values. -/
def rewrite (ops : line_range_ops) (find_value_def : intern_string_t → Option value_def)
    (execute_any : List logline_value → List Char → List Char)
    (line : List Char) (values : List logline_value) (sa : List string_attr) :
    Option rewrite_state :=
  rewrite_loop ops find_value_def execute_any values.length 0
    { value_out := line, values := values, sa := sa, executed := [] }

/-- A value that rewrite passes over: its origin is not valid, or the format has no
value definition for it, or the rewriter of its value definition is empty. -/
def not_rewritable (ops : line_range_ops)
    (find_value_def : intern_string_t → Option value_def) (u : logline_value) : Prop :=
  ops.is_valid u.lv_origin = false ∨ find_value_def u.lvm_name = none ∨
    ∃ vd, find_value_def u.lvm_name = some vd ∧ vd.vd_rewriter = []

/-- A format whose only value definitions are one for name 1 with the rewriter x and
one for name 3 with an empty rewriter. -/
def sample_value_defs : intern_string_t → Option value_def :=
  fun n => if n = 1 then some ⟨['x']⟩ else if n = 3 then some ⟨[]⟩ else none

/-! ## The JSON branch of the line scanner (log_format.cc, scan, lines 629-713) -/

/-- The class logline with the fields that the JSON branch of scan and get_subline
use besides those of logline: the sub-line index written by set_sub_offset, the
LEVEL_CONTINUED bit of the level byte and the bit written by set_ignore. A line built
by the text branch has sub-line index 0 and neither bit. -/
structure json_logline extends logline where
  ll_sub_offset : Nat
  ll_continued : Bool
  ll_ignore : Bool
deriving DecidableEq, Repr

/-- The fields of external_log_format that the JSON branch of scan reads. The count
jlf_line_format_init_count is a sum of newline counts (build, line 1940). -/
structure json_format where
  lf_specialized : Bool
  jlf_line_format_init_count : Nat
deriving DecidableEq, Repr

/-- What yajl_parse, yajl_complete_parse and the callbacks of json_log_handlers leave
behind for one record. The line ll starts as logline(offset, 0, 0, LEVEL_INFO) and
jlu_sub_line_count starts at 1. When both calls return yajl_status_ok: the time, level
and operation id that the callbacks have set in ll, and the values that
value_line_count returned, in the order in which they were added to
jlu_sub_line_count. Otherwise: the time and operation id that the callbacks that ran
before the error have set in ll, and the text that yajl_get_error returns, if any. -/
inductive json_parse_outcome
  | parsed (tv : timeval) (level : log_level_t) (opid : Nat) (value_line_counts : List Nat)
  | failed (tv : timeval) (opid : Nat) (msg : Option (List Char))
deriving DecidableEq, Repr

/-- The line ll of the JSON branch with sub-line index lpc, as it is appended by the
loops at lines 677-684 and 699-709: the LEVEL_CONTINUED bit is set when lpc > 0. -/
def json_sub_line (li_offset : Int) (tv : timeval) (level : log_level_t) (opid : Nat)
    (lpc : Nat) : json_logline :=
  { ll_offset := li_offset, ll_time := tv, ll_level := level, ll_module_id := 0,
    ll_opid := opid, ll_sub_offset := lpc, ll_continued := decide (0 < lpc),
    ll_ignore := false }

/-- The JSON branch of external_log_format::scan (lines 629-713) for the line at file
offset li_offset. The streaming parser with its callbacks is a collaborator, given by
the outcome it has on the record; it is consulted only when the two early returns are
passed. The getter get_time returns a time_t and set_time is called with a time_t at
line 702, so only the seconds of the last line of dst reach the lines appended after
a parse failure; their sub-second part is the one left in ll. The result is none when
dst.back() is taken of an empty dst. -/
def scan_json (fmt : json_format) (dst : List json_logline) (li_offset : Int)
    ( li_partial : Bool) (outcome : json_parse_outcome) :
    Option (scan_result_t × List json_logline) :=
  if fmt.lf_specialized = false ∧ 3 ≤ dst.length then
    some (scan_result_t.SCAN_NO_MATCH, dst)
  else if li_partial = true then
    if fmt.lf_specialized then
      some (scan_result_t.SCAN_INCOMPLETE,
        dst ++ [json_sub_line li_offset ⟨0, 0⟩ log_level_t.LEVEL_INVALID 0 0])
    else some (scan_result_t.SCAN_INCOMPLETE, dst)
  else
    match outcome with
    | json_parse_outcome.parsed tv level opid value_line_counts =>
      if tv.tv_sec = 0 then
        if fmt.lf_specialized then
          some (scan_result_t.SCAN_MATCH,
            dst ++ [{ json_sub_line li_offset tv level opid 0 with ll_ignore := true }])
        else some (scan_result_t.SCAN_NO_MATCH, dst)
      else
        some (scan_result_t.SCAN_MATCH,
          dst ++ (List.range (1 + value_line_counts.sum +
            fmt.jlf_line_format_init_count)).map (json_sub_line li_offset tv level opid))
    | json_parse_outcome.failed tv opid msg =>
      if fmt.lf_specialized = false then some (scan_result_t.SCAN_NO_MATCH, dst)
      else
        match dst.getLast? with
        | none => none
        | some last_line =>
          some (scan_result_t.SCAN_MATCH,
            dst ++ (List.range (match msg with
                | none => 2
                | some m => m.count '\n' + 1)).map
              (json_sub_line li_offset ⟨last_line.ll_time.tv_sec, tv.tv_usec⟩
                log_level_t.LEVEL_INVALID opid))

/-! ## Rendering of JSON records (log_format.cc, get_subline, lines 1218-1507) -/

/-- The two values of elf_type that the sources under src name. -/
inductive elf_type_t
  | ELF_TYPE_TEXT
  | ELF_TYPE_JSON
deriving DecidableEq, Repr

/-- The string attribute type SA_INVALID. The attribute types are distinct global
objects and are told apart here by a number. -/
def SA_INVALID : Nat := 1

/-- The fields of external_log_format that get_subline reads and writes. -/
structure json_cache where
  elf_type : elf_type_t
  jlf_cached_offset : Int
  jlf_cached_full : Bool
  jlf_cached_line : List Char
  jlf_line_values : List logline_value
  jlf_line_offsets : List Nat
  jlf_line_attrs : List string_attr
deriving DecidableEq, Repr

/-- What lines 1236-1466 of get_subline produce for a record. When the parser fails:
the text full_msg that becomes the cached line. Otherwise: the bytes that the loop
over jlf_line_format appends to the cached line (lines 1287-1428), the bytes that the
loop over the unused values appends (lines 1431-1464), and the line values and
attributes at the end; between the two runs of bytes line 1429 appends a newline. -/
inductive render_outcome
  | parse_failed (full_msg : List Char)
  | rendered (line_format_text : List Char) (unused_value_text : List Char)
      (values : List logline_value) (attrs : List string_attr)
deriving DecidableEq, Repr

/-- The loop at lines 1469-1473 from byte index lpc on: one past the index of every
newline of the cached line, in order. -/
def newline_offsets : List Char → Nat → List Nat
  | [], _ => []
  | c :: cs, lpc =>
    if c = '\n' then (lpc + 1) :: newline_offsets cs (lpc + 1)
    else newline_offsets cs (lpc + 1)

/-- Lines 1468-1474: the line-offset index built for a cached line. -/
def line_offsets_of (cached : List Char) : List Nat :=
  0 :: newline_offsets cached 0 ++ [cached.length]

/-- Lines 1491-1494 and 1503-1505: the bytes from this_off up to next_off, without
the newline in front of next_off when there is one and the range is not empty. -/
def slice_between (cached : List Char) (this_off next_off : Nat) : List Char :=
  if 0 < next_off ∧ cached[next_off - 1]? = some '\n' ∧ this_off ≠ next_off then
    (cached.drop this_off).take (next_off - 1 - this_off)
  else (cached.drop this_off).take (next_off - this_off)

/-- Lines 1479-1506: the bytes that get_subline shares into sbr for a line with the
given sub-line index. A sub-line index outside the line-offset index leaves this_off
and next_off at 0. -/
def subline_bytes (cached : List Char) (offsets : List Nat) (sub_offset : Nat)
    (full_message : Bool) : List Char :=
  if full_message then cached
  else
    match offsets[sub_offset]? with
    | none => []
    | some this_off =>
      match offsets[sub_offset + 1]? with
      | some next_off => slice_between cached this_off next_off
      | none => slice_between cached this_off cached.length

/-- The cached line, line values and attributes after lines 1231-1466. -/
def rendered_cache (st : json_cache) (ll : json_logline) (full_message : Bool) :
    render_outcome → json_cache
  | render_outcome.parse_failed full_msg =>
    { st with
      jlf_cached_offset := ll.ll_offset, jlf_cached_full := full_message,
      jlf_cached_line := full_msg, jlf_line_values := [],
      jlf_line_offsets := line_offsets_of full_msg,
      jlf_line_attrs := [⟨⟨0, -1⟩, SA_INVALID⟩] }
  | render_outcome.rendered line_format_text unused_value_text values attrs =>
    { st with
      jlf_cached_offset := ll.ll_offset, jlf_cached_full := full_message,
      jlf_cached_line := line_format_text ++ '\n' :: unused_value_text,
      jlf_line_values := values,
      jlf_line_offsets := line_offsets_of (line_format_text ++ '\n' :: unused_value_text),
      jlf_line_attrs := attrs }

/-- The function external_log_format::get_subline (lines 1218-1507) on the record
bytes sbr. The streaming parser and the rendering of lines 1236-1466 are the
collaborator render. The result is the format after the call, the bytes that sbr
refers to after the call, and the number of times the parser was invoked. -/
def get_subline (render : json_logline → List Char → Bool → render_outcome)
    (st : json_cache) (ll : json_logline) (sbr : List Char) (full_message : Bool) :
    json_cache × List Char × Nat :=
  if st.elf_type = elf_type_t.ELF_TYPE_TEXT then (st, sbr, 0)
  else if st.jlf_cached_offset ≠ ll.ll_offset ∨ st.jlf_cached_full ≠ full_message then
    (rendered_cache st ll full_message (render ll sbr full_message),
      subline_bytes (rendered_cache st ll full_message
          (render ll sbr full_message)).jlf_cached_line
        (rendered_cache st ll full_message (render ll sbr full_message)).jlf_line_offsets
        ll.ll_sub_offset full_message, 1)
  else
    (st, subline_bytes st.jlf_cached_line st.jlf_line_offsets ll.ll_sub_offset full_message, 0)

/-- The physical lines of a buffer: the pieces between its newlines. A buffer with n
newlines has n + 1 pieces, the last of which is empty when the buffer ends with a
newline. -/
def physical_lines : List Char → List (List Char)
  | [] => [[]]
  | c :: cs =>
    if c = '\n' then [] :: physical_lines cs
    else
      match physical_lines cs with
      | [] => [[c]]
      | l :: ls => (c :: l) :: ls

/-- Modelled from the spec: the newline-terminated buffer made of the given physical
lines, each followed by its newline. -/
def join_lines : List (List Char) → List Char
  | [] => []
  | l :: ls => l ++ '\n' :: join_lines ls

/-- A calendar collaborator for the offsets of a day and of an hour, which are fixed
numbers of seconds: what gmtime_r, the subtraction and tm2sec give when off_year and
off_month are 0 and the result is a time after 1970. -/
def back_date_day_hour : Int → Int → Int → Int → Int → Int :=
  fun _ _ off_day off_hour t => t - off_day * 86400 - off_hour * 3600

/-- The C library function strncmp on a run of bytes s1 and a string literal s2, whose
bytes are followed by a NUL: at most n bytes are compared, the result is the
difference of the first two bytes that differ, and 0 when n bytes were equal or both
strings ended. The result is none when the comparison reads s1 past its last byte. -/
def strncmp : List Char → List Char → Nat → Option Int
  | _, _, 0 => some 0
  | [], _, _ + 1 => none
  | c1 :: s1, s2, n + 1 =>
    if c1 ≠ s2.headD (Char.ofNat 0) then
      some ((c1.toNat : Int) - ((s2.headD (Char.ofNat 0)).toNat : Int))
    else if c1 = Char.ofNat 0 then some 0
    else strncmp s1 s2.tail n

/-- The case VALUE_BOOLEAN of the constructor of logline_value (lines 142-150) for a
buffer sbr that is not null: the value stored in lv_value.i. The int that
origin.length() returns is converted to the size_t that strncmp takes. The result is
none when origin.lr_start is negative or strncmp reads past the bytes of sbr. -/
def boolean_lv_value (ops : line_range_ops) (sbr : List Char) (origin : line_range) :
    Option Int :=
  if origin.lr_start < 0 then none
  else
    match strncmp (sbr.drop origin.lr_start.toNat) ['t', 'r', 'u', 'e']
        ((ops.length origin) % 18446744073709551616).toNat with
    | none => none
    | some r1 =>
      if r1 = 0 then some 1
      else
        match strncmp (sbr.drop origin.lr_start.toNat) ['y', 'e', 's']
            ((ops.length origin) % 18446744073709551616).toNat with
        | none => none
        | some r2 => if r2 = 0 then some 1 else some 0

/-! ## Collisions between formats (log_format.cc, match_samples) -/

/-- The fields of pattern that match_samples reads: the flag p_module_format and the
compiled expression p_pcre, which is null until build compiles p_string. The compiled
expression is given by the lines that it matches. -/
structure pcre_pattern extends pattern where
  p_pcre : Option (List Char → Bool)

/-- The function external_log_format::match_samples (lines 2065-2085) for
elf_pattern_order of the format it is called on and the s_line of every sample
passed in: true at the first sample that a pattern with a compiled expression
matches, false when the loops end. -/
def match_samples (elf_pattern_order : List pcre_pattern) (samples : List (List Char)) :
    Bool :=
  samples.any (fun s_line =>
    elf_pattern_order.any (fun pat =>
      match pat.p_pcre with
      | none => false
      | some re => re s_line))

/-! ## Module formats (log_format.cc, module_scan) -/

/-- The fields of external_log_format that module_scan reads and copies: those of
log_format and the module index lf_mod_index. -/
structure module_log_format extends log_format where
  lf_mod_index : Nat
deriving DecidableEq, Repr

/-- The struct module_format: the pointer mf_mod_format, null when no format was
found for the module. -/
structure module_format where
  mf_mod_format : Option module_log_format
deriving DecidableEq, Repr

/-- The two static members that module_scan reads and writes: the map MODULE_FORMATS
from module names to entries and the vector GRAPH_ORDERED_FORMATS. -/
structure module_state where
  MODULE_FORMATS : intern_string_t → Option module_format
  GRAPH_ORDERED_FORMATS : List module_log_format

/-- The C library function isspace in the C locale. -/
def isspace (c : Char) : Bool :=
  c = ' ' || (9 ≤ c.toNat && c.toNat ≤ 13)

/-- Modelled from the spec: capture_t::ltrim is declared in a header that is not part
of src; it moves the start of the capture past leading white space. -/
def ltrim (body : List Char) : List Char :=
  body.dropWhile isspace

/-- The while loop of module_scan (lines 896-918) for one format, entered with the
given curr_fmt and with fmt_lock = -1; pat_match tells whether the compiled
expression of the pattern with the given index matches the body. The result is none
when the iteration allowance runs out or elf_pattern_order is indexed outside its
bounds; otherwise it is the value of curr_fmt at the match, if the loop ends with
one. -/
def module_scan_patterns (elf : module_log_format) (pat_match : Nat → Bool) :
    Nat → Int → Option (Option Int)
  | 0, _ => none
  | fuel + 1, curr_fmt =>
    let nf := next_format elf.elf_pattern_order.length curr_fmt (-1)
    if nf.1 = false then some none
    else if nf.2 < 0 then none
    else
      match elf.elf_pattern_order[nf.2.toNat]? with
      | none => none
      | some fpat =>
        if !fpat.p_module_format then module_scan_patterns elf pat_match fuel nf.2
        else if !pat_match nf.2.toNat then module_scan_patterns elf pat_match fuel nf.2
        else some (some nf.2)

/-- The for loop of module_scan (lines 893-919) over the formats from position i of
GRAPH_ORDERED_FORMATS on; pat_match tells whether the compiled expression of the
given pattern of the format at the given position matches the given input. The
result is the position of the format, the format and the pattern index at the first
match, if there is one. -/
def module_scan_formats (pat_match : Nat → Nat → List Char → Bool) (body : List Char) :
    Nat → List module_log_format → Option (Option (Nat × module_log_format × Int))
  | _, [] => some none
  | i, elf :: rest =>
    match module_scan_patterns elf (fun k => pat_match i k body)
        (elf.elf_pattern_order.length + 1) (-1) with
    | none => none
    | some (some curr_fmt) => some (some (i, elf, curr_fmt))
    | some none => module_scan_formats pat_match body (i + 1) rest

/-- The function external_log_format::module_scan (lines 882-924) for the bytes of
the body capture. The result is the return value and the two static members after
the call: the entry for mod_name holds the clone that specialized returns, and the
format that specialized was called on sits in GRAPH_ORDERED_FORMATS with its lock
list cleared. -/
def module_scan (st : module_state) (pat_match : Nat → Nat → List Char → Bool)
    (body : List Char) (mod_name : intern_string_t) : Option (Nat × module_state) :=
  match module_scan_formats pat_match (ltrim body) 0 st.GRAPH_ORDERED_FORMATS with
  | none => none
  | some (some (i, elf, curr_fmt)) =>
    some (elf.lf_mod_index,
      { MODULE_FORMATS := fun n =>
          if n = mod_name then
            some ⟨some ⟨(specialized elf.tolog_format curr_fmt).1, elf.lf_mod_index⟩⟩
          else st.MODULE_FORMATS n,
        GRAPH_ORDERED_FORMATS :=
          st.GRAPH_ORDERED_FORMATS.set i
            ⟨(specialized elf.tolog_format curr_fmt).2, elf.lf_mod_index⟩ })
  | some none =>
    some (0,
      { st with
        MODULE_FORMATS := fun n => if n = mod_name then some ⟨none⟩ else st.MODULE_FORMATS n })

/-- Lines 779-787 of scan: the module index of a line whose module capture is
mod_name. module_scan is called when MODULE_FORMATS has no entry for the name;
mod_index starts at 0 (line 745). -/
def scan_module_index (st : module_state) (pat_match : Nat → Nat → List Char → Bool)
    (body : List Char) (mod_name : intern_string_t) : Option (Nat × module_state) :=
  match st.MODULE_FORMATS mod_name with
  | none => module_scan st pat_match body mod_name
  | some mf =>
    match mf.mf_mod_format with
    | some f => some (f.lf_mod_index, st)
    | none => some (0, st)

/-- Pattern k of the format is flagged module-format and its compiled expression
matches the input. -/
def module_pattern_matches (elf : module_log_format) (pat_match : Nat → Bool) (k : Nat) :
    Prop :=
  ∃ fpat, elf.elf_pattern_order[k]? = some fpat ∧ fpat.p_module_format = true ∧
    pat_match k = true

/-! ## String fragments (base/intern_string.hh, exercised by intern_string.tests.cc) -/

/-- Modelled from the spec: the struct string_fragment is declared in
intern_string.hh, which is not part of src: the bytes of sf_string from sf_begin up
to sf_end. -/
structure string_fragment where
  sf_string : List Char
  sf_begin : Nat
  sf_end : Nat
deriving DecidableEq, Repr

/-- Modelled from the spec: string_fragment::to_string, the bytes of the fragment. -/
def sf_to_string (sf : string_fragment) : List Char :=
  (sf.sf_string.drop sf.sf_begin).take (sf.sf_end - sf.sf_begin)

/-- Modelled from the spec: the loop of string_fragment::consume, which counts the
bytes at the front of the fragment for which the predicate holds and stops at the
first byte for which it does not. -/
def consume_count (pred : Char → Bool) : List Char → Nat
  | [] => 0
  | c :: cs => if pred c then consume_count pred cs + 1 else 0

/-- Modelled from the spec: string_fragment::consume is declared in intern_string.hh,
which is not part of src; only its test is. When the predicate holds for no byte at
the front of the fragment there is no value; otherwise the value is the fragment
that starts after the bytes counted. -/
def consume (sf : string_fragment) (pred : Char → Bool) : Option string_fragment :=
  if consume_count pred (sf_to_string sf) = 0 then none
  else some { sf with sf_begin := sf.sf_begin + consume_count pred (sf_to_string sf) }

/-! ## SQL identifiers (sql_util.cc, sql_quote_ident) -/

/-- The C library function isdigit in the C locale. -/
def isdigit (c : Char) : Bool :=
  48 ≤ c.toNat && c.toNat ≤ 57

/-- The C library function isalnum in the C locale. -/
def isalnum (c : Char) : Bool :=
  isdigit c || (65 ≤ c.toNat && c.toNat ≤ 90) || (97 ≤ c.toNat && c.toNat ≤ 122)

/-- The first loop of sql_quote_ident (lines 615-623) from index lpc on, over the
bytes of ident in front of its NUL: the values of needs_quote and quote_count. -/
def quote_scan : List Char → Nat → Bool × Nat → Bool × Nat
  | [], _, acc => acc
  | c :: rest, lpc, (needs_quote, quote_count) =>
    quote_scan rest (lpc + 1)
      (if (lpc = 0 ∧ isdigit c = true) ∨ (isalnum c = false ∧ c ≠ '_') then true
        else needs_quote,
       if c = '"' then quote_count + 1 else quote_count)

/-- The second loop of sql_quote_ident (lines 636-646): the bytes written for the
bytes of ident. The case for the double quote writes a double quote and falls through
to the default case, which writes the byte itself. -/
def quote_body : List Char → List Char
  | [] => []
  | c :: rest => if c = '"' then '"' :: c :: quote_body rest else c :: quote_body rest

/-- The function sql_quote_ident (lines 609-656) on the bytes of ident in front of its
NUL. The allocator sqlite3_malloc takes an int; sqlite3_malloc tells whether the
allocation of that many bytes succeeds. The result is none when the int index of the
first loop overflows or a byte is written outside the allocation; some none stands
for the NULL returned when the allocation fails; otherwise the result is the bytes
written in front of the closing NUL. -/
def sql_quote_ident (sqlite3_malloc : Int → Bool) (ident : List Char) :
    Option (Option (List Char)) :=
  if 2147483647 < ident.length then none
  else
    let scanned := quote_scan ident 0 (false, 0)
    let alloc_size : Nat :=
      (ident.length + scanned.2 * 2 + (if scanned.1 then 2 else 0) + 1) % 2 ^ 64
    let n : Int := (((alloc_size + 2 ^ 31) % 2 ^ 32 : Nat) : Int) - 2 ^ 31
    if sqlite3_malloc n = false then some none
    else
      let retval :=
        (if scanned.1 then ['"'] else []) ++ quote_body ident ++
          (if scanned.1 then ['"'] else [])
      if (retval.length : Int) + 1 ≤ n then some (some retval) else none

/-- The condition under which the claim has an identifier quoted: it begins with a
digit or holds a byte that is neither alphanumeric nor an underscore. -/
def ident_needs_quote (ident : List Char) : Bool :=
  (match ident with
    | [] => false
    | c :: _ => isdigit c) ||
  ident.any (fun c => !isalnum c && c != '_')

/-- The identifier with every double quote doubled. -/
def double_quotes : List Char → List Char
  | [] => []
  | c :: rest => if c = '"' then '"' :: '"' :: double_quotes rest else c :: double_quotes rest

/-! ## The timestamp divisor (log_format_loader.cc and log_format.cc) -/

/-- A finite value of the C type double: the number mant * 2 ^ exp. Every finite
double is of this form. -/
structure double_value where
  mant : Int
  exp : Int
deriving DecidableEq, Repr

/-- The conversion of a long long to double: exact below 2 ^ 53 in absolute value,
otherwise rounded to 53 significant bits, to nearest and ties to even. -/
def long_long_to_double (val : Int) : double_value :=
  if val.natAbs < 2 ^ 53 then ⟨val, 0⟩
  else
    let k := Nat.log2 val.natAbs + 1 - 53
    let q := val.natAbs / 2 ^ k
    let r := val.natAbs % 2 ^ k
    let rounded := if 2 ^ (k - 1) < r ∨ (r = 2 ^ (k - 1) ∧ q % 2 = 1) then q + 1 else q
    ⟨if val < 0 then -(rounded : Int) else (rounded : Int), (k : Int)⟩

/-- The conversion of a double to long long: the fraction is cut off, and the result
is none, for undefined, when what is left does not fit 64 bits. -/
def double_to_long_long (d : double_value) : Option Int :=
  let t : Int :=
    if 0 ≤ d.exp then d.mant * 2 ^ d.exp.toNat else Int.tdiv d.mant (2 ^ (-d.exp).toNat)
  if -(2 ^ 63) ≤ t ∧ t < 2 ^ 63 then some t else none

/-- The function read_format_double (lines 183-199) for the field timestamp-divisor:
the return value and elf_timestamp_divisor after the call. A value val <= 0 is
refused with return value 0. -/
def read_format_double (elf_timestamp_divisor : double_value) (val : double_value) :
    Int × double_value :=
  if val.mant ≤ 0 then (0, elf_timestamp_divisor) else (1, val)

/-- The function read_format_int (lines 201-217) for the field timestamp-divisor: the
return value and elf_timestamp_divisor after the call. -/
def read_format_int (elf_timestamp_divisor : double_value) (val : Int) :
    Int × double_value :=
  if val ≤ 0 then (0, elf_timestamp_divisor) else (1, long_long_to_double val)

/-- Lines 432-437 of read_json_int, for the timestamp field: the divisor is
elf_timestamp_divisor converted to long long, and the result is tv_sec = val / divisor
together with the remainder val % divisor, which the code then scales to microseconds
in double arithmetic. The result is none when the conversion is undefined or the
divisor is 0, where the integer division is undefined. -/
def read_json_int_time (elf_timestamp_divisor : double_value) (val : Int) :
    Option (Int × Int) :=
  match double_to_long_long elf_timestamp_divisor with
  | none => none
  | some divisor =>
    if divisor = 0 then none else some (Int.tdiv val divisor, Int.tmod val divisor)

/-! ## The sample check of build (log_format.cc, lines 1738-1877) -/

/-- The fields of pattern that the sample loop of build reads besides p_pcre and
p_module_format: what p_pcre->name_index(lf_timestamp_field) and
p_pcre->match_partial(pi) give, and the texts p_config_path and p_string. -/
structure build_pattern extends pcre_pattern where
  timestamp_name_index : Int
  match_partial : List Char → Nat
  p_config_path : String
  p_string : String

/-- The inner loop of lines 1749-1846 over the patterns from position idx on, for the
sample s_line: the flag found and the error list. The loop condition stops it once
found is set. What lines 1775-1843 push for a sample that a pattern matches (a
timestamp that does not parse, a level that differs) is the collaborator
match_errors, given the sample and the position of the pattern. -/
def sample_pattern_loop (name ts_field : String)
    (match_errors : List Char → Nat → List String) (s_line : List Char) :
    List build_pattern → Nat → Bool × List String → Bool × List String
  | [], _, acc => acc
  | pat :: rest, idx, (found, errors) =>
    if found then (found, errors)
    else
      match pat.p_pcre with
      | none => sample_pattern_loop name ts_field match_errors s_line rest (idx + 1)
          (found, errors)
      | some re =>
        if !pat.p_module_format && decide (pat.timestamp_name_index < 0) then
          sample_pattern_loop name ts_field match_errors s_line rest (idx + 1)
            (found, errors ++ ["error:" ++ name ++ ":timestamp field '" ++ ts_field ++
              "' not found in pattern -- " ++ pat.p_string])
        else if re s_line then
          if pat.p_module_format then
            sample_pattern_loop name ts_field match_errors s_line rest (idx + 1)
              (true, errors)
          else
            sample_pattern_loop name ts_field match_errors s_line rest (idx + 1)
              (true, errors ++ match_errors s_line idx)
        else
          sample_pattern_loop name ts_field match_errors s_line rest (idx + 1)
            (found, errors)

/-- The loop of lines 1854-1876 over the patterns, run for a sample that no pattern
matched: the errors that report how far each compiled pattern got. -/
def partial_match_errors (name : String) (s_line : List Char) :
    List build_pattern → List String
  | [] => []
  | pat :: rest =>
    match pat.p_pcre with
    | none => partial_match_errors name s_line rest
    | some _ =>
      (if 0 < pat.match_partial s_line then
        ["error:" ++ name ++ ":partial sample matched -- " ++
            String.mk (s_line.take (pat.match_partial s_line)),
          "error:  against pattern " ++ pat.p_config_path ++ " -- " ++ pat.p_string]
      else ["error:" ++ name ++ ":no partial match found"]) ++
        partial_match_errors name s_line rest

/-- The body of the loop over elf_samples (lines 1744-1877) for one sample: the error
list after it. -/
def check_sample (name ts_field : String) (match_errors : List Char → Nat → List String)
    (elf_pattern_order : List build_pattern) (errors : List String) (s_line : List Char) :
    List String :=
  let r := sample_pattern_loop name ts_field match_errors s_line elf_pattern_order 0
    (false, errors)
  if r.1 = false then
    r.2 ++ ["error:" ++ name ++ ":invalid sample         -- " ++ String.mk s_line] ++
      partial_match_errors name s_line elf_pattern_order
  else r.2

/-- The loop over elf_samples (lines 1744-1877): the error list after it. -/
def check_samples (name ts_field : String) (match_errors : List Char → Nat → List String)
    (elf_pattern_order : List build_pattern) :
    List (List Char) → List String → List String
  | [], errors => errors
  | s_line :: rest, errors =>
    check_samples name ts_field match_errors elf_pattern_order rest
      (check_sample name ts_field match_errors elf_pattern_order errors s_line)

/-- What build reads of a format for the sample check, together with the errors that
the parts of build in front of the sample loop (lines 1509-1743) and after it (lines
1879-1990) push, which are collaborators. -/
structure build_view where
  name : String
  ts_field : String
  elf_pattern_order : List build_pattern
  elf_samples : List (List Char)
  match_errors : List Char → Nat → List String
  errors_before : List String
  errors_after : List String

/-- The function external_log_format::build on the error list of the caller: the
error list after the call. Every part of build only pushes onto it. -/
def build (v : build_view) (errors : List String) : List String :=
  check_samples v.name v.ts_field v.match_errors v.elf_pattern_order v.elf_samples
    (errors ++ v.errors_before) ++ v.errors_after

/-! ## Column indexes of the value definitions (log_format.cc, build and get_columns) -/

/-- The fields of value_def that the column assignment reads and writes: the flag
vd_internal and the column index vd_meta.lvm_column. -/
structure value_def_cols where
  vd_internal : Bool
  lvm_column : Int
deriving DecidableEq, Repr

/-- The map elf_value_defs and the counter elf_column_count. The value definitions
are shared objects: the loader puts each one into elf_value_defs under its name and
into elf_value_def_order at the same time (value_def_provider), and no entry of the
map is ever replaced, so an object is identified by its name and elf_value_def_order
is a list of names. -/
structure column_state where
  elf_value_defs : intern_string_t → Option value_def_cols
  elf_column_count : Int

/-- Lines 1511-1521 and 1538-1548: elf_value_defs[field], created with column -1
when there is none, gets vd_internal = true. -/
def mark_internal (st : column_state) (field : intern_string_t) : column_state :=
  { st with
    elf_value_defs := fun n =>
      if n = field then
        some { vd_internal := true,
               lvm_column :=
                 match st.elf_value_defs field with
                 | some vd => vd.lvm_column
                 | none => -1 }
      else st.elf_value_defs n }

/-- Lines 1627-1629 and 1716-1719: a value definition that is not internal and has
column -1 gets the next column index. A name that is not in elf_value_defs is
skipped (line 1615). -/
def assign_column (st : column_state) (name : intern_string_t) : column_state :=
  match st.elf_value_defs name with
  | none => st
  | some vd =>
    if !vd.vd_internal && vd.lvm_column == -1 then
      { elf_value_defs := fun n =>
          if n = name then some { vd with lvm_column := st.elf_column_count }
          else st.elf_value_defs n,
        elf_column_count := st.elf_column_count + 1 }
    else st

/-- Lines 1510-1522 and 1537-1549: the timestamp field and the body field are marked
internal when the field name is not empty. An empty field name is none. -/
def mark_field (st : column_state) : Option intern_string_t → column_state
  | none => st
  | some f => mark_internal st f

/-- Lines 1523-1536: a level field whose name is not empty and that has no value
definition gets an internal one. -/
def mark_level_field (st : column_state) : Option intern_string_t → column_state
  | none => st
  | some f =>
    match st.elf_value_defs f with
    | none => mark_internal st f
    | some _ => st

/-- The parts of build that touch the column indexes. Lines 1510-1549: the timestamp,
level and body fields. Lines 1563-1676: for every pattern that compiles, every named
capture in turn, given by captures. Lines 1713-1719: every value definition of
elf_value_def_order in turn. -/
def build_columns (lf_timestamp_field elf_level_field elf_body_field : Option intern_string_t)
    (captures : List (List intern_string_t)) (elf_value_def_order : List intern_string_t)
    (st : column_state) : column_state :=
  elf_value_def_order.foldl assign_column
    (captures.foldl (fun s names => names.foldl assign_column s)
      (mark_field
        (mark_level_field (mark_field st lf_timestamp_field) elf_level_field)
        elf_body_field))

/-- The function external_log_table::get_columns (lines 2092-2112): the names written
into cols, which is resized to elf_column_count. The result is none when the
requirement of line 2104 fails. -/
def get_columns (st : column_state) (elf_value_def_order : List intern_string_t) :
    Option (List (Option intern_string_t)) :=
  elf_value_def_order.foldl
    (fun acc name =>
      match acc with
      | none => none
      | some cols =>
        match st.elf_value_defs name with
        | none => some cols
        | some vd =>
          if vd.lvm_column = -1 then some cols
          else if 0 ≤ vd.lvm_column ∧ vd.lvm_column < st.elf_column_count then
            some (cols.set vd.lvm_column.toNat (some name))
          else none)
    (some (List.replicate st.elf_column_count.toNat none))

/-- The state of the column indexes that build keeps: the counter is not negative,
every column index is -1 or below the counter, internal value definitions have -1,
no two value definitions share an index other than -1, and every index below the
counter is taken. -/
def columns_inv (st : column_state) : Prop :=
  0 ≤ st.elf_column_count ∧
  (∀ n vd, st.elf_value_defs n = some vd →
    vd.lvm_column = -1 ∨ (0 ≤ vd.lvm_column ∧ vd.lvm_column < st.elf_column_count)) ∧
  (∀ n vd, st.elf_value_defs n = some vd → vd.vd_internal = true → vd.lvm_column = -1) ∧
  (∀ n1 n2 vd1 vd2, st.elf_value_defs n1 = some vd1 → st.elf_value_defs n2 = some vd2 →
    vd1.lvm_column ≠ -1 → vd1.lvm_column = vd2.lvm_column → n1 = n2) ∧
  (∀ c, 0 ≤ c → c < st.elf_column_count →
    ∃ n vd, st.elf_value_defs n = some vd ∧ vd.lvm_column = c)

/-- Every value definition of the first state is one of the second, with the same flag
vd_internal and, once it has a column index, the same column index; the second state
has no others. -/
def columns_kept (st st2 : column_state) : Prop :=
  ∀ n, (st.elf_value_defs n = none → st2.elf_value_defs n = none) ∧
    ∀ vd, st.elf_value_defs n = some vd →
      ∃ vd2, st2.elf_value_defs n = some vd2 ∧ vd2.vd_internal = vd.vd_internal ∧
        (vd.lvm_column ≠ -1 → vd2.lvm_column = vd.lvm_column)

/-! ## The candidate patterns of scan -/

/-- The pattern indexes at which the loop of scan (lines 720-867) calls match, in the
order of the calls. The recursion is that of scan_search; an index is recorded where
scan_search looks at the outcome of the match. -/
def scan_tried (fmt : log_format) (outcome : Nat → pattern_outcome) :
    Nat → Int → Int → List Nat
  | 0, _, _ => []
  | fuel + 1, curr_fmt, pat_index =>
    let nf := next_format fmt.elf_pattern_order.length curr_fmt pat_index
    if nf.1 = false then []
    else if nf.2 < 0 then []
    else
      match fmt.elf_pattern_order[nf.2.toNat]? with
      | none => []
      | some fpat =>
        if fpat.p_module_format then scan_tried fmt outcome fuel nf.2 pat_index
        else
          match outcome nf.2.toNat with
          | pattern_outcome.no_match =>
            nf.2.toNat ::
              (if !fmt.lf_pattern_locks.isEmpty && pat_index != -1 then
                scan_tried fmt outcome fuel (-1) (-1)
              else scan_tried fmt outcome fuel nf.2 pat_index)
          | pattern_outcome.bad_timestamp =>
            nf.2.toNat :: scan_tried fmt outcome fuel nf.2 pat_index
          | pattern_outcome.matched _ => [nf.2.toNat]

/-- The pattern matches the line and its timestamp parses. -/
def is_matched : pattern_outcome → Bool
  | pattern_outcome.matched _ => true
  | _ => false

/-- The pattern with index k is one that scan tries: it is not flagged
module-format. -/
def is_candidate (fmt : log_format) (k : Nat) : Bool :=
  match fmt.elf_pattern_order[k]? with
  | some fpat => !fpat.p_module_format
  | none => false

/-- The candidate sequence that the claim describes for a list of pattern indexes: the
indexes of the patterns not flagged module-format, in the order of the list, up to
and including the first one that matches with a timestamp that parses. -/
def candidates_through (fmt : log_format) (outcome : Nat → pattern_outcome)
    (idxs : List Nat) : List Nat :=
  (idxs.filter (is_candidate fmt)).takeWhile (fun k => !is_matched (outcome k)) ++
    ((idxs.filter (is_candidate fmt)).dropWhile (fun k => !is_matched (outcome k))).take 1

/-! ## Rendering of a JSON record (log_format.cc, get_subline, lines 1272-1466) -/

/-- The enum json_log_field of a line-format element. -/
inductive json_log_field
  | JLF_CONSTANT
  | JLF_VARIABLE
deriving DecidableEq, Repr

/-- The enum json_format_element::overflow_t. -/
inductive overflow_t
  | ABBREV
  | TRUNCATE
  | DOTDOT
deriving DecidableEq, Repr

/-- The enum json_format_element::transform_t. -/
inductive transform_t
  | NONE
  | UPPERCASE
  | LOWERCASE
  | CAPITALIZE
deriving DecidableEq, Repr

/-- The fields of json_format_element that the rendering loop reads. The fields
jfe_min_width and jfe_align are read by json_append only. -/
structure json_format_element where
  jfe_type : json_log_field
  jfe_value : intern_string_t
  jfe_default_value : List Char
  jfe_max_width : Int
  jfe_overflow : overflow_t
  jfe_text_transform : transform_t
deriving DecidableEq, Repr

/-- The fields of a logline_value in jlf_line_values that the rendering loop reads and
writes, with lv_str for what to_string() returns. -/
structure json_line_value extends logline_value where
  lv_str : List Char
  lvm_hidden : Bool
  lvm_user_hidden : Bool
deriving DecidableEq, Repr

/-- What the rendering loop takes from outside: json_append (declared in a header that
is not part of src) by the bytes it appends for an element and a value, abbreviate_str
by the bytes it leaves, the text of the timestamp (sql_strftime or ftime_fmt), the
name of the level, the text of a name, and the interned names that the loop compares
with. -/
structure render_env where
  json_append : json_format_element → List Char → List Char
  abbreviate_str : List Char → Int → List Char
  ts_text : json_format_element → List Char
  level_name : List Char
  name_text : intern_string_t → List Char
  ts_field : intern_string_t
  level_field : intern_string_t
  body_name : intern_string_t
  lf_timestamp_field : intern_string_t

/-- The state of the rendering loop: the cached line, the counter sub_offset, the line
values and the array used_values. The attributes pushed at lines 1348-1359 and 1385
are not part of this state. -/
structure render_state where
  jlf_cached_line : List Char
  sub_offset : Int
  jlf_line_values : List json_line_value
  used_values : List Bool
deriving DecidableEq, Repr

/-- Modelled from the spec: json_append_to_cache(value, len) is declared in a header
that is not part of src; it appends to the cached line the len bytes at value. The
bytes that can be read at value are those given and the NUL after them; the result
is none when len reaches past them. -/
def json_append_to_cache (cached value : List Char) (len : Nat) : Option (List Char) :=
  if len ≤ value.length + 1 then some (cached ++ (value ++ [Char.ofNat 0]).take len)
  else none

/-- The C library function toupper in the C locale. -/
def toupper (c : Char) : Char :=
  if 97 ≤ c.toNat ∧ c.toNat ≤ 122 then Char.ofNat (c.toNat - 32) else c

/-- The C library function tolower in the C locale. -/
def tolower (c : Char) : Char :=
  if 65 ≤ c.toNat ∧ c.toNat ≤ 90 then Char.ofNat (c.toNat + 32) else c

/-- The accesses jlf_cached_line[cindex] = f(jlf_cached_line[cindex]) that the loops
of lines 1404-1427 make for a buffer of the given size, in order: the index and the
function. The first loop of CAPITALIZE runs for cindex = begin_size whatever the
size is. -/
def transform_accesses (t : transform_t) (begin_size size : Nat) :
    List (Nat × (Char → Char)) :=
  match t with
  | transform_t.NONE => []
  | transform_t.UPPERCASE =>
    (List.range' begin_size (size - begin_size)).map (fun cindex => (cindex, toupper))
  | transform_t.LOWERCASE =>
    (List.range' begin_size (size - begin_size)).map (fun cindex => (cindex, tolower))
  | transform_t.CAPITALIZE =>
    (begin_size, toupper) ::
      (List.range' (begin_size + 1) (size - (begin_size + 1))).map
        (fun cindex => (cindex, tolower))

/-- The accesses made one after the other on the cached line. An access at an index
that is not below the size of the vector is undefined and gives none. -/
def apply_accesses : List (Nat × (Char → Char)) → List Char → Option (List Char)
  | [], cached => some cached
  | (cindex, f) :: rest, cached =>
    match cached[cindex]? with
    | none => none
    | some c => apply_accesses rest (cached.set cindex (f c))

/-- The switch on jfe_text_transform (lines 1404-1427). -/
def apply_transform (t : transform_t) (begin_size : Nat) (cached : List Char) :
    Option (List Char) :=
  apply_accesses (transform_accesses t begin_size cached.length) cached

/-- Lines 1309-1338: what the element appends for a value whose string is longer than
jfe_max_width. The arguments middle and rest are of type size_t, so the numbers are
taken modulo 2 ^ 64; the third call of DOTDOT reads at str.c_str() + str.size() - rest,
which lies outside the string when rest is larger than its size. -/
def render_overflow (env : render_env) (jfe : json_format_element) (cached str : List Char) :
    Option (List Char) :=
  match jfe.jfe_overflow with
  | overflow_t.ABBREV => some (cached ++ env.abbreviate_str str jfe.jfe_max_width)
  | overflow_t.TRUNCATE =>
    json_append_to_cache cached str (jfe.jfe_max_width % 2 ^ 64).toNat
  | overflow_t.DOTDOT =>
    let middle : Nat := ((Int.tdiv jfe.jfe_max_width 2 - 1) % 2 ^ 64).toNat
    let rest : Nat := ((jfe.jfe_max_width - (middle : Int) - 2) % 2 ^ 64).toNat
    match json_append_to_cache cached str middle with
    | none => none
    | some c1 =>
      match json_append_to_cache c1 ['.', '.'] 2 with
      | none => none
      | some c2 =>
        if str.length < rest then none
        else json_append_to_cache c2 (str.drop (str.length - rest)) rest

/-- Line 1328: size_t middle = (jfe.jfe_max_width / 2) - 1, the length that the first
call of json_append_to_cache under DOTDOT is given. The division is the one of int, the
result is converted to size_t. -/
def dotdot_middle (jfe_max_width : Int) : Nat :=
  ((Int.tdiv jfe_max_width 2 - 1) % 2 ^ 64).toNat

/-- Line 1332: size_t rest = (jfe.jfe_max_width - middle - 2), the length that the third
call of json_append_to_cache under DOTDOT is given. -/
def dotdot_rest (jfe_max_width : Int) : Nat :=
  ((jfe_max_width - (dotdot_middle jfe_max_width : Int) - 2) % 2 ^ 64).toNat

/-- The index of the first line value with the given name (find_if with
logline_value_cmp). -/
def find_value (values : List json_line_value) (name : intern_string_t) : Option Nat :=
  if values.findIdx (fun lv => lv.lvm_name == name) < values.length then
    some (values.findIdx (fun lv => lv.lvm_name == name))
  else none

/-- The body of the loop over jlf_line_format (lines 1287-1428) for one element. The
test of line 1308 compares (int)str.size() with jfe_max_width. The result is none
when a byte is read or written outside its buffer. -/
def render_element (env : render_env) (full_message : Bool) (st : render_state)
    (jfe : json_format_element) : Option render_state :=
  match jfe.jfe_type with
  | json_log_field.JLF_CONSTANT =>
    (json_append_to_cache st.jlf_cached_line jfe.jfe_default_value
      jfe.jfe_default_value.length).map (fun c => { st with jlf_cached_line := c })
  | json_log_field.JLF_VARIABLE =>
    let appended : Option render_state :=
      match find_value st.jlf_line_values jfe.jfe_value with
      | some i =>
        match st.jlf_line_values[i]? with
        | none => none
        | some lv =>
          let filled : Option (List Char × Int) :=
            if jfe.jfe_max_width < to_int32 (lv.lv_str.length : Int) then
              (render_overflow env jfe st.jlf_cached_line lv.lv_str).map
                (fun c => (c, st.sub_offset))
            else
              some (st.jlf_cached_line ++ env.json_append jfe lv.lv_str,
                st.sub_offset + (lv.lv_str.count '\n' : Int))
          filled.map (fun r =>
            { jlf_cached_line := r.1,
              sub_offset := r.2,
              jlf_line_values := st.jlf_line_values.set i
                { lv with
                  lvm_hidden := lv.lvm_user_hidden,
                  lv_origin :=
                    ⟨(st.jlf_cached_line.length : Int),
                      if lv.lv_str.indexOf '\n' = lv.lv_str.length ∨ full_message = true then
                        (r.1.length : Int)
                      else (st.jlf_cached_line.length : Int) + (lv.lv_str.indexOf '\n' : Int)⟩ },
              used_values := st.used_values.set i true })
      | none =>
        if jfe.jfe_value = env.ts_field then
          some { st with
            jlf_cached_line := st.jlf_cached_line ++ env.ts_text jfe,
            used_values :=
              match find_value st.jlf_line_values env.lf_timestamp_field with
              | some i => st.used_values.set i true
              | none => st.used_values }
        else if jfe.jfe_value = env.level_field then
          some { st with
            jlf_cached_line := st.jlf_cached_line ++ env.json_append jfe env.level_name }
        else
          some { st with
            jlf_cached_line := st.jlf_cached_line ++ env.json_append jfe jfe.jfe_default_value }
    match appended with
    | none => none
    | some st2 =>
      (apply_transform jfe.jfe_text_transform st.jlf_cached_line.length
        st2.jlf_cached_line).map (fun c => { st2 with jlf_cached_line := c })

/-- The loop over jlf_line_format (lines 1287-1428). -/
def render_line_format (env : render_env) (full_message : Bool) :
    List json_format_element → render_state → Option render_state
  | [], st => some st
  | jfe :: rest, st =>
    match render_element env full_message st jfe with
    | none => none
    | some st2 => render_line_format env full_message rest st2

/-- The do-while loop of lines 1445-1463 for one unused value: the string of the value
is cut at its newlines and every piece is appended behind two blanks, the name, a
colon and a blank, and closed by a newline. -/
def unused_value_text (name str : List Char) : List Char :=
  ((physical_lines str).map
    (fun line => ' ' :: ' ' :: name ++ ':' :: ' ' :: line ++ ['\n'])).flatten

/-- The loop over jlf_line_values (lines 1431-1464) from the value with index lpc on:
a value that is hidden, used or named body is skipped; another one gets the current
sub_offset and an origin that starts behind the name, and its lines are appended. -/
def render_unused (env : render_env) :
    List json_line_value → Nat → render_state → render_state
  | [], _, st => st
  | lv :: rest, lpc, st =>
    if lv.lvm_hidden = true ∨ st.used_values[lpc]? = some true ∨ env.body_name = lv.lvm_name then
      render_unused env rest (lpc + 1) st
    else
      render_unused env rest (lpc + 1)
        { jlf_cached_line :=
            st.jlf_cached_line ++ unused_value_text (env.name_text lv.lvm_name) lv.lv_str,
          sub_offset := st.sub_offset + ((physical_lines lv.lv_str).length : Int),
          jlf_line_values := st.jlf_line_values.set lpc
            { lv with
              lv_sub_offset := st.sub_offset,
              lv_origin :=
                ⟨2 + ((env.name_text lv.lvm_name).length : Int) + 2, lv.lv_origin.lr_end⟩ },
          used_values := st.used_values }

/-- Lines 1939-1944 of build: jlf_line_format_init_count counts the newlines in the
default values of the constant elements. -/
def line_format_init_count : List json_format_element → Nat
  | [] => 0
  | jfe :: rest =>
    (match jfe.jfe_type with
      | json_log_field.JLF_CONSTANT => jfe.jfe_default_value.count '\n'
      | json_log_field.JLF_VARIABLE => 0) + line_format_init_count rest

/-- Lines 1272-1466 of get_subline, the branch of a record that parses: the cached
line starts empty, used_values starts all false, sub_offset starts at 1 +
jlf_line_format_init_count; the line format is rendered, a newline is appended, and
the unused values follow. The line values are those that the parser callbacks have
pushed. -/
def render_record (env : render_env) (full_message : Bool)
    (jlf_line_format : List json_format_element) (jlf_line_format_init_count : Nat)
    (values : List json_line_value) : Option render_state :=
  match render_line_format env full_message jlf_line_format
      { jlf_cached_line := [],
        sub_offset := 1 + (jlf_line_format_init_count : Int),
        jlf_line_values := values,
        used_values := List.replicate values.length false } with
  | none => none
  | some st =>
    some (render_unused env st.jlf_line_values 0
      { st with jlf_cached_line := st.jlf_cached_line ++ ['\n'] })

/-- Collaborators for the examples: json_append appends the value without padding,
abbreviate_str leaves the string as it is, the timestamp text and the level name are
empty, the name 6 has the text x and every other name the text msg, and the special
names are 100 to 103. -/
def plain_render_env : render_env :=
  { json_append := fun _ s => s,
    abbreviate_str := fun s _ => s,
    ts_text := fun _ => [],
    level_name := [],
    name_text := fun n => if n = 6 then ['x'] else ['m', 's', 'g'],
    ts_field := 100,
    level_field := 101,
    body_name := 102,
    lf_timestamp_field := 103 }

/-! ## Properties of the collision ordering -/

theorem emitted_form_of_isEmpty (elf : external_log_format)
    (h : elf.elf_collision.isEmpty = true) : emitted_form elf = elf := by
  cases elf with
  | mk n b c =>
    simp only [List.isEmpty_iff] at h
    simp [emitted_form, h]

theorem map_emitted_form_popped (alpha : List external_log_format) :
    (alpha.filter (fun elf => elf.elf_collision.isEmpty)).map emitted_form =
      alpha.filter (fun elf => elf.elf_collision.isEmpty) := by
  have h : ∀ elf ∈ alpha.filter (fun elf => elf.elf_collision.isEmpty),
      emitted_form elf = id elf := by
    intro elf hmem
    exact emitted_form_of_isEmpty elf (List.mem_filter.mp hmem).2
  rw [List.map_congr_left h, List.map_id]

theorem map_emitted_form_remove_popped (p : List intern_string_t)
    (alpha : List external_log_format) :
    (remove_popped p alpha).map emitted_form = alpha.map emitted_form := by
  simp [remove_popped, emitted_form, List.map_map, Function.comp]

theorem length_remove_popped (p : List intern_string_t) (alpha : List external_log_format) :
    (remove_popped p alpha).length = alpha.length := by
  simp [remove_popped]

theorem remove_popped_nil (alpha : List external_log_format) :
    remove_popped [] alpha = alpha := by
  simp [remove_popped]

theorem break_cycle_non_builtin_spec (alpha broken : List external_log_format)
    (h : break_cycle_non_builtin alpha = some broken) :
    broken.length = alpha.length ∧ broken.map emitted_form = alpha.map emitted_form ∧
      broken.countP (fun elf => !elf.elf_collision.isEmpty) < alpha.length := by
  induction alpha generalizing broken with
  | nil => simp [break_cycle_non_builtin] at h
  | cons elf rest ih =>
    by_cases hb : elf.elf_builtin_format = true
    · simp only [break_cycle_non_builtin, hb, if_true, Option.map_eq_some'] at h
      obtain ⟨r, hr, rfl⟩ := h
      obtain ⟨h1, h2, h3⟩ := ih r hr
      refine ⟨by simp [h1], by simp [h2], ?_⟩
      have := List.countP_cons (fun e : external_log_format => !e.elf_collision.isEmpty) elf r
      rw [this]
      simp only [List.length_cons]
      split <;> omega
    · simp only [break_cycle_non_builtin, hb, Bool.false_eq_true, if_false,
        Option.some.injEq] at h
      subst h
      have hb2 : elf.elf_builtin_format = false := by simpa using hb
      refine ⟨by simp, by simp [emitted_form, hb2], ?_⟩
      simp only [List.countP_cons, List.isEmpty_nil, Bool.not_true, List.length_cons]
      have := List.countP_le_length (fun e : external_log_format => !e.elf_collision.isEmpty)
        (l := rest)
      simp
      omega

theorem break_cycle_spec (alpha : List external_log_format) (hne : alpha ≠ []) :
    (break_cycle alpha).length = alpha.length ∧
      (break_cycle alpha).map emitted_form = alpha.map emitted_form ∧
      (break_cycle alpha).countP (fun elf => !elf.elf_collision.isEmpty) < alpha.length := by
  unfold break_cycle
  cases hb : break_cycle_non_builtin alpha with
  | some broken => exact break_cycle_non_builtin_spec alpha broken hb
  | none =>
    cases alpha with
    | nil => exact absurd rfl hne
    | cons elf rest =>
      refine ⟨by simp [clear_front], by simp [clear_front, emitted_form], ?_⟩
      simp only [clear_front, List.countP_cons, List.isEmpty_nil, Bool.not_true,
        List.length_cons]
      have := List.countP_le_length (fun e : external_log_format => !e.elf_collision.isEmpty)
        (l := rest)
      simp
      omega

theorem filter_nonempty_eq_self_of_popped_nil (alpha : List external_log_format)
    (h : alpha.filter (fun elf => elf.elf_collision.isEmpty) = []) :
    alpha.filter (fun elf => !elf.elf_collision.isEmpty) = alpha := by
  rw [List.filter_eq_self]
  intro elf hmem
  rw [List.filter_eq_nil_iff] at h
  simpa using h elf hmem

theorem length_popped_add_remaining (alpha : List external_log_format) :
    (alpha.filter (fun elf => elf.elf_collision.isEmpty)).length +
      (alpha.filter (fun elf => !elf.elf_collision.isEmpty)).length = alpha.length := by
  induction alpha with
  | nil => rfl
  | cons elf rest ih =>
    cases h : elf.elf_collision.isEmpty <;> simp [List.filter_cons, h] <;> omega

/-- One iteration on a non-empty alpha list strictly lowers the measure, extends the
graph list by the popped formats and keeps the formats the same up to order. -/
theorem order_pass_spec (alpha graph : List external_log_format) (hne : alpha ≠ []) :
    order_measure (order_pass alpha graph).1 < order_measure alpha ∧
      ∃ popped, (order_pass alpha graph).2 = graph ++ popped ∧
        (popped ++ (order_pass alpha graph).1.map emitted_form).Perm
          (alpha.map emitted_form) := by
  have hperm : ((alpha.filter (fun elf => elf.elf_collision.isEmpty)) ++
      (alpha.filter (fun elf => !elf.elf_collision.isEmpty)).map emitted_form).Perm
      (alpha.map emitted_form) := by
    have h1 := (List.filter_append_perm (fun elf : external_log_format =>
      elf.elf_collision.isEmpty) alpha).map emitted_form
    rw [List.map_append, map_emitted_form_popped] at h1
    simpa using h1
  have hlen := length_popped_add_remaining alpha
  have hcnt : alpha.countP (fun elf => !elf.elf_collision.isEmpty) =
      (alpha.filter (fun elf => !elf.elf_collision.isEmpty)).length :=
    List.countP_eq_length_filter _ _
  by_cases hp : alpha.filter (fun elf => elf.elf_collision.isEmpty) = []
  · have hrem := filter_nonempty_eq_self_of_popped_nil alpha hp
    obtain ⟨b1, b2, b3⟩ := break_cycle_spec alpha hne
    have hfst : (order_pass alpha graph).1 = break_cycle alpha := by
      simp [order_pass, hp, hrem, hne, remove_popped_nil]
    have hsnd : (order_pass alpha graph).2 = graph ++ [] := by
      simp [order_pass, hp]
    refine ⟨?_, [], hsnd, ?_⟩
    · rw [hfst]
      unfold order_measure
      rw [hcnt, hrem, b1]
      omega
    · rw [hfst, b2]
      simp
  · have hfst : (order_pass alpha graph).1 =
        remove_popped ((alpha.filter (fun elf => elf.elf_collision.isEmpty)).map
          (fun elf => elf.elf_name)) (alpha.filter (fun elf => !elf.elf_collision.isEmpty)) := by
      simp [order_pass, hp]
    have hsnd : (order_pass alpha graph).2 =
        graph ++ alpha.filter (fun elf => elf.elf_collision.isEmpty) := by
      simp [order_pass]
    refine ⟨?_, _, hsnd, ?_⟩
    · rw [hfst]
      unfold order_measure
      rw [length_remove_popped, hcnt]
      have hle := List.countP_le_length (fun e : external_log_format => !e.elf_collision.isEmpty)
        (l := remove_popped ((alpha.filter (fun elf => elf.elf_collision.isEmpty)).map
          (fun elf => elf.elf_name)) (alpha.filter (fun elf => !elf.elf_collision.isEmpty)))
      rw [length_remove_popped] at hle
      have hpos : 0 < (alpha.filter (fun elf => elf.elf_collision.isEmpty)).length :=
        List.length_pos.mpr hp
      omega
    · rw [hfst, map_emitted_form_remove_popped]
      exact hperm

theorem order_measure_le (alpha : List external_log_format) :
    order_measure alpha ≤ 2 * alpha.length := by
  unfold order_measure
  have := List.countP_le_length (fun e : external_log_format => !e.elf_collision.isEmpty)
    (l := alpha)
  omega

/-- With at least order_measure alpha iterations allowed the loop leaves through its
condition, and what it appended to the graph list is the alpha list up to order. -/
theorem order_loop_total (fuel : Nat) :
    ∀ alpha graph : List external_log_format, order_measure alpha ≤ fuel →
      ∃ emitted, order_loop fuel alpha graph = some (graph ++ emitted) ∧
        emitted.Perm (alpha.map emitted_form) := by
  induction fuel with
  | zero =>
    intro alpha graph h
    have : alpha = [] := by
      unfold order_measure at h
      exact List.length_eq_zero.mp (by omega)
    subst this
    exact ⟨[], by simp [order_loop], by simp⟩
  | succ fuel ih =>
    intro alpha graph h
    by_cases hne : alpha = []
    · subst hne
      exact ⟨[], by simp [order_loop], by simp⟩
    · obtain ⟨hlt, popped, hsnd, hperm⟩ := order_pass_spec alpha graph hne
      obtain ⟨emitted, hrun, hem⟩ := ih (order_pass alpha graph).1 (order_pass alpha graph).2
        (by omega)
      refine ⟨popped ++ emitted, ?_, ?_⟩
      · simp only [order_loop, List.isEmpty_iff, hne, if_false]
        rw [hrun, hsnd, List.append_assoc]
      · exact (List.Perm.append_left popped hem).trans hperm

/-- C1: for every list of built formats and every prior content of the graph-ordered
list, the ordering loop of load_formats leaves through its condition within twice as
many iterations as there are formats (more iterations allowed change nothing), and
what it appends to the graph-ordered list is a permutation of the input formats, each
with its collision list emptied; in particular every name occurs as often as in the
input. No assumption is made on the collision lists, so cyclic graphs are covered. -/
theorem load_formats_order_terminates_perm (alpha graph : List external_log_format)
    (extra : Nat) :
    ∃ emitted, order_loop (2 * alpha.length + extra) alpha graph = some (graph ++ emitted) ∧
      emitted.Perm (alpha.map emitted_form) ∧
      (emitted.map (fun elf => elf.elf_name)).Perm (alpha.map (fun elf => elf.elf_name)) ∧
      emitted.length = alpha.length := by
  obtain ⟨emitted, hrun, hperm⟩ := order_loop_total (2 * alpha.length + extra) alpha graph
    (by have := order_measure_le alpha; omega)
  refine ⟨emitted, hrun, hperm, ?_, ?_⟩
  · have := hperm.map (fun elf => elf.elf_name)
    simpa [List.map_map, Function.comp, emitted_form] using this
  · simpa using hperm.length_eq

theorem mem_foldl_list_remove (p c : List intern_string_t) (b : intern_string_t) :
    b ∈ p.foldl list_remove c ↔ b ∈ c ∧ b ∉ p := by
  induction p generalizing c with
  | nil => simp
  | cons v p ih =>
    rw [List.foldl_cons, ih]
    simp only [list_remove, List.mem_filter, bne_iff_ne, ne_eq, List.mem_cons, not_or]
    tauto

/-- A non-empty format set whose collisions stay inside the set and form no cycle has
a format whose collision list is empty. -/
theorem exists_empty_collision (alpha : List external_log_format) (hne : alpha ≠ [])
    (hcl : collisions_closed alpha) (hac : acyclic_collisions alpha) :
    ∃ f ∈ alpha, f.elf_collision = [] := by
  classical
  let names : Finset intern_string_t := (alpha.map (fun elf => elf.elf_name)).toFinset
  let r : names → names → Prop := fun x y => Relation.TransGen (collides alpha) y.1 x.1
  haveI : IsTrans names r := ⟨fun _ _ _ hab hbc => Relation.TransGen.trans hbc hab⟩
  haveI : IsIrrefl names r := ⟨fun a h => hac a.1 h⟩
  have wf : WellFounded r := Finite.wellFounded_of_trans_of_irrefl r
  obtain ⟨f0, hf0⟩ := List.exists_mem_of_ne_nil alpha hne
  have hn0 : f0.elf_name ∈ names := by
    simp only [names, List.mem_toFinset, List.mem_map]
    exact ⟨f0, hf0, rfl⟩
  obtain ⟨m, -, hmin⟩ := wf.has_min Set.univ ⟨⟨f0.elf_name, hn0⟩, trivial⟩
  obtain ⟨f, hf, hfm⟩ : ∃ f ∈ alpha, f.elf_name = m.1 := by
    have := m.2
    simpa only [names, List.mem_toFinset, List.mem_map] using this
  refine ⟨f, hf, ?_⟩
  by_contra hc
  obtain ⟨b, hb⟩ := List.exists_mem_of_ne_nil _ hc
  have hbn : b ∈ names := by
    simp only [names, List.mem_toFinset]
    exact hcl f hf b hb
  exact hmin ⟨b, hbn⟩ trivial (Relation.TransGen.single ⟨f, hf, hfm, hb⟩)

/-- A rank that drops along every collision rules out cycles. -/
theorem acyclic_of_rank (fs : List external_log_format) (rank : intern_string_t → Nat)
    (h : ∀ f ∈ fs, ∀ b ∈ f.elf_collision, rank b < rank f.elf_name) :
    acyclic_collisions fs := by
  have key : ∀ a b, Relation.TransGen (collides fs) a b → rank b < rank a := by
    intro a b hab
    induction hab with
    | single h1 =>
      obtain ⟨f, hf, rfl, hb⟩ := h1
      exact h f hf _ hb
    | tail _ h2 ih =>
      obtain ⟨f, hf, rfl, hb⟩ := h2
      exact lt_trans (h f hf _ hb) ih
  intro a ha
  exact lt_irrefl _ (key a a ha)

theorem names_remove_popped (p : List intern_string_t) (alpha : List external_log_format) :
    (remove_popped p alpha).map (fun elf => elf.elf_name) =
      alpha.map (fun elf => elf.elf_name) := by
  simp [remove_popped, List.map_map, Function.comp]

theorem mem_remove_popped (p : List intern_string_t) (alpha : List external_log_format)
    (g : external_log_format) (hg : g ∈ remove_popped p alpha) :
    ∃ f ∈ alpha, g.elf_name = f.elf_name ∧
      ∀ b, b ∈ g.elf_collision ↔ b ∈ f.elf_collision ∧ b ∉ p := by
  simp only [remove_popped, List.mem_map] at hg
  obtain ⟨f, hf, rfl⟩ := hg
  exact ⟨f, hf, rfl, fun b => mem_foldl_list_remove p f.elf_collision b⟩

theorem order_pass_of_popped (alpha graph : List external_log_format)
    (hp : alpha.filter (fun elf => elf.elf_collision.isEmpty) ≠ []) :
    order_pass alpha graph =
      (remove_popped ((alpha.filter (fun elf => elf.elf_collision.isEmpty)).map
          (fun elf => elf.elf_name)) (alpha.filter (fun elf => !elf.elf_collision.isEmpty)),
        graph ++ alpha.filter (fun elf => elf.elf_collision.isEmpty)) := by
  simp [order_pass, hp]

theorem mem_remove_popped_of_mem (p : List intern_string_t) (alpha : List external_log_format)
    (f : external_log_format) (hf : f ∈ alpha) :
    ∃ g ∈ remove_popped p alpha, g.elf_name = f.elf_name ∧
      ∀ b, b ∈ g.elf_collision ↔ b ∈ f.elf_collision ∧ b ∉ p := by
  refine ⟨{ f with elf_collision := p.foldl list_remove f.elf_collision }, ?_, rfl,
    fun b => mem_foldl_list_remove p f.elf_collision b⟩
  simp only [remove_popped, List.mem_map]
  exact ⟨f, hf, rfl⟩

theorem emitted_before_append (P E : List external_log_format) (b a : intern_string_t)
    (ha : a ∉ P.map (fun elf => elf.elf_name))
    (ha2 : a ∈ E.map (fun elf => elf.elf_name))
    (hb : b ∈ P.map (fun elf => elf.elf_name) ∨
      (b ∉ P.map (fun elf => elf.elf_name) ∧ emitted_before E b a)) :
    emitted_before (P ++ E) b a := by
  unfold emitted_before
  rw [List.map_append, List.indexOf_append_of_not_mem ha, List.length_append]
  have hlt : List.indexOf a (E.map (fun elf => elf.elf_name)) < E.length := by
    have := List.indexOf_lt_length.mpr ha2
    simpa using this
  rcases hb with hb | ⟨hb, hbe⟩
  · rw [List.indexOf_append_of_mem hb]
    have := List.indexOf_lt_length.mpr hb
    simp only [List.length_map] at this ⊢
    omega
  · rw [List.indexOf_append_of_not_mem hb]
    unfold emitted_before at hbe
    simp only [List.length_map]
    omega

/-- The ordering loop on a format set with distinct names whose collisions stay
inside the set and form no cycle: it leaves through its condition and every format is
appended after all the formats it collides with. -/
theorem order_loop_acyclic (fuel : Nat) :
    ∀ alpha graph : List external_log_format, order_measure alpha ≤ fuel →
      (alpha.map (fun elf => elf.elf_name)).Nodup → collisions_closed alpha →
      acyclic_collisions alpha →
      ∃ emitted, order_loop fuel alpha graph = some (graph ++ emitted) ∧
        (emitted.map (fun elf => elf.elf_name)).Perm (alpha.map (fun elf => elf.elf_name)) ∧
        ∀ f ∈ alpha, ∀ b ∈ f.elf_collision, emitted_before emitted b f.elf_name := by
  induction fuel with
  | zero =>
    intro alpha graph h _ _ _
    have : alpha = [] := by
      unfold order_measure at h
      exact List.length_eq_zero.mp (by omega)
    subst this
    exact ⟨[], by simp [order_loop], by simp, by simp⟩
  | succ fuel ih =>
    intro alpha graph h hnd hcl hac
    by_cases hne : alpha = []
    · subst hne
      exact ⟨[], by simp [order_loop], by simp, by simp⟩
    · obtain ⟨s, hs, hsnil⟩ := exists_empty_collision alpha hne hcl hac
      have hp : alpha.filter (fun elf => elf.elf_collision.isEmpty) ≠ [] := by
        intro hnil
        rw [List.filter_eq_nil_iff] at hnil
        exact hnil s hs (by simp [hsnil])
      have hpass := order_pass_of_popped alpha graph hp
      have hlt := (order_pass_spec alpha graph hne).1
      rw [hpass] at hlt
      simp only at hlt
      have hpn : ((alpha.filter (fun elf => elf.elf_collision.isEmpty)).map
          (fun elf => elf.elf_name) ++
          (alpha.filter (fun elf => !elf.elf_collision.isEmpty)).map
          (fun elf => elf.elf_name)).Perm (alpha.map (fun elf => elf.elf_name)) := by
        have := (List.filter_append_perm (fun elf : external_log_format =>
          elf.elf_collision.isEmpty) alpha).map (fun elf => elf.elf_name)
        simpa using this
      have hnd2 := hpn.nodup_iff.mpr hnd
      rw [List.nodup_append] at hnd2
      obtain ⟨-, hndR, hdisj⟩ := hnd2
      have hcl2 : collisions_closed (remove_popped
          ((alpha.filter (fun elf => elf.elf_collision.isEmpty)).map (fun elf => elf.elf_name))
          (alpha.filter (fun elf => !elf.elf_collision.isEmpty))) := by
        intro g hg b hb
        obtain ⟨f, hf, -, hiff⟩ := mem_remove_popped _ _ g hg
        obtain ⟨hbf, hbp⟩ := (hiff b).mp hb
        rw [names_remove_popped]
        have hb2 := hpn.mem_iff.mpr (hcl f (List.mem_filter.mp hf).1 b hbf)
        rcases List.mem_append.mp hb2 with h1 | h1
        · exact absurd h1 hbp
        · exact h1
      have hac2 : acyclic_collisions (remove_popped
          ((alpha.filter (fun elf => elf.elf_collision.isEmpty)).map (fun elf => elf.elf_name))
          (alpha.filter (fun elf => !elf.elf_collision.isEmpty))) := by
        intro a ha
        refine hac a (Relation.TransGen.mono ?_ ha)
        rintro x y ⟨g, hg, rfl, hy⟩
        obtain ⟨f, hf, hname, hiff⟩ := mem_remove_popped _ _ g hg
        exact ⟨f, (List.mem_filter.mp hf).1, hname.symm, ((hiff y).mp hy).1⟩
      obtain ⟨emitted, hrun, hnames, hord⟩ := ih _
        (graph ++ alpha.filter (fun elf => elf.elf_collision.isEmpty)) (by omega)
        (by rw [names_remove_popped]; exact hndR) hcl2 hac2
      rw [names_remove_popped] at hnames
      refine ⟨alpha.filter (fun elf => elf.elf_collision.isEmpty) ++ emitted, ?_, ?_, ?_⟩
      · simp only [order_loop, List.isEmpty_iff, hne, if_false]
        rw [hpass]
        simp only
        rw [hrun, List.append_assoc]
      · rw [List.map_append]
        exact (List.Perm.append_left _ hnames).trans hpn
      · intro f hf b hb
        have hfR : f ∈ alpha.filter (fun elf => !elf.elf_collision.isEmpty) := by
          rw [List.mem_filter]
          refine ⟨hf, ?_⟩
          cases hc : f.elf_collision with
          | nil => rw [hc] at hb; exact absurd hb (List.not_mem_nil b)
          | cons _ _ => rfl
        have hfn : f.elf_name ∈ (alpha.filter (fun elf => !elf.elf_collision.isEmpty)).map
            (fun elf => elf.elf_name) := List.mem_map.mpr ⟨f, hfR, rfl⟩
        obtain ⟨g, hg, hgn, hiff⟩ := mem_remove_popped_of_mem
          ((alpha.filter (fun elf => elf.elf_collision.isEmpty)).map (fun elf => elf.elf_name))
          _ f hfR
        apply emitted_before_append
        · intro hin
          exact hdisj hin hfn
        · exact hnames.mem_iff.mpr hfn
        · by_cases hbp : b ∈ (alpha.filter (fun elf => elf.elf_collision.isEmpty)).map
              (fun elf => elf.elf_name)
          · exact Or.inl hbp
          · refine Or.inr ⟨hbp, ?_⟩
            have := hord g hg b ((hiff b).mpr ⟨hb, hbp⟩)
            rwa [hgn] at this

/-- C2: when the formats have distinct names (they are the values of a map keyed by
name), every collision list names only formats of the set and the collision graph has
no cycle, the ordering loop of load_formats started on an empty graph-ordered list
produces an evaluation order in which, for every format A and every format B named in
the collision list of A, B stands strictly before A. -/
theorem load_formats_order_respects_collisions (alpha : List external_log_format)
    (extra : Nat) (hnd : (alpha.map (fun elf => elf.elf_name)).Nodup)
    (hcl : collisions_closed alpha) (hac : acyclic_collisions alpha) :
    ∃ out, order_loop (2 * alpha.length + extra) alpha [] = some out ∧
      ∀ A ∈ alpha, ∀ B ∈ A.elf_collision, emitted_before out B A.elf_name := by
  obtain ⟨emitted, hrun, -, hord⟩ := order_loop_acyclic (2 * alpha.length + extra) alpha []
    (by have := order_measure_le alpha; omega) hnd hcl hac
  exact ⟨emitted, by simpa using hrun, hord⟩

/-- Witness for C2: three formats in which format 1 collides with formats 2 and 3 and
format 3 collides with format 2. -/
theorem load_formats_order_respects_collisions_witness :
    ([⟨1, true, [2, 3]⟩, ⟨2, true, []⟩, ⟨3, false, [2]⟩].map
      (fun elf : external_log_format => elf.elf_name)).Nodup ∧
    collisions_closed [⟨1, true, [2, 3]⟩, ⟨2, true, []⟩, ⟨3, false, [2]⟩] ∧
    acyclic_collisions [⟨1, true, [2, 3]⟩, ⟨2, true, []⟩, ⟨3, false, [2]⟩] ∧
    ∃ out, order_loop (2 * ([⟨1, true, [2, 3]⟩, ⟨2, true, []⟩, ⟨3, false, [2]⟩] :
        List external_log_format).length + 0)
        [⟨1, true, [2, 3]⟩, ⟨2, true, []⟩, ⟨3, false, [2]⟩] [] = some out ∧
      ∀ A ∈ ([⟨1, true, [2, 3]⟩, ⟨2, true, []⟩, ⟨3, false, [2]⟩] : List external_log_format),
        ∀ B ∈ A.elf_collision, emitted_before out B A.elf_name :=
  have hnd : ([⟨1, true, [2, 3]⟩, ⟨2, true, []⟩, ⟨3, false, [2]⟩].map
      (fun elf : external_log_format => elf.elf_name)).Nodup := by decide
  have hcl : collisions_closed [⟨1, true, [2, 3]⟩, ⟨2, true, []⟩, ⟨3, false, [2]⟩] := by
    unfold collisions_closed
    decide
  have hac : acyclic_collisions [⟨1, true, [2, 3]⟩, ⟨2, true, []⟩, ⟨3, false, [2]⟩] :=
    acyclic_of_rank _ (fun n => if n = 1 then 2 else if n = 3 then 1 else 0) (by decide)
  ⟨hnd, hcl, hac, load_formats_order_respects_collisions _ 0 hnd hcl hac⟩

/-! ## Properties of the pattern locks -/

theorem lower_bound_line_below (locks : List pattern_for_lines) (n : Nat) :
    ∀ j, j < lower_bound_line locks n → ∃ e, locks[j]? = some e ∧ e.pfl_line < n := by
  induction locks with
  | nil => intro j hj; simp [lower_bound_line] at hj
  | cons a rest ih =>
    intro j hj
    by_cases hlt : a.pfl_line < n
    · simp only [lower_bound_line, hlt, if_true] at hj
      cases j with
      | zero => exact ⟨a, by simp, hlt⟩
      | succ j =>
        obtain ⟨e, he, hel⟩ := ih j (by omega)
        exact ⟨e, by simpa using he, hel⟩
    · simp [lower_bound_line, hlt] at hj

theorem lower_bound_line_at (locks : List pattern_for_lines) (n : Nat) :
    ∀ e, locks[lower_bound_line locks n]? = some e → n ≤ e.pfl_line := by
  induction locks with
  | nil => intro e he; simp at he
  | cons a rest ih =>
    intro e he
    by_cases hlt : a.pfl_line < n
    · simp only [lower_bound_line, hlt, if_true, List.getElem?_cons_succ] at he
      exact ih e he
    · simp only [lower_bound_line, hlt, if_false, List.getElem?_cons_zero,
        Option.some.injEq] at he
      subst he
      omega

/-- On an ascending lock list and a line number below 2^32, for which some entry has
a line at or before it, pattern_index_for_line returns the pattern index of the
entry with the greatest line at or before the line number. -/
theorem pattern_index_for_line_of_lt (locks : List pattern_for_lines) (n : Nat)
    (hasc : locks_ascending locks) (hn : n < 2 ^ 32)
    (hex : ∃ e ∈ locks, e.pfl_line ≤ n) :
    ∃ e ∈ locks, e.pfl_line ≤ n ∧ (∀ e2 ∈ locks, e2.pfl_line ≤ n → e2.pfl_line ≤ e.pfl_line) ∧
      pattern_index_for_line locks n = some e.pfl_pat_index := by
  have hmod : n % 2 ^ 32 = n := Nat.mod_eq_of_lt hn
  unfold locks_ascending at hasc
  rw [List.pairwise_iff_getElem] at hasc
  have hbelow := lower_bound_line_below locks n
  have hat := lower_bound_line_at locks n
  have hfrom : ∀ j (hj : j < locks.length), lower_bound_line locks n ≤ j →
      ∃ e, locks[lower_bound_line locks n]? = some e ∧ e.pfl_line ≤ locks[j].pfl_line := by
    intro j hj hij
    have hi : lower_bound_line locks n < locks.length := by omega
    refine ⟨locks[lower_bound_line locks n], List.getElem?_eq_getElem hi, ?_⟩
    rcases Nat.eq_or_lt_of_le hij with h | h
    · simp only [h]
      exact le_refl _
    · exact Nat.le_of_lt (hasc _ j hi hj h)
  unfold pattern_index_for_line
  simp only [hmod]
  by_cases hstep : ∃ pfl, locks[lower_bound_line locks n]? = some pfl ∧ pfl.pfl_line = n
  · obtain ⟨pfl, hg, heq⟩ := hstep
    refine ⟨pfl, List.getElem?_mem hg, by omega, ?_, by simp [hg, heq]⟩
    intro e2 he2 hle
    omega
  · have hgt : ∀ j (hj : j < locks.length), lower_bound_line locks n ≤ j →
        n < locks[j].pfl_line := by
      intro j hj hij
      obtain ⟨e, he, hle⟩ := hfrom j hj hij
      have h1 := hat e he
      have h2 : e.pfl_line ≠ n := fun h => hstep ⟨e, he, h⟩
      omega
    obtain ⟨e0, he0, hle0⟩ := hex
    obtain ⟨j0, hj0, rfl⟩ := List.mem_iff_getElem.mp he0
    have hj0i : j0 < lower_bound_line locks n := by
      by_contra hc
      have := hgt j0 hj0 (by omega)
      omega
    obtain ⟨e, he, hel⟩ := hbelow (lower_bound_line locks n - 1) (by omega)
    obtain ⟨hi1, hegt⟩ := List.getElem?_eq_some_iff.mp he
    refine ⟨e, List.getElem?_mem he, by omega, ?_, ?_⟩
    · intro e2 he2 hle2
      obtain ⟨j, hj, rfl⟩ := List.mem_iff_getElem.mp he2
      have hji : j < lower_bound_line locks n := by
        by_contra hc
        have := hgt j hj (by omega)
        omega
      rcases Nat.lt_or_ge j (lower_bound_line locks n - 1) with h | h
      · have := hasc j _ hj hi1 h
        rw [hegt] at this
        omega
      · have hje : j = lower_bound_line locks n - 1 := by omega
        subst hje
        rw [hegt]
    · have hsb : (match locks[lower_bound_line locks n]? with
          | none => true
          | some pfl => pfl.pfl_line != n) = true := by
        cases hg : locks[lower_bound_line locks n]? with
        | none => rfl
        | some pfl =>
          simp only [bne_iff_ne, ne_eq]
          exact fun h => hstep ⟨pfl, hg, h⟩
      simp only [hsb, if_true]
      have hne : lower_bound_line locks n ≠ 0 := by omega
      simp [hne, he]

/-- C3: the lock list (0, 0), (5, 1) is strictly ascending and the line number
2^32 + 2, which fits the uint64_t argument, has entries at or before it; the entry
with the greatest line at or before it is (5, 1), yet pattern_index_for_line returns
pattern index 0, because the comparator of the search takes the line number as a
uint32_t and so searches for line 2. -/
theorem pattern_index_for_line_wraps_line_number :
    locks_ascending [⟨0, 0⟩, ⟨5, 1⟩] ∧
    (∃ e ∈ ([⟨0, 0⟩, ⟨5, 1⟩] : List pattern_for_lines), e.pfl_line ≤ 4294967298) ∧
    pattern_index_for_line [⟨0, 0⟩, ⟨5, 1⟩] 4294967298 = some 0 ∧
    ((⟨5, 1⟩ : pattern_for_lines) ∈ ([⟨0, 0⟩, ⟨5, 1⟩] : List pattern_for_lines) ∧
      (5 : Nat) ≤ 4294967298 ∧
      ∀ e2 ∈ ([⟨0, 0⟩, ⟨5, 1⟩] : List pattern_for_lines), e2.pfl_line ≤ 4294967298 →
        e2.pfl_line ≤ 5) := by
  decide

/-! ## Properties of the line scanner -/

theorem check_for_new_year_length (back_date : Int → Int → Int → Int → Int → Int)
    (dst : List logline) (etm : et_flags_t) (log_tv : timeval) :
    (check_for_new_year back_date dst etm log_tv).length = dst.length := by
  unfold check_for_new_year
  cases dst.getLast? with
  | none => rfl
  | some last_line =>
    simp only
    split
    · rfl
    · split
      · rfl
      · simp

theorem last_pattern_index_append (locks : List pattern_for_lines) (e : pattern_for_lines) :
    last_pattern_index (locks ++ [e]) = e.pfl_pat_index := by
  simp [last_pattern_index]

theorem scan_of_found (back_date : Int → Int → Int → Int → Int → Int) (fmt : log_format)
    (dst : List logline) (li_offset : Int) (outcome : Nat → pattern_outcome)
    (k : Int) (m : line_match)
    (h : scan_search fmt outcome (fmt.elf_pattern_order.length + 2) (-1)
      (last_pattern_index fmt.lf_pattern_locks) = search_result.found k m) :
    ∃ dst1, dst1.length = dst.length ∧
      scan back_date fmt dst li_offset outcome =
        some (scan_result_t.SCAN_MATCH,
          { fmt with
            lf_pattern_locks := locks_after_match fmt.lf_pattern_locks k dst.length,
            lf_timestamp_flags := m.et_flags },
          dst1 ++ [logline.mk li_offset m.log_tv m.level m.mod_index m.opid]) := by
  refine ⟨if m.et_flags.ETF_DAY_SET && m.et_flags.ETF_MONTH_SET && m.et_flags.ETF_YEAR_SET
      then dst else check_for_new_year back_date dst m.et_flags m.log_tv, ?_, ?_⟩
  · split
    · rfl
    · exact check_for_new_year_length _ _ _ _
  · have hlen : (if (m.et_flags.ETF_DAY_SET && m.et_flags.ETF_MONTH_SET &&
          m.et_flags.ETF_YEAR_SET) = true
        then dst else check_for_new_year back_date dst m.et_flags m.log_tv).length =
        dst.length := by
      split
      · rfl
      · exact check_for_new_year_length _ _ _ _
    simp only [scan, h, locks_after_match, List.length_append, List.length_singleton,
      Nat.add_sub_cancel, hlen]

theorem scan_search_found_nonneg (fmt : log_format) (outcome : Nat → pattern_outcome)
    (fuel : Nat) : ∀ (curr_fmt pat_index k : Int) (m : line_match),
    scan_search fmt outcome fuel curr_fmt pat_index = search_result.found k m → 0 ≤ k := by
  induction fuel with
  | zero => intro c p k m h; simp [scan_search] at h
  | succ fuel ih =>
    intro c p k m h
    unfold scan_search at h
    simp only at h
    split at h
    · exact absurd h (by simp)
    · split at h
      · exact absurd h (by simp)
      · rename_i hneg
        split at h
        · exact absurd h (by simp)
        · split at h
          · exact ih _ _ _ _ h
          · split at h
            · split at h
              · exact ih _ _ _ _ h
              · exact ih _ _ _ _ h
            · exact ih _ _ _ _ h
            · simp only [search_result.found.injEq] at h
              omega

theorem locks_ascending_append (locks : List pattern_for_lines) (e : pattern_for_lines)
    (hasc : locks_ascending locks) (h : ∀ x ∈ locks, x.pfl_line < e.pfl_line) :
    locks_ascending (locks ++ [e]) := by
  unfold locks_ascending at *
  rw [List.pairwise_append]
  refine ⟨hasc, List.pairwise_singleton _ _, ?_⟩
  intro a ha b hb
  rw [List.mem_singleton] at hb
  subst hb
  exact h a ha

/-- The unlocked sweep over the patterns after index c finds nothing when no pattern
matches. -/
theorem scan_search_sweep (fmt : log_format) (outcome : Nat → pattern_outcome)
    (hno : no_pattern_matches fmt outcome) :
    ∀ (d fuel : Nat) (c : Int), -1 ≤ c → (fmt.elf_pattern_order.length : Int) ≤ c + 1 + d →
      d + 1 ≤ fuel → scan_search fmt outcome fuel c (-1) = search_result.no_pattern := by
  intro d
  induction d with
  | zero =>
    intro fuel c hc hn hf
    obtain ⟨fuel, rfl⟩ : ∃ f, fuel = f + 1 := ⟨fuel - 1, by omega⟩
    unfold scan_search
    have : ¬ (c + 1 < (fmt.elf_pattern_order.length : Int)) := by omega
    simp [next_format, this]
  | succ d ih =>
    intro fuel c hc hn hf
    obtain ⟨fuel, rfl⟩ : ∃ f, fuel = f + 1 := ⟨fuel - 1, by omega⟩
    unfold scan_search
    by_cases hlt : c + 1 < (fmt.elf_pattern_order.length : Int)
    · have hnn : ¬ (c + 1 < 0) := by omega
      have hidx : (c + 1).toNat < fmt.elf_pattern_order.length := by omega
      have hrec := ih fuel (c + 1) (by omega) (by omega) (by omega)
      simp only [next_format, if_true, hlt, decide_True, Bool.true_eq_false, if_false, hnn,
        List.getElem?_eq_getElem hidx]
      by_cases hm : (fmt.elf_pattern_order[(c + 1).toNat]).p_module_format = true
      · simp only [hm, if_true]
        exact hrec
      · have hm2 : (fmt.elf_pattern_order[(c + 1).toNat]).p_module_format = false := by
          simpa using hm
        have hout := hno (c + 1).toNat _ (List.getElem?_eq_getElem hidx) hm2
        simp only [hm2, Bool.false_eq_true, if_false, hout]
        simp only [bne_self_eq_false, Bool.and_false, Bool.false_eq_true, if_false]
        exact hrec
    · simp [next_format, hlt]

theorem last_pattern_index_cases (locks : List pattern_for_lines) :
    (locks = [] ∧ last_pattern_index locks = -1) ∨
      ∃ e ∈ locks, locks ≠ [] ∧ last_pattern_index locks = e.pfl_pat_index := by
  cases h : locks.getLast? with
  | none =>
    left
    rw [List.getLast?_eq_none_iff] at h
    subst h
    exact ⟨rfl, rfl⟩
  | some e =>
    right
    have hmem : e ∈ locks := List.mem_of_getLast?_eq_some h
    refine ⟨e, hmem, List.ne_nil_of_mem hmem, ?_⟩
    simp [last_pattern_index, h]

/-- When no pattern matches, the loop of scan ends without a match. -/
theorem scan_search_no_pattern (fmt : log_format) (outcome : Nat → pattern_outcome)
    (hno : no_pattern_matches fmt outcome) (hrange : locks_in_range fmt) :
    scan_search fmt outcome (fmt.elf_pattern_order.length + 2) (-1)
      (last_pattern_index fmt.lf_pattern_locks) = search_result.no_pattern := by
  rcases last_pattern_index_cases fmt.lf_pattern_locks with ⟨-, hl⟩ | ⟨e, he, hne, hl⟩
  · rw [hl]
    exact scan_search_sweep fmt outcome hno fmt.elf_pattern_order.length _ (-1) (by omega)
      (by omega) (by omega)
  · rw [hl]
    obtain ⟨h0, hn⟩ := hrange e he
    have hidx : e.pfl_pat_index.toNat < fmt.elf_pattern_order.length := by omega
    have hne1 : e.pfl_pat_index ≠ -1 := by omega
    have hne2 : (-1 : Int) ≠ e.pfl_pat_index := by omega
    have hnn : ¬ (e.pfl_pat_index < 0) := by omega
    have hempty : fmt.lf_pattern_locks.isEmpty = false := by
      cases hc : fmt.lf_pattern_locks with
      | nil => exact absurd hc hne
      | cons _ _ => rfl
    unfold scan_search
    simp only [next_format, hne1, if_false, hne2, Bool.true_eq_false, hnn,
      List.getElem?_eq_getElem hidx]
    by_cases hm : (fmt.elf_pattern_order[e.pfl_pat_index.toNat]).p_module_format = true
    · simp only [hm, if_true]
      unfold scan_search
      simp [next_format, hne1]
    · have hm2 : (fmt.elf_pattern_order[e.pfl_pat_index.toNat]).p_module_format = false := by
        simpa using hm
      have hout := hno _ _ (List.getElem?_eq_getElem hidx) hm2
      simp only [hm2, Bool.false_eq_true, if_false, hout, hempty, Bool.not_false,
        Bool.true_and, bne_iff_ne, ne_eq, hne1, not_false_eq_true, if_true]
      exact scan_search_sweep fmt outcome hno fmt.elf_pattern_order.length _ (-1) (by omega)
        (by omega) (by omega)

/-- The unlocked sweep of the loop of scan ends within the evaluations of the loop
condition that are left for the patterns after index c. -/
theorem scan_search_sweep_ends (fmt : log_format) (outcome : Nat → pattern_outcome) :
    ∀ (d fuel : Nat) (c : Int), -1 ≤ c → (fmt.elf_pattern_order.length : Int) ≤ c + 1 + d →
      d + 1 ≤ fuel → scan_search fmt outcome fuel c (-1) ≠ search_result.out_of_fuel := by
  intro d
  induction d with
  | zero =>
    intro fuel c hc hn hf
    obtain ⟨fuel, rfl⟩ : ∃ f, fuel = f + 1 := ⟨fuel - 1, by omega⟩
    unfold scan_search
    have : ¬ (c + 1 < (fmt.elf_pattern_order.length : Int)) := by omega
    simp [next_format, this]
  | succ d ih =>
    intro fuel c hc hn hf
    obtain ⟨fuel, rfl⟩ : ∃ f, fuel = f + 1 := ⟨fuel - 1, by omega⟩
    have hrec := ih fuel (c + 1) (by omega) (by omega) (by omega)
    unfold scan_search
    simp only [next_format, if_true]
    split
    · simp
    · split
      · simp
      · split
        · simp
        · split
          · exact hrec
          · split
            · simp only [bne_self_eq_false, Bool.and_false, Bool.false_eq_true, if_false]
              exact hrec
            · exact hrec
            · simp

/-- The loop of scan ends within as many evaluations of its condition as there are
patterns, plus two: the allowance that scan gives it is never used up. -/
theorem scan_search_ends (fmt : log_format) (outcome : Nat → pattern_outcome)
    (pat_index : Int) :
    scan_search fmt outcome (fmt.elf_pattern_order.length + 2) (-1) pat_index ≠
      search_result.out_of_fuel := by
  by_cases hp : pat_index = -1
  · subst hp
    exact scan_search_sweep_ends fmt outcome fmt.elf_pattern_order.length _ (-1) (by omega)
      (by omega) (by omega)
  · have hp2 : (-1 : Int) ≠ pat_index := fun h => hp h.symm
    have hlocked : scan_search fmt outcome (fmt.elf_pattern_order.length + 1) pat_index
        pat_index = search_result.no_pattern := by
      unfold scan_search
      simp [next_format, hp]
    unfold scan_search
    simp only [next_format, hp, if_false, hp2]
    split
    · simp
    · split
      · simp
      · split
        · simp
        · split
          · rw [hlocked]
            simp
          · split
            · split
              · exact scan_search_sweep_ends fmt outcome fmt.elf_pattern_order.length _ (-1)
                  (by omega) (by omega) (by omega)
              · rw [hlocked]
                simp
            · rw [hlocked]
              simp
            · simp

/-- The unlocked sweep of the loop of scan indexes elf_pattern_order inside its
bounds. -/
theorem scan_search_sweep_defined (fmt : log_format) (outcome : Nat → pattern_outcome) :
    ∀ (fuel : Nat) (c : Int), -1 ≤ c →
      scan_search fmt outcome fuel c (-1) ≠ search_result.undefined := by
  intro fuel
  induction fuel with
  | zero => intro c _; simp [scan_search]
  | succ fuel ih =>
    intro c hc
    have hrec := ih (c + 1) (by omega)
    unfold scan_search
    simp only [next_format, if_true]
    split
    · simp
    · rename_i hlt
      simp only [decide_eq_false_iff_not, not_not] at hlt
      have hnn : ¬ (c + 1 < 0) := by omega
      have hidx : (c + 1).toNat < fmt.elf_pattern_order.length := by omega
      simp only [hnn, if_false, List.getElem?_eq_getElem hidx]
      split
      · exact hrec
      · split
        · simp only [bne_self_eq_false, Bool.and_false, Bool.false_eq_true, if_false]
          exact hrec
        · exact hrec
        · simp

/-- On a format whose lock entries name patterns of the format, the loop of scan
indexes elf_pattern_order inside its bounds. -/
theorem scan_search_defined (fmt : log_format) (outcome : Nat → pattern_outcome)
    (hrange : locks_in_range fmt) :
    scan_search fmt outcome (fmt.elf_pattern_order.length + 2) (-1)
      (last_pattern_index fmt.lf_pattern_locks) ≠ search_result.undefined := by
  rcases last_pattern_index_cases fmt.lf_pattern_locks with ⟨-, hl⟩ | ⟨e, he, -, hl⟩
  · rw [hl]
    exact scan_search_sweep_defined fmt outcome _ (-1) (by omega)
  · rw [hl]
    obtain ⟨h0, hn⟩ := hrange e he
    have hidx : e.pfl_pat_index.toNat < fmt.elf_pattern_order.length := by omega
    have hne1 : e.pfl_pat_index ≠ -1 := by omega
    have hne2 : (-1 : Int) ≠ e.pfl_pat_index := by omega
    have hnn : ¬ (e.pfl_pat_index < 0) := by omega
    have hlocked : scan_search fmt outcome (fmt.elf_pattern_order.length + 1) e.pfl_pat_index
        e.pfl_pat_index = search_result.no_pattern := by
      unfold scan_search
      simp [next_format, hne1]
    unfold scan_search
    simp only [next_format, hne1, if_false, hne2, Bool.true_eq_false, hnn,
      List.getElem?_eq_getElem hidx]
    split
    · rw [hlocked]
      simp
    · split
      · split
        · exact scan_search_sweep_defined fmt outcome _ (-1) (by omega)
        · rw [hlocked]
          simp
      · rw [hlocked]
        simp
      · simp

/-- On a format whose lock entries name patterns of the format, scan returns, unless
the format is specialized and not multiline and is given an empty dst, where
dst.back() has no line to refer to. -/
theorem scan_returns (back_date : Int → Int → Int → Int → Int → Int) (fmt : log_format)
    (dst : List logline) (li_offset : Int) (outcome : Nat → pattern_outcome)
    (hrange : locks_in_range fmt)
    (hdst : dst ≠ [] ∨ fmt.lf_specialized = false ∨ fmt.lf_multiline = true) :
    ∃ r fmt2 dst2, scan back_date fmt dst li_offset outcome = some (r, fmt2, dst2) := by
  cases hs : scan_search fmt outcome (fmt.elf_pattern_order.length + 2) (-1)
      (last_pattern_index fmt.lf_pattern_locks) with
  | found k m =>
    obtain ⟨dst1, -, hres⟩ := scan_of_found back_date fmt dst li_offset outcome k m hs
    exact ⟨_, _, _, hres⟩
  | no_pattern =>
    simp only [scan, hs]
    rcases hdst with h | h | h
    · obtain ⟨last_line, hlast⟩ : ∃ l, dst.getLast? = some l := by
        cases hc : dst.getLast? with
        | none => exact absurd (List.getLast?_eq_none_iff.mp hc) h
        | some l => exact ⟨l, rfl⟩
      split
      · simp only [hlast]
        exact ⟨_, _, _, rfl⟩
      · exact ⟨_, _, _, rfl⟩
    · simp [h]
    · simp [h]
  | undefined => exact absurd hs (scan_search_defined fmt outcome hrange)
  | out_of_fuel => exact absurd hs (scan_search_ends fmt outcome _)

/-- The unlocked sweep of the loop of log_scanf gives the same result for every
number of evaluations of the loop condition that covers the formats left. -/
theorem log_scanf_search_sweep_stable (n : Nat) (outcome : Nat → pattern_outcome) :
    ∀ (d fuel1 fuel2 : Nat) (c : Int), -1 ≤ c → (n : Int) ≤ c + 1 + d →
      d + 1 ≤ fuel1 → d + 1 ≤ fuel2 →
      log_scanf_search n outcome fuel1 c (-1) = log_scanf_search n outcome fuel2 c (-1) := by
  intro d
  induction d with
  | zero =>
    intro fuel1 fuel2 c hc hn h1 h2
    obtain ⟨fuel1, rfl⟩ : ∃ f, fuel1 = f + 1 := ⟨fuel1 - 1, by omega⟩
    obtain ⟨fuel2, rfl⟩ : ∃ f, fuel2 = f + 1 := ⟨fuel2 - 1, by omega⟩
    have : ¬ (c + 1 < (n : Int)) := by omega
    simp [log_scanf_search, next_format, this]
  | succ d ih =>
    intro fuel1 fuel2 c hc hn h1 h2
    obtain ⟨fuel1, rfl⟩ : ∃ f, fuel1 = f + 1 := ⟨fuel1 - 1, by omega⟩
    obtain ⟨fuel2, rfl⟩ : ∃ f, fuel2 = f + 1 := ⟨fuel2 - 1, by omega⟩
    have hrec := ih fuel1 fuel2 (c + 1) (by omega) (by omega) (by omega) (by omega)
    simp only [log_scanf_search, next_format, if_true]
    split
    · rfl
    · split
      · rfl
      · exact hrec

/-- The loop of log_scanf ends within n + 2 evaluations of its condition: a larger
allowance gives the same result. -/
theorem log_scanf_search_stable (n : Nat) (outcome : Nat → pattern_outcome)
    (pat_index : Int) (extra : Nat) :
    log_scanf_search n outcome (n + 2 + extra) (-1) pat_index =
      log_scanf_search n outcome (n + 2) (-1) pat_index := by
  by_cases hp : pat_index = -1
  · subst hp
    exact log_scanf_search_sweep_stable n outcome n _ _ (-1) (by omega) (by omega) (by omega)
      (by omega)
  · have hp2 : (-1 : Int) ≠ pat_index := fun h => hp h.symm
    have h1 : n + 2 + extra = (n + extra) + 1 + 1 := by omega
    have h2 : n + 2 = n + 1 + 1 := by omega
    rw [h1, h2]
    simp only [log_scanf_search, next_format, hp, if_false, hp2, if_true]

/-- C6: for a specialized text format that is not multiline, whose lock entries name
patterns of the format, and a dst whose last line is last_line: when no pattern that
scan tries matches the line, scan returns SCAN_MATCH, leaves the format as it is and
returns dst with exactly one line appended, which has the file offset of the scanned
line, the timestamp of last_line and level INVALID; the earlier lines are unchanged. -/
theorem scan_no_match_appends_invalid (back_date : Int → Int → Int → Int → Int → Int)
    (fmt : log_format) (dst : List logline) (last_line : logline) (li_offset : Int)
    (outcome : Nat → pattern_outcome)
    (hspec : fmt.lf_specialized = true) (hmulti : fmt.lf_multiline = false)
    (hrange : locks_in_range fmt) (hlast : dst.getLast? = some last_line)
    (hno : no_pattern_matches fmt outcome) :
    scan back_date fmt dst li_offset outcome =
      some (scan_result_t.SCAN_MATCH, fmt,
        dst ++ [logline.mk li_offset last_line.ll_time log_level_t.LEVEL_INVALID 0 0]) := by
  have hsearch := scan_search_no_pattern fmt outcome hno hrange
  simp [scan, hsearch, hspec, hmulti, hlast]

/-- Witness for C6: a specialized format locked on pattern 0 and a line that neither
of its two patterns matches. -/
theorem scan_no_match_appends_invalid_witness :
    locks_in_range { two_pattern_format with
      lf_pattern_locks := [⟨0, 0⟩], lf_specialized := true } ∧
    no_pattern_matches { two_pattern_format with
      lf_pattern_locks := [⟨0, 0⟩], lf_specialized := true }
      (fun _ => pattern_outcome.no_match) ∧
    scan keep_time { two_pattern_format with
        lf_pattern_locks := [⟨0, 0⟩], lf_specialized := true }
      [⟨0, ⟨5, 0⟩, log_level_t.LEVEL_INFO, 0, 0⟩] 42 (fun _ => pattern_outcome.no_match) =
      some (scan_result_t.SCAN_MATCH,
        { two_pattern_format with lf_pattern_locks := [⟨0, 0⟩], lf_specialized := true },
        [⟨0, ⟨5, 0⟩, log_level_t.LEVEL_INFO, 0, 0⟩] ++
          [logline.mk 42 (⟨5, 0⟩ : timeval) log_level_t.LEVEL_INVALID 0 0]) :=
  have hrange : locks_in_range { two_pattern_format with
      lf_pattern_locks := [⟨0, 0⟩], lf_specialized := true } := by
    unfold locks_in_range
    decide
  have hno : no_pattern_matches { two_pattern_format with
      lf_pattern_locks := [⟨0, 0⟩], lf_specialized := true }
      (fun _ => pattern_outcome.no_match) := fun _ _ _ _ => rfl
  ⟨hrange, hno, scan_no_match_appends_invalid keep_time _ _ ⟨0, ⟨5, 0⟩, log_level_t.LEVEL_INFO, 0, 0⟩
    42 _ rfl rfl hrange rfl hno⟩

/-- C5 as amended: when the loop of scan ends because the pattern with index k matched
the line, scan returns SCAN_MATCH and appends one line to dst, at index dst.length.
If k is the authoritative index at entry the lock list is unchanged; otherwise exactly
one entry (L, k) is appended, where L is 0 if the list was empty and otherwise the
index of the appended line reduced modulo 2^32, which is that index itself when dst
held fewer than 2^32 lines. In both cases the authoritative index after the call
is k. -/
theorem scan_match_records_lock (back_date : Int → Int → Int → Int → Int → Int)
    (fmt : log_format) (dst : List logline) (li_offset : Int)
    (outcome : Nat → pattern_outcome) (k : Int) (m : line_match)
    (h : scan_search fmt outcome (fmt.elf_pattern_order.length + 2) (-1)
      (last_pattern_index fmt.lf_pattern_locks) = search_result.found k m) :
    ∃ fmt2 dst1 ll, scan back_date fmt dst li_offset outcome =
        some (scan_result_t.SCAN_MATCH, fmt2, dst1 ++ [ll]) ∧
      dst1.length = dst.length ∧
      (k = last_pattern_index fmt.lf_pattern_locks →
        fmt2.lf_pattern_locks = fmt.lf_pattern_locks) ∧
      (k ≠ last_pattern_index fmt.lf_pattern_locks →
        fmt2.lf_pattern_locks = fmt.lf_pattern_locks ++
          [pattern_for_lines.mk
            (if fmt.lf_pattern_locks = [] then 0 else dst.length % 2 ^ 32) k]) ∧
      (dst.length < 2 ^ 32 → dst.length % 2 ^ 32 = dst.length) ∧
      last_pattern_index fmt2.lf_pattern_locks = k := by
  obtain ⟨dst1, hlen, hscan⟩ := scan_of_found back_date fmt dst li_offset outcome k m h
  refine ⟨_, dst1, _, hscan, hlen, ?_, ?_, Nat.mod_eq_of_lt, ?_⟩
  · intro hk
    simp [locks_after_match, hk]
  · intro hk
    have hk2 : last_pattern_index fmt.lf_pattern_locks ≠ k := fun h2 => hk h2.symm
    simp only [locks_after_match, ne_eq, hk2, not_false_eq_true, if_true, List.isEmpty_iff]
  · simp only [locks_after_match]
    split
    · exact last_pattern_index_append _ _
    · rename_i hk
      simpa using hk

/-- Witness for C5: a format locked on pattern 0 scans a line that only pattern 1
matches. -/
theorem scan_match_records_lock_witness :
    scan_search { two_pattern_format with lf_pattern_locks := [⟨0, 0⟩] }
      (only_pattern_matches 1)
      (({ two_pattern_format with lf_pattern_locks := [⟨0, 0⟩] } :
        log_format).elf_pattern_order.length + 2) (-1)
      (last_pattern_index ({ two_pattern_format with lf_pattern_locks := [⟨0, 0⟩] } :
        log_format).lf_pattern_locks) = search_result.found 1 full_date_match ∧
    ∃ fmt2 dst1 ll, scan keep_time { two_pattern_format with lf_pattern_locks := [⟨0, 0⟩] }
        [⟨0, ⟨5, 0⟩, log_level_t.LEVEL_INFO, 0, 0⟩] 42 (only_pattern_matches 1) =
        some (scan_result_t.SCAN_MATCH, fmt2, dst1 ++ [ll]) ∧
      dst1.length = [(⟨0, ⟨5, 0⟩, log_level_t.LEVEL_INFO, 0, 0⟩ : logline)].length ∧
      ((1 : Int) = last_pattern_index ({ two_pattern_format with
          lf_pattern_locks := [⟨0, 0⟩] } : log_format).lf_pattern_locks →
        fmt2.lf_pattern_locks = ({ two_pattern_format with
          lf_pattern_locks := [⟨0, 0⟩] } : log_format).lf_pattern_locks) ∧
      ((1 : Int) ≠ last_pattern_index ({ two_pattern_format with
          lf_pattern_locks := [⟨0, 0⟩] } : log_format).lf_pattern_locks →
        fmt2.lf_pattern_locks = ({ two_pattern_format with
          lf_pattern_locks := [⟨0, 0⟩] } : log_format).lf_pattern_locks ++
          [pattern_for_lines.mk
            (if ({ two_pattern_format with lf_pattern_locks := [⟨0, 0⟩] } :
                log_format).lf_pattern_locks = [] then 0
              else [(⟨0, ⟨5, 0⟩, log_level_t.LEVEL_INFO, 0, 0⟩ : logline)].length % 2 ^ 32)
            1]) ∧
      ([(⟨0, ⟨5, 0⟩, log_level_t.LEVEL_INFO, 0, 0⟩ : logline)].length < 2 ^ 32 →
        [(⟨0, ⟨5, 0⟩, log_level_t.LEVEL_INFO, 0, 0⟩ : logline)].length % 2 ^ 32 =
          [(⟨0, ⟨5, 0⟩, log_level_t.LEVEL_INFO, 0, 0⟩ : logline)].length) ∧
      last_pattern_index fmt2.lf_pattern_locks = 1 :=
  ⟨by decide, scan_match_records_lock keep_time _ _ 42 _ 1 full_date_match (by decide)⟩

theorem scan_locked_on_first_matches_second (dst : List logline) :
    scan keep_time { two_pattern_format with lf_pattern_locks := [⟨0, 0⟩] } dst 42
      (only_pattern_matches 1) =
      some (scan_result_t.SCAN_MATCH,
        { two_pattern_format with
          lf_pattern_locks := [⟨0, 0⟩, ⟨dst.length % 2 ^ 32, 1⟩],
          lf_timestamp_flags := ⟨true, true, true⟩ },
        dst ++ [logline.mk 42 ⟨10, 0⟩ log_level_t.LEVEL_INFO 0 0]) := by
  have hsearch : scan_search ⟨[⟨false⟩, ⟨false⟩], [⟨0, 0⟩], false, false, ⟨false, false, false⟩⟩
      (only_pattern_matches 1) 4 (-1) 0 = search_result.found 1 full_date_match := by decide
  have hlpi : last_pattern_index [⟨0, 0⟩] = 0 := by decide
  simp [scan, two_pattern_format, hlpi, hsearch, full_date_match]

/-- Counterexample to C5 as stated: a format locked on pattern 0 and a dst of 2^32
lines; the line matches pattern 1 only and is appended at index 2^32 of dst, and the
lock entry appended is (0, 1), not (2^32, 1). -/
theorem scan_lock_line_wraps :
    last_pattern_index ({ two_pattern_format with
      lf_pattern_locks := [⟨0, 0⟩] } : log_format).lf_pattern_locks = 0 ∧
    scan keep_time { two_pattern_format with lf_pattern_locks := [⟨0, 0⟩] }
      (List.replicate 4294967296 ⟨0, ⟨5, 0⟩, log_level_t.LEVEL_INFO, 0, 0⟩) 42
      (only_pattern_matches 1) =
      some (scan_result_t.SCAN_MATCH,
        { two_pattern_format with
          lf_pattern_locks := [⟨0, 0⟩, ⟨0, 1⟩], lf_timestamp_flags := ⟨true, true, true⟩ },
        List.replicate 4294967296 ⟨0, ⟨5, 0⟩, log_level_t.LEVEL_INFO, 0, 0⟩ ++
          [logline.mk 42 ⟨10, 0⟩ log_level_t.LEVEL_INFO 0 0]) ∧
    (List.replicate 4294967296
      (⟨0, ⟨5, 0⟩, log_level_t.LEVEL_INFO, 0, 0⟩ : logline)).length = 4294967296 ∧
    (⟨0, 1⟩ : pattern_for_lines) ≠ ⟨4294967296, 1⟩ := by
  have hgen := scan_locked_on_first_matches_second
    (List.replicate 4294967296 ⟨0, ⟨5, 0⟩, log_level_t.LEVEL_INFO, 0, 0⟩)
  rw [List.length_replicate] at hgen
  have hmod : 4294967296 % 2 ^ 32 = 0 := by decide
  rw [hmod] at hgen
  exact ⟨by decide, hgen, List.length_replicate _ _, by decide⟩

theorem log_scanf_search_locked (n : Nat) (outcome : Nat → pattern_outcome)
    (pat_index : Int) (hp : pat_index ≠ -1) (c : Int)
    (h : log_scanf_search n outcome (n + 2) (-1) pat_index = some c) : c = pat_index := by
  have hp2 : (-1 : Int) ≠ pat_index := fun h2 => hp h2.symm
  unfold log_scanf_search at h
  simp only [next_format, hp, if_false, hp2, Bool.true_eq_false] at h
  split at h
  · simpa using h.symm
  · unfold log_scanf_search at h
    simp [next_format, hp] at h

theorem log_scanf_search_unlocked_nonneg (n : Nat) (outcome : Nat → pattern_outcome)
    (fuel : Nat) : ∀ (c k : Int), -1 ≤ c →
      log_scanf_search n outcome fuel c (-1) = some k → 0 ≤ k := by
  induction fuel with
  | zero => intro c k _ h; simp [log_scanf_search] at h
  | succ fuel ih =>
    intro c k hc h
    unfold log_scanf_search at h
    simp only [next_format, if_true] at h
    split at h
    · exact absurd h (by simp)
    · split at h
      · simp only [Option.some.injEq] at h
        omega
      · exact ih (c + 1) k (by omega) h

theorem lock_inv_log_scanf (locks : List pattern_for_lines) (hinv : lock_inv locks)
    (line_number n : Nat) (outcome : Nat → pattern_outcome) :
    lock_inv (log_scanf locks line_number n outcome).1 := by
  unfold log_scanf
  simp only
  cases hs : log_scanf_search n outcome (n + 2) (-1) (last_pattern_index locks) with
  | none => exact hinv
  | some c =>
    simp only
    rcases last_pattern_index_cases locks with ⟨hnil, hl⟩ | ⟨e, he, -, hl⟩
    · rw [hl] at hs
      have hc := log_scanf_search_unlocked_nonneg n outcome _ (-1) c (by omega) hs
      have hne : c ≠ -1 := by omega
      subst hnil
      simp only [hl, ne_eq, hne, not_false_eq_true, if_true, List.isEmpty_nil, List.nil_append]
      refine ⟨List.pairwise_singleton _ _, ?_⟩
      intro x hx
      rw [List.mem_singleton] at hx
      subst hx
      exact hne
    · have hne : last_pattern_index locks ≠ -1 := by
        rw [hl]
        exact hinv.2 e he
      have := log_scanf_search_locked n outcome _ hne c hs
      simp only [this, ne_eq, not_true_eq_false, if_false]
      exact hinv

theorem lock_inv_scan (back_date : Int → Int → Int → Int → Int → Int) (fmt : log_format)
    (hinv : lock_inv fmt.lf_pattern_locks) (dst : List logline) (li_offset : Int)
    (outcome : Nat → pattern_outcome) (r : scan_result_t) (fmt2 : log_format)
    (dst2 : List logline) (hsize : dst.length < 2 ^ 32)
    (hlines : ∀ e ∈ fmt.lf_pattern_locks, e.pfl_line < dst.length)
    (hscan : scan back_date fmt dst li_offset outcome = some (r, fmt2, dst2)) :
    lock_inv fmt2.lf_pattern_locks ∧ (∀ e ∈ fmt2.lf_pattern_locks, e.pfl_line < dst2.length) ∧
      dst.length ≤ dst2.length := by
  cases hs : scan_search fmt outcome (fmt.elf_pattern_order.length + 2) (-1)
      (last_pattern_index fmt.lf_pattern_locks) with
  | found k m =>
    obtain ⟨dst1, hlen, hres⟩ := scan_of_found back_date fmt dst li_offset outcome k m hs
    have hk := scan_search_found_nonneg fmt outcome _ _ _ k m hs
    rw [hres] at hscan
    simp only [Option.some.injEq, Prod.mk.injEq] at hscan
    obtain ⟨-, rfl, rfl⟩ := hscan
    simp only [List.length_append, List.length_singleton, hlen]
    unfold locks_after_match
    split
    · refine ⟨⟨?_, ?_⟩, ?_, by omega⟩
      · apply locks_ascending_append _ _ hinv.1
        intro x hx
        have hxl := hlines x hx
        have hne : fmt.lf_pattern_locks.isEmpty = false := by
          cases hc : fmt.lf_pattern_locks with
          | nil => rw [hc] at hx; exact absurd hx (List.not_mem_nil x)
          | cons _ _ => rfl
        simp only [hne, Bool.false_eq_true, if_false, Nat.mod_eq_of_lt hsize]
        exact hxl
      · intro x hx
        rcases List.mem_append.mp hx with h1 | h1
        · exact hinv.2 x h1
        · rw [List.mem_singleton] at h1
          subst h1
          simp only
          omega
      · intro x hx
        rcases List.mem_append.mp hx with h1 | h1
        · have := hlines x h1
          omega
        · rw [List.mem_singleton] at h1
          subst h1
          simp only
          split
          · omega
          · rw [Nat.mod_eq_of_lt hsize]
            omega
    · refine ⟨hinv, ?_, by omega⟩
      intro x hx
      have := hlines x hx
      omega
  | no_pattern =>
    simp only [scan, hs] at hscan
    split at hscan
    · split at hscan
      · exact absurd hscan (by simp)
      · simp only [Option.some.injEq, Prod.mk.injEq] at hscan
        obtain ⟨-, rfl, rfl⟩ := hscan
        refine ⟨hinv, ?_, by simp⟩
        intro x hx
        have := hlines x hx
        simp only [List.length_append, List.length_singleton]
        omega
    · simp only [Option.some.injEq, Prod.mk.injEq] at hscan
      obtain ⟨-, rfl, rfl⟩ := hscan
      exact ⟨hinv, hlines, le_refl _⟩
  | undefined => simp [scan, hs] at hscan
  | out_of_fuel => simp [scan, hs] at hscan

theorem lock_inv_specialized (fmt : log_format) (hinv : lock_inv fmt.lf_pattern_locks)
    (fmt_lock : Int) (h : fmt_lock = -1 ∨ fmt.lf_pattern_locks = []) :
    lock_inv (specialized fmt fmt_lock).1.lf_pattern_locks ∧
      lock_inv (specialized fmt fmt_lock).2.lf_pattern_locks := by
  have hnil : lock_inv [] := ⟨List.Pairwise.nil, fun _ h => absurd h (List.not_mem_nil _)⟩
  refine ⟨?_, by simpa [specialized] using hnil⟩
  by_cases hf : fmt_lock = -1
  · simpa [specialized, hf] using hinv
  · rcases h with h | h
    · exact absurd h hf
    · simp only [specialized, ne_eq, hf, not_false_eq_true, if_true, h, List.nil_append]
      refine ⟨List.pairwise_singleton _ _, ?_⟩
      intro x hx
      rw [List.mem_singleton] at hx
      subst hx
      exact hf

/-- C4 as amended: a lock list that is strictly ascending (and holds no entry with
index -1, as every list built from the empty one does) stays so (a) across every
scan call entered with fewer than 2^32 lines in dst and every recorded lock line
below the size of dst, and scan leaves every lock line below the size of the dst it
returns, which is at least as long, so the condition carries over to the next scan
of the same dst; (b) across every log_scanf call; (c) in the clone and in the format
itself after specialized(fmt_lock), when fmt_lock is -1 or the lock list is empty at
the call. -/
theorem lock_list_stays_ascending (fmt : log_format) (hinv : lock_inv fmt.lf_pattern_locks) :
    (∀ (back_date : Int → Int → Int → Int → Int → Int) (dst : List logline) (li_offset : Int)
        (outcome : Nat → pattern_outcome) (r : scan_result_t) (fmt2 : log_format)
        (dst2 : List logline), dst.length < 2 ^ 32 →
        (∀ e ∈ fmt.lf_pattern_locks, e.pfl_line < dst.length) →
        scan back_date fmt dst li_offset outcome = some (r, fmt2, dst2) →
        lock_inv fmt2.lf_pattern_locks ∧
          (∀ e ∈ fmt2.lf_pattern_locks, e.pfl_line < dst2.length) ∧
          dst.length ≤ dst2.length) ∧
    (∀ (line_number n : Nat) (outcome : Nat → pattern_outcome),
        lock_inv (log_scanf fmt.lf_pattern_locks line_number n outcome).1) ∧
    (∀ fmt_lock : Int, fmt_lock = -1 ∨ fmt.lf_pattern_locks = [] →
        lock_inv (specialized fmt fmt_lock).1.lf_pattern_locks ∧
          lock_inv (specialized fmt fmt_lock).2.lf_pattern_locks) :=
  ⟨fun back_date dst li_offset outcome r fmt2 dst2 hsize hlines hscan =>
      lock_inv_scan back_date fmt hinv dst li_offset outcome r fmt2 dst2 hsize hlines hscan,
    fun line_number n outcome => lock_inv_log_scanf _ hinv line_number n outcome,
    fun fmt_lock h => lock_inv_specialized fmt hinv fmt_lock h⟩

/-- Witness for C4: a format locked on pattern 0 since line 0, with one line in dst.
The scan of a line that only pattern 1 matches leaves the locks (0, 0), (1, 1), which
are ascending and lie below the two lines of dst; log_scanf on a line that pattern 0
matches and specialized(-1) keep the list ascending as well. -/
theorem lock_list_stays_ascending_witness :
    lock_inv ({ two_pattern_format with lf_pattern_locks := [⟨0, 0⟩] } :
      log_format).lf_pattern_locks ∧
    [(⟨0, ⟨5, 0⟩, log_level_t.LEVEL_INFO, 0, 0⟩ : logline)].length < 2 ^ 32 ∧
    (∀ e ∈ ({ two_pattern_format with lf_pattern_locks := [⟨0, 0⟩] } :
        log_format).lf_pattern_locks,
      e.pfl_line < [(⟨0, ⟨5, 0⟩, log_level_t.LEVEL_INFO, 0, 0⟩ : logline)].length) ∧
    scan keep_time { two_pattern_format with lf_pattern_locks := [⟨0, 0⟩] }
      [⟨0, ⟨5, 0⟩, log_level_t.LEVEL_INFO, 0, 0⟩] 42 (only_pattern_matches 1) =
      some (scan_result_t.SCAN_MATCH,
        { two_pattern_format with
          lf_pattern_locks := [⟨0, 0⟩, ⟨1, 1⟩], lf_timestamp_flags := ⟨true, true, true⟩ },
        [⟨0, ⟨5, 0⟩, log_level_t.LEVEL_INFO, 0, 0⟩,
          logline.mk 42 ⟨10, 0⟩ log_level_t.LEVEL_INFO 0 0]) ∧
    (lock_inv [⟨0, 0⟩, ⟨1, 1⟩] ∧
      (∀ e ∈ [(⟨0, 0⟩ : pattern_for_lines), ⟨1, 1⟩], e.pfl_line < 2) ∧ 1 ≤ 2) ∧
    (log_scanf [⟨0, 0⟩] 7 2 (only_pattern_matches 0)).1 = [⟨0, 0⟩] ∧
    lock_inv (log_scanf [⟨0, 0⟩] 7 2 (only_pattern_matches 0)).1 ∧
    (specialized { two_pattern_format with lf_pattern_locks := [⟨0, 0⟩] }
      (-1)).1.lf_pattern_locks = [⟨0, 0⟩] ∧
    lock_inv (specialized { two_pattern_format with lf_pattern_locks := [⟨0, 0⟩] }
      (-1)).1.lf_pattern_locks ∧
    lock_inv (specialized { two_pattern_format with lf_pattern_locks := [⟨0, 0⟩] }
      (-1)).2.lf_pattern_locks :=
  have hinv : lock_inv ({ two_pattern_format with lf_pattern_locks := [⟨0, 0⟩] } :
      log_format).lf_pattern_locks := by
    unfold lock_inv
    decide
  have hsize : [(⟨0, ⟨5, 0⟩, log_level_t.LEVEL_INFO, 0, 0⟩ : logline)].length < 2 ^ 32 := by
    decide
  have hlines : ∀ e ∈ ({ two_pattern_format with lf_pattern_locks := [⟨0, 0⟩] } :
        log_format).lf_pattern_locks,
      e.pfl_line < [(⟨0, ⟨5, 0⟩, log_level_t.LEVEL_INFO, 0, 0⟩ : logline)].length := by
    decide
  have hscan : scan keep_time { two_pattern_format with lf_pattern_locks := [⟨0, 0⟩] }
      [⟨0, ⟨5, 0⟩, log_level_t.LEVEL_INFO, 0, 0⟩] 42 (only_pattern_matches 1) =
      some (scan_result_t.SCAN_MATCH,
        { two_pattern_format with
          lf_pattern_locks := [⟨0, 0⟩, ⟨1, 1⟩], lf_timestamp_flags := ⟨true, true, true⟩ },
        [⟨0, ⟨5, 0⟩, log_level_t.LEVEL_INFO, 0, 0⟩,
          logline.mk 42 ⟨10, 0⟩ log_level_t.LEVEL_INFO 0 0]) := by decide
  ⟨hinv, hsize, hlines, hscan,
    (lock_list_stays_ascending _ hinv).1 keep_time _ 42 (only_pattern_matches 1) _ _ _
      hsize hlines hscan,
    by decide,
    (lock_list_stays_ascending _ hinv).2.1 7 2 (only_pattern_matches 0),
    by decide,
    ((lock_list_stays_ascending _ hinv).2.2 (-1) (Or.inl rfl)).1,
    ((lock_list_stays_ascending _ hinv).2.2 (-1) (Or.inl rfl)).2⟩

/-- Counterexample to C4 as stated. Starting from the empty lock list, a scan call
whose line matches pattern 1 leaves the list (0, 1). Cloning that format with
specialized(2) gives the clone the list (0, 1), (0, 2), and a second scan call, made
with an empty dst on a line that matches pattern 0 only, leaves the list
(0, 1), (0, 0). A format locked on pattern 0 at line 0 that scans, with a dst of 2^32
lines, a line that matches pattern 1 only is left with the list (0, 0), (0, 1). None
of the three lists is strictly ascending. -/
theorem lock_list_not_always_ascending :
    two_pattern_format.lf_pattern_locks = [] ∧
    scan keep_time two_pattern_format [] 0 (only_pattern_matches 1) =
      some (scan_result_t.SCAN_MATCH,
        { two_pattern_format with
          lf_pattern_locks := [⟨0, 1⟩], lf_timestamp_flags := ⟨true, true, true⟩ },
        [logline.mk 0 ⟨10, 0⟩ log_level_t.LEVEL_INFO 0 0]) ∧
    (specialized { two_pattern_format with
        lf_pattern_locks := [⟨0, 1⟩], lf_timestamp_flags := ⟨true, true, true⟩ }
      2).1.lf_pattern_locks = [⟨0, 1⟩, ⟨0, 2⟩] ∧
    ¬ locks_ascending [⟨0, 1⟩, ⟨0, 2⟩] ∧
    scan keep_time { two_pattern_format with
        lf_pattern_locks := [⟨0, 1⟩], lf_timestamp_flags := ⟨true, true, true⟩ }
      [] 1 (only_pattern_matches 0) =
      some (scan_result_t.SCAN_MATCH,
        { two_pattern_format with
          lf_pattern_locks := [⟨0, 1⟩, ⟨0, 0⟩], lf_timestamp_flags := ⟨true, true, true⟩ },
        [logline.mk 1 ⟨10, 0⟩ log_level_t.LEVEL_INFO 0 0]) ∧
    ¬ locks_ascending [⟨0, 1⟩, ⟨0, 0⟩] ∧
    scan keep_time { two_pattern_format with lf_pattern_locks := [⟨0, 0⟩] }
      (List.replicate 4294967296 ⟨0, ⟨5, 0⟩, log_level_t.LEVEL_INFO, 0, 0⟩) 42
      (only_pattern_matches 1) =
      some (scan_result_t.SCAN_MATCH,
        { two_pattern_format with
          lf_pattern_locks := [⟨0, 0⟩, ⟨0, 1⟩], lf_timestamp_flags := ⟨true, true, true⟩ },
        List.replicate 4294967296 ⟨0, ⟨5, 0⟩, log_level_t.LEVEL_INFO, 0, 0⟩ ++
          [logline.mk 42 ⟨10, 0⟩ log_level_t.LEVEL_INFO 0 0]) ∧
    ¬ locks_ascending [⟨0, 0⟩, ⟨0, 1⟩] := by
  have hgen := scan_locked_on_first_matches_second
    (List.replicate 4294967296 ⟨0, ⟨5, 0⟩, log_level_t.LEVEL_INFO, 0, 0⟩)
  rw [List.length_replicate] at hgen
  have hmod : 4294967296 % 2 ^ 32 = 0 := by decide
  rw [hmod] at hgen
  exact ⟨rfl, by decide, by decide, by decide, by decide, by decide, hgen, by decide⟩

/-! ## Properties of the activation of the formats -/

/-- The error list after the build loop is the list before it followed by what the
builds pushed, so it is non-empty when the caller-supplied list is or when some
build reports an error. -/
theorem build_formats_errors_ne_nil (build_errors : external_log_format → List String)
    (match_samples : intern_string_t → intern_string_t → Bool)
    (formats : List external_log_format) :
    ∀ (rest : List external_log_format) (errors : List String)
      (alpha : List external_log_format),
      (errors ≠ [] ∨ ∃ f ∈ rest, build_errors f ≠ []) →
      (build_formats build_errors match_samples formats rest errors alpha).1 ≠ [] := by
  intro rest
  induction rest with
  | nil =>
    intro errors alpha h
    rcases h with h | ⟨f, hf, -⟩
    · simpa [build_formats] using h
    · exact absurd hf (List.not_mem_nil f)
  | cons elf rest ih =>
    intro errors alpha h
    simp only [build_formats]
    apply ih
    rcases h with h | ⟨f, hf, hne⟩
    · left
      simp [h]
    · rcases List.mem_cons.mp hf with rfl | hf2
      · left
        simp [hne]
      · exact Or.inr ⟨f, hf2, hne⟩

/-- C7: if the error list is not empty after all formats have been built, load_formats
returns with the graph-ordered format list and the root format list exactly as they
were before the call; only the error list differs, and it is not empty. -/
theorem load_formats_errors_block_activation
    (build_errors : external_log_format → List String)
    (match_samples : intern_string_t → intern_string_t → Bool)
    (generic_log : intern_string_t) (formats : List external_log_format)
    (st : loader_state)
    (h : (build_formats build_errors match_samples formats formats st.errors []).1 ≠ []) :
    ∃ st2, load_formats build_errors match_samples generic_log formats st = some st2 ∧
      st2.graph_ordered_formats = st.graph_ordered_formats ∧
      st2.root_formats = st.root_formats ∧ st2.errors ≠ [] := by
  refine ⟨{ st with errors :=
    (build_formats build_errors match_samples formats formats st.errors []).1 }, ?_, rfl, rfl, h⟩
  unfold load_formats
  have hne : (build_formats build_errors match_samples formats formats st.errors
      []).1.isEmpty = false := by
    cases hb : (build_formats build_errors match_samples formats formats st.errors []).1 with
    | nil => exact absurd hb h
    | cons _ _ => rfl
  simp [hne]

/-- Witness for C7: two formats, the build of the second one reports an error. -/
theorem load_formats_errors_block_activation_witness :
    (build_formats (fun f => if f.elf_name = 2 then ["error:no patterns"] else [])
      (fun a b => a == 1 && b == 2) [⟨1, true, []⟩, ⟨2, false, []⟩]
      [⟨1, true, []⟩, ⟨2, false, []⟩] [] []).1 ≠ [] ∧
    ∃ st2, load_formats (fun f => if f.elf_name = 2 then ["error:no patterns"] else [])
        (fun a b => a == 1 && b == 2) 100 [⟨1, true, []⟩, ⟨2, false, []⟩]
        ⟨[], [⟨9, true, []⟩], [7, 100, 8]⟩ = some st2 ∧
      st2.graph_ordered_formats = [⟨9, true, []⟩] ∧
      st2.root_formats = [7, 100, 8] ∧ st2.errors ≠ [] :=
  ⟨by decide,
    load_formats_errors_block_activation
      (fun f => if f.elf_name = 2 then ["error:no patterns"] else [])
      (fun a b => a == 1 && b == 2) 100 [⟨1, true, []⟩, ⟨2, false, []⟩]
      ⟨[], [⟨9, true, []⟩], [7, 100, 8]⟩ (by decide)⟩

/-! ## Properties of the rewrite engine -/

/-- A value that has an invalid origin, no value definition, or a value definition
with an empty rewriter. -/
theorem rewrite_step_skips (ops : line_range_ops)
    (find_value_def : intern_string_t → Option value_def)
    (execute_any : List logline_value → List Char → List Char) (st : rewrite_state)
    (h : ∀ v ∈ st.values, ops.is_valid v.lv_origin = false ∨ find_value_def v.lvm_name = none ∨
      ∃ vd, find_value_def v.lvm_name = some vd ∧ vd.vd_rewriter = [])
    (i : Nat) : rewrite_step ops find_value_def execute_any st i = some st := by
  unfold rewrite_step
  cases hv : st.values[i]? with
  | none => rfl
  | some iter =>
    simp only
    rcases h iter (List.getElem?_mem hv) with h1 | h1 | ⟨vd, h1, h2⟩
    · simp [h1]
    · split
      · rfl
      · simp [h1]
    · split
      · rfl
      · simp [h1, h2]

theorem rewrite_loop_skips (ops : line_range_ops)
    (find_value_def : intern_string_t → Option value_def)
    (execute_any : List logline_value → List Char → List Char) (st : rewrite_state)
    (h : ∀ v ∈ st.values, ops.is_valid v.lv_origin = false ∨ find_value_def v.lvm_name = none ∨
      ∃ vd, find_value_def v.lvm_name = some vd ∧ vd.vd_rewriter = []) :
    ∀ n i, rewrite_loop ops find_value_def execute_any n i st = some st := by
  intro n
  induction n with
  | zero => intro i; rfl
  | succ n ih =>
    intro i
    simp only [rewrite_loop, rewrite_step_skips ops find_value_def execute_any st h i]
    exact ih (i + 1)

/-- C8: if every value passed to rewrite has an invalid origin, or no value definition
in the format, or a value definition with an empty rewriter, then rewrite returns with
value_out equal to the bytes of the line, the line values and the string attributes
as they were, and no rewriter expression handed to execute_any. -/
theorem rewrite_without_rules_keeps_line (ops : line_range_ops)
    (find_value_def : intern_string_t → Option value_def)
    (execute_any : List logline_value → List Char → List Char)
    (line : List Char) (values : List logline_value) (sa : List string_attr)
    (h : ∀ v ∈ values, ops.is_valid v.lv_origin = false ∨ find_value_def v.lvm_name = none ∨
      ∃ vd, find_value_def v.lvm_name = some vd ∧ vd.vd_rewriter = []) :
    rewrite ops find_value_def execute_any line values sa =
      some { value_out := line, values := values, sa := sa, executed := [] } :=
  rewrite_loop_skips ops find_value_def execute_any
    { value_out := line, values := values, sa := sa, executed := [] } h values.length 0

/-- Witness for C8: a line with three values, one with an invalid origin, one without
a value definition and one whose value definition has an empty rewriter. -/
theorem rewrite_without_rules_keeps_line_witness :
    (∀ v ∈ ([⟨1, ⟨-1, -1⟩, 0⟩, ⟨2, ⟨0, 5⟩, 0⟩, ⟨3, ⟨6, 11⟩, 0⟩] : List logline_value),
      default_line_range_ops.is_valid v.lv_origin = false ∨
      (fun n => if n = 1 then some ⟨['x']⟩ else if n = 3 then some ⟨[]⟩ else none : 
        intern_string_t → Option value_def) v.lvm_name = none ∨
      ∃ vd, (fun n => if n = 1 then some ⟨['x']⟩ else if n = 3 then some ⟨[]⟩ else none : 
        intern_string_t → Option value_def) v.lvm_name = some vd ∧ vd.vd_rewriter = []) ∧
    rewrite default_line_range_ops
      (fun n => if n = 1 then some ⟨['x']⟩ else if n = 3 then some ⟨[]⟩ else none)
      (fun _ _ => ['Z']) "hello world".toList
      [⟨1, ⟨-1, -1⟩, 0⟩, ⟨2, ⟨0, 5⟩, 0⟩, ⟨3, ⟨6, 11⟩, 0⟩] [⟨⟨6, 11⟩, 3⟩] =
      some { value_out := "hello world".toList,
             values := [⟨1, ⟨-1, -1⟩, 0⟩, ⟨2, ⟨0, 5⟩, 0⟩, ⟨3, ⟨6, 11⟩, 0⟩],
             sa := [⟨⟨6, 11⟩, 3⟩], executed := [] } :=
  have h : ∀ v ∈ ([⟨1, ⟨-1, -1⟩, 0⟩, ⟨2, ⟨0, 5⟩, 0⟩, ⟨3, ⟨6, 11⟩, 0⟩] : List logline_value),
      default_line_range_ops.is_valid v.lv_origin = false ∨
      (fun n => if n = 1 then some ⟨['x']⟩ else if n = 3 then some ⟨[]⟩ else none : 
        intern_string_t → Option value_def) v.lvm_name = none ∨
      ∃ vd, (fun n => if n = 1 then some ⟨['x']⟩ else if n = 3 then some ⟨[]⟩ else none : 
        intern_string_t → Option value_def) v.lvm_name = some vd ∧ vd.vd_rewriter = [] := by
    intro v hv
    simp only [List.mem_cons, List.mem_singleton, List.not_mem_nil, or_false] at hv
    rcases hv with rfl | rfl | rfl
    · exact Or.inl rfl
    · exact Or.inr (Or.inl rfl)
    · exact Or.inr (Or.inr ⟨⟨[]⟩, rfl, rfl⟩)
  ⟨h, rewrite_without_rules_keeps_line _ _ _ _ _ _ h⟩

theorem rewrite_step_skips_at (ops : line_range_ops)
    (find_value_def : intern_string_t → Option value_def)
    (execute_any : List logline_value → List Char → List Char) (st : rewrite_state) (i : Nat)
    (h : ∀ u, st.values[i]? = some u → not_rewritable ops find_value_def u) :
    rewrite_step ops find_value_def execute_any st i = some st := by
  unfold rewrite_step
  cases hv : st.values[i]? with
  | none => rfl
  | some iter =>
    simp only
    rcases h iter hv with h1 | h1 | ⟨vd, h1, h2⟩
    · simp [h1]
    · split
      · rfl
      · simp [h1]
    · split
      · rfl
      · simp [h1, h2]

theorem rewrite_loop_skips_range (ops : line_range_ops)
    (find_value_def : intern_string_t → Option value_def)
    (execute_any : List logline_value → List Char → List Char) (st : rewrite_state) :
    ∀ n i, (∀ j u, i ≤ j → j < i + n → st.values[j]? = some u →
        not_rewritable ops find_value_def u) →
      rewrite_loop ops find_value_def execute_any n i st = some st := by
  intro n
  induction n with
  | zero => intro i _; rfl
  | succ n ih =>
    intro i h
    have hstep := rewrite_step_skips_at ops find_value_def execute_any st i
      (fun u hu => h i u (le_refl _) (by omega) hu)
    simp only [rewrite_loop, hstep]
    exact ih (i + 1) (fun j u h1 h2 hu => h j u (by omega) (by omega) hu)

theorem rewrite_loop_add (ops : line_range_ops)
    (find_value_def : intern_string_t → Option value_def)
    (execute_any : List logline_value → List Char → List Char) :
    ∀ a b i st, rewrite_loop ops find_value_def execute_any (a + b) i st =
      (rewrite_loop ops find_value_def execute_any a i st).bind
        (fun st2 => rewrite_loop ops find_value_def execute_any b (i + a) st2) := by
  intro a
  induction a with
  | zero => intro b i st; simp [rewrite_loop]
  | succ a ih =>
    intro b i st
    have : a + 1 + b = (a + b) + 1 := by omega
    rw [this]
    simp only [rewrite_loop]
    cases rewrite_step ops find_value_def execute_any st i with
    | none => rfl
    | some st2 =>
      simp only
      rw [ih b (i + 1) st2]
      have : i + 1 + a = i + (a + 1) := by omega
      rw [this]

/-- The step of rewrite on a rewritable value whose sub-line offset is 0 and whose
origin lies inside the current text. -/
theorem rewrite_step_splices (ops : line_range_ops)
    (find_value_def : intern_string_t → Option value_def)
    (execute_any : List logline_value → List Char → List Char) (st : rewrite_state) (i : Nat)
    (v : logline_value) (vd : value_def) (s e : Nat)
    (hv : st.values[i]? = some v) (hse : s ≤ e) (hen : e ≤ st.value_out.length)
    (horigin : v.lv_origin = ⟨s, e⟩) (hsub : v.lv_sub_offset = 0)
    (hvalid : ops.is_valid v.lv_origin = true)
    (hfind : find_value_def v.lvm_name = some vd) (hrw : vd.vd_rewriter ≠ [])
    (hlen : ops.length ⟨s, e⟩ = (e : Int) - (s : Int)) :
    rewrite_step ops find_value_def execute_any st i =
      some { value_out := st.value_out.take s ++ execute_any st.values vd.vd_rewriter ++
               st.value_out.drop e,
             values := st.values.map (fun u =>
               { u with lv_origin := (ops.shift u.lv_origin s
                 (to_int32 ((execute_any st.values vd.vd_rewriter).length -
                   ((e : Int) - (s : Int))))) }),
             sa := shift_string_attrs ops st.sa s
               (to_int32 ((execute_any st.values vd.vd_rewriter).length -
                 ((e : Int) - (s : Int)))),
             executed := st.executed ++ [vd.vd_rewriter] } := by
  have hempty : vd.vd_rewriter.isEmpty = false := by
    cases hc : vd.vd_rewriter with
    | nil => exact absurd hc hrw
    | cons _ _ => rfl
  have horig : origin_in_full_msg v st.value_out st.value_out.length = some ⟨s, e⟩ := by
    simp [origin_in_full_msg, hsub, horigin]
  have hnot : ¬ ((s : Int) < 0 ∨ (st.value_out.length : Int) < (s : Int)) := by omega
  have hneg : ¬ ((e : Int) - (s : Int) < 0) := by omega
  have hcount : min ((e : Int) - (s : Int)).toNat (st.value_out.length - s) = e - s := by
    omega
  have htake : (st.value_out.take s ++ st.value_out.drop (s + (e - s))).take s =
      st.value_out.take s := by
    rw [List.take_append_of_le_length (by simp; omega)]
    simp
  have hdrop : (st.value_out.take s ++ st.value_out.drop (s + (e - s))).drop s =
      st.value_out.drop e := by
    have hl : (st.value_out.take s).length = s := by simp; omega
    rw [List.drop_append_of_le_length (by omega)]
    have : s + (e - s) = e := by omega
    rw [this]
    have h2 : List.drop s (List.take s st.value_out) = [] := by
      rw [List.drop_eq_nil_iff]
      omega
    rw [h2]
    rfl
  unfold rewrite_step
  simp only [hv, hvalid, Bool.true_eq_false, if_false, hfind, hempty, horig, hnot, hlen, hneg,
    Int.toNat_ofNat, hcount, htake, hdrop, Bool.false_eq_true]

/-- C9: for a line of length n and a value list in which exactly one value v is
rewritable (valid origin [s, e) with s <= e <= n, whose length is e - s, sub-line
offset 0, a value definition with a non-empty rewriter) while every other value is
passed over, and passing over survives the shift of an invalid origin, rewrite
returns with value_out = line[0, s) ++ r ++ line[e, n), where r is the text that
execute_any returns for the rewriter of v; the length of value_out is
n - (e - s) + |r| and the rewriter of v is the only one executed. -/
theorem rewrite_single_value_splices (ops : line_range_ops)
    (find_value_def : intern_string_t → Option value_def)
    (execute_any : List logline_value → List Char → List Char)
    (line : List Char) (before after : List logline_value) (v : logline_value)
    (vd : value_def) (sa : List string_attr) (s e : Nat)
    (hse : s ≤ e) (hen : e ≤ line.length)
    (horigin : v.lv_origin = ⟨s, e⟩) (hsub : v.lv_sub_offset = 0)
    (hvalid : ops.is_valid v.lv_origin = true)
    (hfind : find_value_def v.lvm_name = some vd) (hrw : vd.vd_rewriter ≠ [])
    (hlen : ops.length ⟨s, e⟩ = (e : Int) - (s : Int))
    (hothers : ∀ u ∈ before ++ after, not_rewritable ops find_value_def u)
    (hshift : ∀ (r : line_range) (amount : Int),
      ops.is_valid r = false → ops.is_valid (ops.shift r s amount) = false) :
    ∃ st, rewrite ops find_value_def execute_any line (before ++ v :: after) sa = some st ∧
      st.value_out = line.take s ++ execute_any (before ++ v :: after) vd.vd_rewriter ++
        line.drop e ∧
      st.value_out.length =
        line.length - (e - s) + (execute_any (before ++ v :: after) vd.vd_rewriter).length ∧
      st.executed = [vd.vd_rewriter] := by
  have hvlen : (before ++ v :: after).length = before.length + (1 + after.length) := by
    simp only [List.length_append, List.length_cons]
    omega
  have h1 : rewrite_loop ops find_value_def execute_any before.length 0
      { value_out := line, values := before ++ v :: after, sa := sa, executed := [] } =
      some { value_out := line, values := before ++ v :: after, sa := sa, executed := [] } := by
    apply rewrite_loop_skips_range
    intro j u _ hj hu
    simp only at hu
    rw [List.getElem?_append_left (by omega)] at hu
    exact hothers u (List.mem_append_left _ (List.getElem?_mem hu))
  have hvi : (before ++ v :: after)[before.length]? = some v := by
    rw [List.getElem?_append_right (le_refl _)]
    simp
  have h2 := rewrite_step_splices ops find_value_def execute_any
    { value_out := line, values := before ++ v :: after, sa := sa, executed := [] }
    before.length v vd s e hvi hse hen horigin hsub hvalid hfind hrw hlen
  refine ⟨{ value_out := line.take s ++ execute_any (before ++ v :: after) vd.vd_rewriter ++
               line.drop e,
            values := (before ++ v :: after).map (fun u =>
               { u with lv_origin := (ops.shift u.lv_origin s
                 (to_int32 ((execute_any (before ++ v :: after) vd.vd_rewriter).length -
                   ((e : Int) - (s : Int))))) }),
            sa := shift_string_attrs ops sa s
               (to_int32 ((execute_any (before ++ v :: after) vd.vd_rewriter).length -
                 ((e : Int) - (s : Int)))),
            executed := [vd.vd_rewriter] }, ?_, rfl, ?_, rfl⟩
  · unfold rewrite
    rw [hvlen, rewrite_loop_add, h1]
    simp only [Option.some_bind, Nat.zero_add]
    rw [rewrite_loop_add]
    simp only [rewrite_loop, h2, Option.some_bind]
    apply rewrite_loop_skips_range
    intro j u2 hj1 _ hu2
    simp only [List.getElem?_map, Option.map_eq_some'] at hu2
    obtain ⟨u, hu, rfl⟩ := hu2
    rw [List.getElem?_append_right (by omega)] at hu
    obtain ⟨k, hk⟩ : ∃ k, j - before.length = k + 1 := ⟨j - before.length - 1, by omega⟩
    rw [hk, List.getElem?_cons_succ] at hu
    have hnr := hothers u (List.mem_append_right _ (List.getElem?_mem hu))
    rcases hnr with hnr | hnr | hnr
    · exact Or.inl (hshift _ _ hnr)
    · exact Or.inr (Or.inl hnr)
    · exact Or.inr (Or.inr hnr)
  · simp only [List.length_append, List.length_take, List.length_drop]
    omega

/-- Witness for C9: in the line hello world the value with origin [6, 11) is rewritten
to ZZZ; the other two values have no value definition and an empty rewriter. -/
theorem rewrite_single_value_splices_witness :
    default_line_range_ops.is_valid (⟨1, ⟨6, 11⟩, 0⟩ : logline_value).lv_origin = true ∧
    default_line_range_ops.length ⟨(6 : Nat), (11 : Nat)⟩ = ((11 : Nat) : Int) - ((6 : Nat) : Int) ∧
    (∀ u ∈ ([⟨2, ⟨0, 5⟩, 0⟩] : List logline_value) ++ [⟨3, ⟨0, 11⟩, 0⟩],
      not_rewritable default_line_range_ops sample_value_defs u) ∧
    (∀ (r : line_range) (amount : Int), default_line_range_ops.is_valid r = false →
      default_line_range_ops.is_valid (default_line_range_ops.shift r (6 : Nat) amount) = false) ∧
    ∃ st, rewrite default_line_range_ops sample_value_defs (fun _ _ => ['Z', 'Z', 'Z'])
        "hello world".toList ([⟨2, ⟨0, 5⟩, 0⟩] ++ ⟨1, ⟨6, 11⟩, 0⟩ :: [⟨3, ⟨0, 11⟩, 0⟩])
        [⟨⟨6, 11⟩, 3⟩] = some st ∧
      st.value_out = "hello world".toList.take 6 ++
        (fun _ _ => ['Z', 'Z', 'Z'] : List logline_value → List Char → List Char)
          ([⟨2, ⟨0, 5⟩, 0⟩] ++ ⟨1, ⟨6, 11⟩, 0⟩ :: [⟨3, ⟨0, 11⟩, 0⟩]) (⟨['x']⟩ : value_def).vd_rewriter ++
        "hello world".toList.drop 11 ∧
      st.value_out.length = "hello world".toList.length - (11 - 6) +
        ((fun _ _ => ['Z', 'Z', 'Z'] : List logline_value → List Char → List Char)
          ([⟨2, ⟨0, 5⟩, 0⟩] ++ ⟨1, ⟨6, 11⟩, 0⟩ :: [⟨3, ⟨0, 11⟩, 0⟩])
          (⟨['x']⟩ : value_def).vd_rewriter).length ∧
      st.executed = [(⟨['x']⟩ : value_def).vd_rewriter] :=
  have hothers : ∀ u ∈ ([⟨2, ⟨0, 5⟩, 0⟩] : List logline_value) ++ [⟨3, ⟨0, 11⟩, 0⟩],
      not_rewritable default_line_range_ops sample_value_defs u := by
    intro u hu
    simp only [List.singleton_append, List.mem_cons, List.mem_singleton, List.not_mem_nil,
      or_false] at hu
    rcases hu with rfl | rfl
    · exact Or.inr (Or.inl rfl)
    · exact Or.inr (Or.inr ⟨⟨[]⟩, rfl, rfl⟩)
  have hshift : ∀ (r : line_range) (amount : Int), default_line_range_ops.is_valid r = false →
      default_line_range_ops.is_valid (default_line_range_ops.shift r (6 : Nat) amount) =
        false := by
    intro r amount h
    simp only [default_line_range_ops, bne_eq_false_iff_eq] at h
    simp [default_line_range_ops, h]
  ⟨rfl, by decide, hothers, hshift,
    rewrite_single_value_splices default_line_range_ops sample_value_defs
      (fun _ _ => ['Z', 'Z', 'Z']) "hello world".toList [⟨2, ⟨0, 5⟩, 0⟩] [⟨3, ⟨0, 11⟩, 0⟩]
      ⟨1, ⟨6, 11⟩, 0⟩ ⟨['x']⟩ [⟨⟨6, 11⟩, 3⟩] 6 11 (by decide) (by decide) rfl rfl rfl rfl
      (by decide) (by decide) hothers hshift⟩

/-- For a value on the second physical line (sub-line offset 1) whose origin has an end,
origin_in_full_msg adds the offset at which that line starts. -/
theorem origin_in_full_msg_second_line (v : logline_value) (msg : List Char) (o : Nat)
    (hsub : v.lv_sub_offset = 1) (hend : 0 ≤ v.lv_origin.lr_end)
    (ho : physical_line_start msg 1 = some o) :
    origin_in_full_msg v msg msg.length =
      some ⟨v.lv_origin.lr_start + o, v.lv_origin.lr_end + o⟩ := by
  simp only [physical_line_start, Option.map_eq_some'] at ho
  obtain ⟨found, hfound, rfl⟩ := ho
  have hne : ¬ ((msg.length : Int) = -1) := by omega
  have hend1 : v.lv_origin.lr_end ≠ -1 := by omega
  have hend2 : ¬ (v.lv_origin.lr_end + ((found : Int) + 1) = -1) := by omega
  simp [origin_in_full_msg, hsub, hne, origin_walk, hfound, hend1, hend2]

/-- C10: in the message of the three physical lines a, b and c, line 2 starts at byte
offset 4, so a value with sub-line offset 2 and origin [0, 1) relative to that line
lies at [4, 5) of the message; origin_in_full_msg returns [3, 4), because each
iteration of its loop leaves last one byte past the start of the next line. -/
theorem origin_in_full_msg_third_line_off_by_one :
    physical_line_start "a\nb\nc".toList 2 = some 4 ∧
    origin_in_full_msg ⟨0, ⟨0, 1⟩, 2⟩ "a\nb\nc".toList 5 = some ⟨3, 4⟩ ∧
    (⟨3, 4⟩ : line_range) ≠ ⟨0 + 4, 1 + 4⟩ := by
  decide

/-! ## Properties of the JSON branch of the line scanner -/

/-- What the JSON branch does on a parse failure: for a specialized format and a dst
whose last line is last_line it returns SCAN_MATCH and appends as many lines as the
error text has newlines, plus one; each has level INVALID, the seconds of last_line
and the sub-second part left in the line being built. A format that is not
specialized returns SCAN_NO_MATCH and leaves dst as it is. -/
theorem scan_json_failed (fmt : json_format) (dst : List json_logline) (li_offset : Int)
    (tv : timeval) (opid : Nat) (m : List Char) :
    (fmt.lf_specialized = true → ∀ last_line, dst.getLast? = some last_line →
      scan_json fmt dst li_offset false (json_parse_outcome.failed tv opid (some m)) =
        some (scan_result_t.SCAN_MATCH,
          dst ++ (List.range (m.count '\n' + 1)).map
            (json_sub_line li_offset ⟨last_line.ll_time.tv_sec, tv.tv_usec⟩
              log_level_t.LEVEL_INVALID opid))) ∧
    (fmt.lf_specialized = false →
      scan_json fmt dst li_offset false (json_parse_outcome.failed tv opid (some m)) =
        some (scan_result_t.SCAN_NO_MATCH, dst)) := by
  constructor
  · intro hs last_line hlast
    simp [scan_json, hs, hlast]
  · intro hs
    by_cases h3 : 3 ≤ dst.length
    · simp [scan_json, hs, h3]
    · simp [scan_json, hs, h3]

/-- C12: a specialized JSON format whose dst ends with a line at 5.5 seconds scans a
record that fails to parse before any callback has run, with the error text x. One
line is appended, with level INVALID and sub-line index 0, but its time is 5.0
seconds, not the 5.5 seconds of the line that was last in dst. -/
theorem scan_json_failed_drops_sub_second :
    scan_json ⟨true, 0⟩
      [{ ll_offset := 0, ll_time := ⟨5, 500000⟩, ll_level := log_level_t.LEVEL_INFO,
         ll_module_id := 0, ll_opid := 0, ll_sub_offset := 0, ll_continued := false,
         ll_ignore := false }] 42 false
      (json_parse_outcome.failed ⟨0, 0⟩ 0 (some ['x'])) =
      some (scan_result_t.SCAN_MATCH,
        [{ ll_offset := 0, ll_time := ⟨5, 500000⟩, ll_level := log_level_t.LEVEL_INFO,
           ll_module_id := 0, ll_opid := 0, ll_sub_offset := 0, ll_continued := false,
           ll_ignore := false },
         { ll_offset := 42, ll_time := ⟨5, 0⟩, ll_level := log_level_t.LEVEL_INVALID,
           ll_module_id := 0, ll_opid := 0, ll_sub_offset := 0, ll_continued := false,
           ll_ignore := false }]) ∧
    (⟨5, 0⟩ : timeval) ≠ ⟨5, 500000⟩ := by
  decide

/-- C13 as amended: for a JSON format that is not specialized, scan of a line flagged
partial appends nothing to dst; it returns SCAN_INCOMPLETE when dst holds fewer than
three lines and SCAN_NO_MATCH when dst holds three lines or more. -/
theorem scan_json_partial_unspecialized (fmt : json_format) (dst : List json_logline)
    (li_offset : Int) (outcome : json_parse_outcome) (hs : fmt.lf_specialized = false) :
    (dst.length < 3 →
      scan_json fmt dst li_offset true outcome = some (scan_result_t.SCAN_INCOMPLETE, dst)) ∧
    (3 ≤ dst.length →
      scan_json fmt dst li_offset true outcome = some (scan_result_t.SCAN_NO_MATCH, dst)) := by
  constructor
  · intro h
    have h3 : ¬ (3 ≤ dst.length) := by omega
    simp [scan_json, hs, h3]
  · intro h
    simp [scan_json, hs, h]

/-- Witness for C13: a format that is not specialized and an empty dst. -/
theorem scan_json_partial_unspecialized_witness :
    (⟨false, 0⟩ : json_format).lf_specialized = false ∧
    (([] : List json_logline).length < 3 →
      scan_json ⟨false, 0⟩ [] 42 true (json_parse_outcome.failed ⟨0, 0⟩ 0 none) =
        some (scan_result_t.SCAN_INCOMPLETE, [])) ∧
    (3 ≤ ([] : List json_logline).length →
      scan_json ⟨false, 0⟩ [] 42 true (json_parse_outcome.failed ⟨0, 0⟩ 0 none) =
        some (scan_result_t.SCAN_NO_MATCH, [])) :=
  ⟨rfl, scan_json_partial_unspecialized ⟨false, 0⟩ [] 42
    (json_parse_outcome.failed ⟨0, 0⟩ 0 none) rfl⟩

/-- Counterexample to C13 as stated: a format that is not specialized and a dst of
three lines; scan of a line flagged partial returns SCAN_NO_MATCH, not
SCAN_INCOMPLETE. -/
theorem scan_json_partial_after_three_lines :
    scan_json ⟨false, 0⟩
      (List.replicate 3 (json_sub_line 0 ⟨5, 0⟩ log_level_t.LEVEL_INFO 0 0)) 42 true
      (json_parse_outcome.failed ⟨0, 0⟩ 0 none) =
      some (scan_result_t.SCAN_NO_MATCH,
        List.replicate 3 (json_sub_line 0 ⟨5, 0⟩ log_level_t.LEVEL_INFO 0 0)) ∧
    scan_result_t.SCAN_NO_MATCH ≠ scan_result_t.SCAN_INCOMPLETE := by
  decide

/-! ## Properties of the rendering of JSON records -/

/-- After a call of get_subline on a JSON format the cache key is the offset of the
line and the full_message flag of the call. -/
theorem get_subline_sets_key (render : json_logline → List Char → Bool → render_outcome)
    (st : json_cache) (ll : json_logline) (sbr : List Char) (full_message : Bool)
    (hjson : st.elf_type ≠ elf_type_t.ELF_TYPE_TEXT) :
    (get_subline render st ll sbr full_message).1.jlf_cached_offset = ll.ll_offset ∧
      (get_subline render st ll sbr full_message).1.jlf_cached_full = full_message ∧
      (get_subline render st ll sbr full_message).1.elf_type = st.elf_type ∧
      (get_subline render st ll sbr full_message).2.1 =
        subline_bytes (get_subline render st ll sbr full_message).1.jlf_cached_line
          (get_subline render st ll sbr full_message).1.jlf_line_offsets
          ll.ll_sub_offset full_message := by
  unfold get_subline
  simp only [hjson, if_false]
  split
  · cases render ll sbr full_message <;> simp [rendered_cache]
  · rename_i h
    simp only [ne_eq, not_or, not_not] at h
    exact ⟨h.1, h.2, rfl, rfl⟩

/-- A call of get_subline on a JSON format whose cache key equals the key of the
call returns the slice of the cached line and leaves the format alone. -/
theorem get_subline_hit (render : json_logline → List Char → Bool → render_outcome)
    (st : json_cache) (ll : json_logline) (sbr : List Char) (full_message : Bool)
    (hjson : st.elf_type ≠ elf_type_t.ELF_TYPE_TEXT)
    (h1 : st.jlf_cached_offset = ll.ll_offset) (h2 : st.jlf_cached_full = full_message) :
    get_subline render st ll sbr full_message =
      (st, subline_bytes st.jlf_cached_line st.jlf_line_offsets ll.ll_sub_offset full_message,
        0) := by
  unfold get_subline
  simp [hjson, h1, h2]

/-- C14: when get_subline is called with a line whose offset equals jlf_cached_offset
and with full_message equal to jlf_cached_full, the parser is not invoked and the
format, with its cached line, line values, line-offset index and attributes, is left
as it is. Hence of two consecutive calls with the same offset, full_message flag and
sub-line index the second does not invoke the parser, leaves the format as the first
left it and returns the same bytes as the first, for a JSON format whatever the
record bytes passed in, for a text format (where get_subline returns at once) when
the same bytes are passed in. -/
theorem get_subline_cache_hit (render : json_logline → List Char → Bool → render_outcome)
    (st : json_cache) (ll ll2 : json_logline) (sbr sbr2 : List Char) (full_message : Bool)
    (hoff : ll2.ll_offset = ll.ll_offset) (hsub : ll2.ll_sub_offset = ll.ll_sub_offset)
    (hsbr : st.elf_type ≠ elf_type_t.ELF_TYPE_TEXT ∨ sbr2 = sbr) :
    (st.jlf_cached_offset = ll.ll_offset → st.jlf_cached_full = full_message →
      (get_subline render st ll sbr full_message).1 = st ∧
        (get_subline render st ll sbr full_message).2.2 = 0) ∧
    get_subline render (get_subline render st ll sbr full_message).1 ll2 sbr2 full_message =
      ((get_subline render st ll sbr full_message).1,
        (get_subline render st ll sbr full_message).2.1, 0) := by
  constructor
  · intro h1 h2
    unfold get_subline
    split
    · exact ⟨rfl, rfl⟩
    · simp [h1, h2]
  · by_cases htext : st.elf_type = elf_type_t.ELF_TYPE_TEXT
    · rcases hsbr with h | h
      · exact absurd htext h
      · subst h
        simp [get_subline, htext]
    · obtain ⟨k1, k2, k3, k4⟩ := get_subline_sets_key render st ll sbr full_message htext
      have htext2 : (get_subline render st ll sbr full_message).1.elf_type ≠
          elf_type_t.ELF_TYPE_TEXT := by
        rw [k3]
        exact htext
      rw [get_subline_hit render _ ll2 sbr2 full_message htext2 (by rw [k1, hoff]) k2, hsub,
        ← k4]

/-- Witness for C14: a JSON format whose cache holds the rendering of the record at
offset 42. -/
theorem get_subline_cache_hit_witness :
    (({ ll_offset := 42, ll_time := ⟨5, 0⟩, ll_level := log_level_t.LEVEL_INFO,
        ll_module_id := 0, ll_opid := 0, ll_sub_offset := 1, ll_continued := true,
        ll_ignore := false } : json_logline).ll_offset = 42) ∧
    ((⟨elf_type_t.ELF_TYPE_JSON, 42, false, ['a', '\n', 'b', '\n'], [], [0, 2, 4, 4], []⟩ :
        json_cache).elf_type ≠ elf_type_t.ELF_TYPE_TEXT ∨ ['x'] = ['y']) ∧
    get_subline (fun _ _ _ => render_outcome.parse_failed ['z'])
      (get_subline (fun _ _ _ => render_outcome.parse_failed ['z'])
        ⟨elf_type_t.ELF_TYPE_JSON, 42, false, ['a', '\n', 'b', '\n'], [], [0, 2, 4, 4], []⟩
        { ll_offset := 42, ll_time := ⟨5, 0⟩, ll_level := log_level_t.LEVEL_INFO,
          ll_module_id := 0, ll_opid := 0, ll_sub_offset := 1, ll_continued := true,
          ll_ignore := false } ['y'] false).1
      { ll_offset := 42, ll_time := ⟨5, 0⟩, ll_level := log_level_t.LEVEL_INFO,
        ll_module_id := 0, ll_opid := 0, ll_sub_offset := 1, ll_continued := true,
        ll_ignore := false } ['x'] false =
      (⟨elf_type_t.ELF_TYPE_JSON, 42, false, ['a', '\n', 'b', '\n'], [], [0, 2, 4, 4], []⟩,
        ['b'], 0) :=
  ⟨rfl, Or.inl (by decide),
    (get_subline_cache_hit (fun _ _ _ => render_outcome.parse_failed ['z'])
      ⟨elf_type_t.ELF_TYPE_JSON, 42, false, ['a', '\n', 'b', '\n'], [], [0, 2, 4, 4], []⟩
      { ll_offset := 42, ll_time := ⟨5, 0⟩, ll_level := log_level_t.LEVEL_INFO,
        ll_module_id := 0, ll_opid := 0, ll_sub_offset := 1, ll_continued := true,
        ll_ignore := false }
      { ll_offset := 42, ll_time := ⟨5, 0⟩, ll_level := log_level_t.LEVEL_INFO,
        ll_module_id := 0, ll_opid := 0, ll_sub_offset := 1, ll_continued := true,
        ll_ignore := false } ['y'] ['x'] false rfl rfl (Or.inl (by decide))).2⟩

/-- Starting the count of newline_offsets one position later moves every entry by one. -/
theorem newline_offsets_succ (cs : List Char) (b : Nat) :
    newline_offsets cs (b + 1) = (newline_offsets cs b).map (· + 1) := by
  induction cs generalizing b with
  | nil => rfl
  | cons c cs ih =>
    by_cases hc : c = '\n'
    · simp [newline_offsets, hc, ih]
    · simp [newline_offsets, hc, ih]

/-- The entries of newline_offsets are the positions right after each newline. -/
theorem newline_offsets_eq_filter (cs : List Char) (b : Nat) :
    newline_offsets cs b =
      ((List.range cs.length).filter (fun i => decide (cs[i]? = some '\n'))).map
        (· + (b + 1)) := by
  induction cs generalizing b with
  | nil => rfl
  | cons c cs ih =>
    have hshift : List.map (fun x => x + (b + 1))
        (List.map Nat.succ
          (List.filter ((fun i => decide ((c :: cs)[i]? = some '\n')) ∘ Nat.succ)
            (List.range cs.length))) = newline_offsets cs (b + 1) := by
      rw [ih (b + 1), List.map_map]
      apply congrArg₂
      · funext i
        simp only [Function.comp, Nat.succ_eq_add_one]
        omega
      · apply List.filter_congr
        intro i _
        simp
    rw [List.length_cons, List.range_succ_eq_map, List.filter_cons, List.filter_map]
    by_cases hc : c = '\n'
    · subst hc
      simp only [newline_offsets, if_true, List.getElem?_cons_zero, decide_True,
        List.map_cons, Nat.zero_add]
      rw [hshift]
    · have hc2 : ¬ (some c = some '\n') := by
        intro h
        exact hc (Option.some.inj h)
      simp only [newline_offsets, hc, if_false, List.getElem?_cons_zero, hc2, decide_False,
        Bool.false_eq_true]
      rw [hshift]

/-- There is one entry of newline_offsets for each newline of the buffer. -/
theorem newline_offsets_length (cs : List Char) (b : Nat) :
    (newline_offsets cs b).length = cs.count '\n' := by
  induction cs generalizing b with
  | nil => rfl
  | cons c cs ih =>
    by_cases hc : c = '\n'
    · simp [newline_offsets, hc, ih]
    · have hc2 : ¬ (c == '\n') = true := by simpa using hc
      simp [newline_offsets, hc, ih, List.count_cons, hc2]

/-- The entries of newline_offsets lie after the start and not after the end. -/
theorem newline_offsets_bounds (cs : List Char) (b : Nat) :
    ∀ x ∈ newline_offsets cs b, b < x ∧ x ≤ b + cs.length := by
  induction cs generalizing b with
  | nil => intro x hx; simp [newline_offsets] at hx
  | cons c cs ih =>
    intro x hx
    by_cases hc : c = '\n'
    · simp only [newline_offsets, hc, if_true, List.mem_cons] at hx
      rcases hx with hx | hx
      · subst hx
        simp
      · have := ih (b + 1) x hx
        simp only [List.length_cons]
        omega
    · simp only [newline_offsets, hc, if_false] at hx
      have := ih (b + 1) x hx
      simp only [List.length_cons]
      omega

/-- The entries of newline_offsets ascend. -/
theorem newline_offsets_sorted (cs : List Char) (b : Nat) :
    List.Pairwise (· < ·) (newline_offsets cs b) := by
  induction cs generalizing b with
  | nil => simp [newline_offsets]
  | cons c cs ih =>
    by_cases hc : c = '\n'
    · simp only [newline_offsets, hc, if_true, List.pairwise_cons]
      refine ⟨?_, ih (b + 1)⟩
      intro x hx
      exact (newline_offsets_bounds cs (b + 1) x hx).1
    · simp only [newline_offsets, hc, if_false]
      exact ih (b + 1)

/-- The index of line offsets ascends from 0 to the size of the buffer. -/
theorem line_offsets_of_sorted (cs : List Char) :
    List.Pairwise (· ≤ ·) (line_offsets_of cs) := by
  show List.Pairwise (· ≤ ·) (0 :: (newline_offsets cs 0 ++ [cs.length]))
  rw [List.pairwise_cons]
  refine ⟨fun x _ => Nat.zero_le x, ?_⟩
  rw [List.pairwise_append]
  refine ⟨(newline_offsets_sorted cs 0).imp (fun h => Nat.le_of_lt h), by simp, ?_⟩
  intro x hx y hy
  simp only [List.mem_singleton] at hy
  subst hy
  have := (newline_offsets_bounds cs 0 x hx).2
  omega

/-- Putting a byte in front of the buffer and moving both offsets by one does not
change the slice. -/
theorem slice_between_cons (c : Char) (cs : List Char) (a b : Nat) :
    slice_between (c :: cs) (a + 1) (b + 1) = slice_between cs a b := by
  unfold slice_between
  rcases Nat.eq_zero_or_pos b with hb | hb
  · subst hb
    by_cases hc : c = '\n' <;> by_cases ha : a = 0 <;> simp [hc, ha]
  · obtain ⟨b, rfl⟩ : ∃ b', b = b' + 1 := ⟨b - 1, by omega⟩
    simp only [Nat.add_sub_cancel, List.getElem?_cons_succ, Nat.succ_pos, true_and,
      List.drop_succ_cons, ne_eq, Nat.add_right_cancel_iff]
    have h1 : b + 1 - (a + 1) = b - a := by omega
    have h2 : b + 1 + 1 - (a + 1) = b + 1 - a := by omega
    rw [h1, h2]

/-- The first slice of a buffer that starts with a byte other than a newline starts
with that byte. -/
theorem slice_between_cons_zero (c : Char) (cs : List Char) (b : Nat) (hc : c ≠ '\n') :
    slice_between (c :: cs) 0 (b + 1) = c :: slice_between cs 0 b := by
  unfold slice_between
  rcases Nat.eq_zero_or_pos b with hb | hb
  · subst hb
    simp [hc]
  · obtain ⟨b, rfl⟩ : ∃ b', b = b' + 1 := ⟨b - 1, by omega⟩
    simp only [Nat.add_sub_cancel, List.getElem?_cons_succ, Nat.succ_pos, true_and,
      List.drop_zero, Nat.sub_zero, ne_eq]
    by_cases h : cs[b]? = some '\n'
    · simp [h]
    · simp [h]

/-- The slice of a sub-line after the first does not depend on the first entry of the
index. -/
theorem subline_bytes_cons_succ (cs : List Char) (x : Nat) (tl : List Nat) (k : Nat) :
    subline_bytes cs (x :: tl) (k + 1) false = subline_bytes cs tl k false := by
  simp [subline_bytes]

/-- Putting a byte in front of the buffer and an entry in front of the index moved by
one leaves the slices as they were, one sub-line later. -/
theorem subline_bytes_cons_map (c : Char) (cs : List Char) (y : Nat) (os : List Nat)
    (k : Nat) :
    subline_bytes (c :: cs) (y :: os.map (· + 1)) (k + 1) false =
      subline_bytes cs os k false := by
  simp only [subline_bytes, Bool.false_eq_true, if_false, List.getElem?_cons_succ,
    List.getElem?_map]
  cases h1 : os[k]? with
  | none => rfl
  | some a =>
    cases h2 : os[k + 1]? with
    | none => simp [slice_between_cons]
    | some b => simp [slice_between_cons]

/-- The physical lines of a buffer are never none. -/
theorem physical_lines_ne_nil (cs : List Char) : physical_lines cs ≠ [] := by
  cases cs with
  | nil => simp [physical_lines]
  | cons c cs =>
    unfold physical_lines
    split
    · simp
    · split <;> simp

/-- With the index built from the buffer, the slice of sub-line k is the k-th piece
of the buffer split at its newlines. -/
theorem subline_bytes_physical_line (cs : List Char) :
    ∀ (k : Nat) (piece : List Char), (physical_lines cs)[k]? = some piece →
      subline_bytes cs (line_offsets_of cs) k false = piece := by
  induction cs with
  | nil =>
    intro k piece h
    cases k with
    | zero =>
      simp only [physical_lines, List.getElem?_cons_zero, Option.some.injEq] at h
      subst h
      decide
    | succ k => simp [physical_lines] at h
  | cons c cs ih =>
    intro k piece h
    by_cases hc : c = '\n'
    · subst hc
      have hoffs : line_offsets_of ('\n' :: cs) = 0 :: (line_offsets_of cs).map (· + 1) := by
        simp [line_offsets_of, newline_offsets, newline_offsets_succ]
      rw [hoffs]
      simp only [physical_lines, if_true] at h
      cases k with
      | zero =>
        simp only [List.getElem?_cons_zero, Option.some.injEq] at h
        subst h
        simp [subline_bytes, line_offsets_of, slice_between]
      | succ k =>
        rw [subline_bytes_cons_map]
        exact ih k piece (by simpa using h)
    · have hoffs : line_offsets_of (c :: cs) =
          0 :: (newline_offsets cs 0 ++ [cs.length]).map (· + 1) := by
        simp [line_offsets_of, newline_offsets, newline_offsets_succ, hc]
      rw [hoffs]
      obtain ⟨l, ls, hl⟩ : ∃ l ls, physical_lines cs = l :: ls := by
        cases hp : physical_lines cs with
        | nil => exact absurd hp (physical_lines_ne_nil cs)
        | cons l ls => exact ⟨l, ls, rfl⟩
      simp only [physical_lines, hc, if_false, hl] at h
      cases k with
      | zero =>
        simp only [List.getElem?_cons_zero, Option.some.injEq] at h
        subst h
        have h0 := ih 0 l (by rw [hl]; simp)
        rw [← h0]
        simp only [subline_bytes, Bool.false_eq_true, if_false, List.getElem?_cons_zero,
          line_offsets_of, List.cons_append, Nat.zero_add, List.getElem?_cons_succ,
          List.getElem?_map]
        cases h2 : (newline_offsets cs 0 ++ [cs.length])[0]? with
        | none => simp at h2
        | some b =>
          simp only [Option.map_some']
          exact slice_between_cons_zero c cs b hc
      | succ k =>
        rw [subline_bytes_cons_map]
        have hk := ih (k + 1) piece (by rw [hl]; simpa using h)
        rw [← hk]
        show _ = subline_bytes cs (0 :: (newline_offsets cs 0 ++ [cs.length])) (k + 1) false
        rw [subline_bytes_cons_succ]

/-- The pieces of a buffer of newline-terminated lines are the lines and a last
piece without bytes. -/
theorem physical_lines_join_lines (lines : List (List Char))
    (hnl : ∀ l ∈ lines, '\n' ∉ l) : physical_lines (join_lines lines) = lines ++ [[]] := by
  induction lines with
  | nil => rfl
  | cons l ls ih =>
    have ihl := ih (fun x hx => hnl x (List.mem_cons_of_mem _ hx))
    have hl : '\n' ∉ l := hnl l (List.mem_cons_self _ _)
    show physical_lines (l ++ '\n' :: join_lines ls) = l :: ls ++ [[]]
    induction l with
    | nil => simp [physical_lines, ihl]
    | cons c l ihc =>
      have hc : c ≠ '\n' := fun h => hl (h ▸ List.mem_cons_self _ _)
      have hl2 : '\n' ∉ l := fun h => hl (List.mem_cons_of_mem _ h)
      have := ihc (fun x hx => by
        rcases List.mem_cons.1 hx with hx | hx
        · subst hx; exact hl2
        · exact hnl x (List.mem_cons_of_mem _ hx)) hl2
      simp [physical_lines, hc, this]

/-- A call of get_subline on a JSON format whose cache key differs from the key of the
call renders the record and invokes the parser once. -/
theorem get_subline_miss (render : json_logline → List Char → Bool → render_outcome)
    (st : json_cache) (ll : json_logline) (sbr : List Char) (full_message : Bool)
    (hjson : st.elf_type ≠ elf_type_t.ELF_TYPE_TEXT)
    (hmiss : st.jlf_cached_offset ≠ ll.ll_offset ∨ st.jlf_cached_full ≠ full_message) :
    get_subline render st ll sbr full_message =
      (rendered_cache st ll full_message (render ll sbr full_message),
        subline_bytes (rendered_cache st ll full_message (render ll sbr full_message)).jlf_cached_line
          (rendered_cache st ll full_message (render ll sbr full_message)).jlf_line_offsets
          ll.ll_sub_offset full_message, 1) := by
  unfold get_subline
  simp only [hjson, if_false, hmiss, if_true]

/-- The index of a rendered record is the index built from its cached line. -/
theorem rendered_cache_offsets (st : json_cache) (ll : json_logline) (full_message : Bool)
    (o : render_outcome) :
    (rendered_cache st ll full_message o).jlf_line_offsets =
      line_offsets_of (rendered_cache st ll full_message o).jlf_cached_line ∧
    (rendered_cache st ll full_message o).elf_type = st.elf_type ∧
    (rendered_cache st ll full_message o).jlf_cached_offset = ll.ll_offset ∧
    (rendered_cache st ll full_message o).jlf_cached_full = full_message := by
  cases o <;> exact ⟨rfl, rfl, rfl, rfl⟩

/-- A buffer of newline-terminated lines has one newline for each line. -/
theorem count_join_lines (lines : List (List Char)) (hnl : ∀ l ∈ lines, '\n' ∉ l) :
    (join_lines lines).count '\n' = lines.length := by
  induction lines with
  | nil => rfl
  | cons l ls ih =>
    have hl : l.count '\n' = 0 := List.count_eq_zero.2 (hnl l (List.mem_cons_self _ _))
    simp [join_lines, List.count_append, hl, ih (fun x hx => hnl x (List.mem_cons_of_mem _ hx))]

/-- The newline of a line without newlines gives the first entry of newline_offsets. -/
theorem newline_offsets_line (l rest : List Char) (b : Nat) (hl : '\n' ∉ l) :
    newline_offsets (l ++ '\n' :: rest) b =
      (b + l.length + 1) :: newline_offsets rest (b + l.length + 1) := by
  induction l generalizing b with
  | nil => simp [newline_offsets]
  | cons c l ih =>
    have hc : c ≠ '\n' := fun h => hl (h ▸ List.mem_cons_self _ _)
    have hl2 : '\n' ∉ l := fun h => hl (List.mem_cons_of_mem _ h)
    simp only [List.cons_append, newline_offsets, hc, if_false, List.length_cons]
    have h := ih (b + 1) hl2
    have h1 : b + 1 + l.length + 1 = b + (l.length + 1) + 1 := by omega
    rw [h1] at h
    exact h

/-- In a buffer of newline-terminated lines the entries of newline_offsets are the
offsets at which the lines after the first start, and the size of the buffer. -/
theorem newline_offsets_join_lines (lines : List (List Char)) (b : Nat)
    (hnl : ∀ l ∈ lines, '\n' ∉ l) :
    newline_offsets (join_lines lines) b =
      (List.range lines.length).map
        (fun k => b + (join_lines (lines.take (k + 1))).length) := by
  induction lines generalizing b with
  | nil => rfl
  | cons l ls ih =>
    have ihl := ih (b + l.length + 1) (fun x hx => hnl x (List.mem_cons_of_mem _ hx))
    have hl : '\n' ∉ l := hnl l (List.mem_cons_self _ _)
    show newline_offsets (l ++ '\n' :: join_lines ls) b = _
    rw [newline_offsets_line l _ b hl, ihl, List.length_cons, List.range_succ_eq_map,
      List.map_cons, List.map_map]
    congr 1
    · simp only [List.take_succ_cons, List.take_zero, join_lines, List.length_append,
        List.length_cons, List.length_nil]
      omega
    · apply List.map_congr_left
      intro k _
      simp only [Function.comp, Nat.succ_eq_add_one, List.take_succ_cons, join_lines,
        List.length_append, List.length_cons]
      omega

/-- The index built from a buffer of newline-terminated lines: the offset at which
each line starts, the size of the buffer, and the size of the buffer once more. -/
theorem line_offsets_of_join_lines (lines : List (List Char))
    (hnl : ∀ l ∈ lines, '\n' ∉ l) :
    line_offsets_of (join_lines lines) =
      (List.range (lines.length + 1)).map (fun k => (join_lines (lines.take k)).length) ++
        [(join_lines lines).length] := by
  unfold line_offsets_of
  rw [newline_offsets_join_lines lines 0 hnl, List.range_succ_eq_map, List.map_cons,
    List.map_map]
  simp [join_lines, Function.comp]

/-- C15, amended: after get_subline has rendered a record, the line-offset index
jlf_line_offsets is 0, then one past the position of every newline of the cached line
in ascending order, then the size of the cached line. It has two entries more than
the cached line has newlines, so for a cached line made of L newline-terminated
physical lines it has L + 2 entries: the offset at which each of the L lines starts,
the size of the cached line, and the size of the cached line once more. -/
theorem get_subline_line_offsets (render : json_logline → List Char → Bool → render_outcome)
    (st : json_cache) (ll : json_logline) (sbr : List Char) (full_message : Bool)
    (hjson : st.elf_type ≠ elf_type_t.ELF_TYPE_TEXT)
    (hmiss : st.jlf_cached_offset ≠ ll.ll_offset ∨ st.jlf_cached_full ≠ full_message) :
    (get_subline render st ll sbr full_message).1.jlf_line_offsets =
        0 :: ((List.range (get_subline render st ll sbr full_message).1.jlf_cached_line.length).filter
          (fun i => decide
            ((get_subline render st ll sbr full_message).1.jlf_cached_line[i]? = some '\n'))).map
          (· + 1) ++ [(get_subline render st ll sbr full_message).1.jlf_cached_line.length] ∧
      (get_subline render st ll sbr full_message).1.jlf_line_offsets.length =
        (get_subline render st ll sbr full_message).1.jlf_cached_line.count '\n' + 2 ∧
      List.Pairwise (· ≤ ·) (get_subline render st ll sbr full_message).1.jlf_line_offsets ∧
      ∀ lines : List (List Char), (∀ l ∈ lines, '\n' ∉ l) →
        (get_subline render st ll sbr full_message).1.jlf_cached_line = join_lines lines →
        (get_subline render st ll sbr full_message).1.jlf_line_offsets.length =
            lines.length + 2 ∧
          (get_subline render st ll sbr full_message).1.jlf_line_offsets =
            (List.range (lines.length + 1)).map
              (fun k => (join_lines (lines.take k)).length) ++
              [(join_lines lines).length] := by
  rw [get_subline_miss render st ll sbr full_message hjson hmiss]
  obtain ⟨hoffs, -, -, -⟩ :=
    rendered_cache_offsets st ll full_message (render ll sbr full_message)
  simp only
  generalize rendered_cache st ll full_message (render ll sbr full_message) = S
    at hoffs ⊢
  rw [hoffs]
  generalize S.jlf_cached_line = cs
  refine ⟨?_, ?_, line_offsets_of_sorted cs, ?_⟩
  · unfold line_offsets_of
    rw [newline_offsets_eq_filter]
  · simp [line_offsets_of, newline_offsets_length]
  · intro lines hnl hcs
    subst hcs
    refine ⟨?_, line_offsets_of_join_lines lines hnl⟩
    simp [line_offsets_of, newline_offsets_length, count_join_lines lines hnl]

/-- Witness for C15: the record of the scenario, whose line format renders the two
lines a and b. -/
theorem get_subline_line_offsets_witness :
    (⟨elf_type_t.ELF_TYPE_JSON, -1, false, [], [], [], []⟩ : json_cache).elf_type ≠
        elf_type_t.ELF_TYPE_TEXT ∧
      (get_subline (fun _ _ _ => render_outcome.rendered ['a', '\n', 'b'] [] [] [])
        ⟨elf_type_t.ELF_TYPE_JSON, -1, false, [], [], [], []⟩
        { ll_offset := 0, ll_time := ⟨5, 0⟩, ll_level := log_level_t.LEVEL_INFO,
          ll_module_id := 0, ll_opid := 0, ll_sub_offset := 0, ll_continued := false,
          ll_ignore := false } [] false).1.jlf_line_offsets.length = 2 + 2 :=
  ⟨by decide,
    ((get_subline_line_offsets (fun _ _ _ => render_outcome.rendered ['a', '\n', 'b'] [] [] [])
      ⟨elf_type_t.ELF_TYPE_JSON, -1, false, [], [], [], []⟩
      { ll_offset := 0, ll_time := ⟨5, 0⟩, ll_level := log_level_t.LEVEL_INFO,
        ll_module_id := 0, ll_opid := 0, ll_sub_offset := 0, ll_continued := false,
        ll_ignore := false } [] false (by decide) (Or.inl (by decide))).2.2.2
      [['a'], ['b']] (by decide) (by decide)).1⟩

/-- Counterexample for C15: a record whose line format renders the two lines a and b
has the cached line a, newline, b, newline, and its line-offset index is 0, 2, 4, 4,
of length 4 and not 3. -/
theorem get_subline_two_lines_four_offsets :
    (get_subline (fun _ _ _ => render_outcome.rendered ['a', '\n', 'b'] [] [] [])
        ⟨elf_type_t.ELF_TYPE_JSON, -1, false, [], [], [], []⟩
        { ll_offset := 0, ll_time := ⟨5, 0⟩, ll_level := log_level_t.LEVEL_INFO,
          ll_module_id := 0, ll_opid := 0, ll_sub_offset := 0, ll_continued := false,
          ll_ignore := false } [] false).1.jlf_cached_line = ['a', '\n', 'b', '\n'] ∧
      (get_subline (fun _ _ _ => render_outcome.rendered ['a', '\n', 'b'] [] [] [])
        ⟨elf_type_t.ELF_TYPE_JSON, -1, false, [], [], [], []⟩
        { ll_offset := 0, ll_time := ⟨5, 0⟩, ll_level := log_level_t.LEVEL_INFO,
          ll_module_id := 0, ll_opid := 0, ll_sub_offset := 0, ll_continued := false,
          ll_ignore := false } [] false).1.jlf_line_offsets = [0, 2, 4, 4] ∧
      (get_subline (fun _ _ _ => render_outcome.rendered ['a', '\n', 'b'] [] [] [])
        ⟨elf_type_t.ELF_TYPE_JSON, -1, false, [], [], [], []⟩
        { ll_offset := 0, ll_time := ⟨5, 0⟩, ll_level := log_level_t.LEVEL_INFO,
          ll_module_id := 0, ll_opid := 0, ll_sub_offset := 0, ll_continued := false,
          ll_ignore := false } [] false).1.jlf_line_offsets.length ≠ 3 := by
  decide

/-- On a JSON format whose index is the one built from its cached line, get_subline
leaves such an index behind. -/
theorem get_subline_offsets_inv (render : json_logline → List Char → Bool → render_outcome)
    (st : json_cache) (ll : json_logline) (sbr : List Char) (full_message : Bool)
    (hjson : st.elf_type ≠ elf_type_t.ELF_TYPE_TEXT)
    (hinv : st.jlf_line_offsets = line_offsets_of st.jlf_cached_line) :
    (get_subline render st ll sbr full_message).1.jlf_line_offsets =
      line_offsets_of (get_subline render st ll sbr full_message).1.jlf_cached_line := by
  by_cases hmiss : st.jlf_cached_offset ≠ ll.ll_offset ∨ st.jlf_cached_full ≠ full_message
  · rw [get_subline_miss render st ll sbr full_message hjson hmiss]
    exact (rendered_cache_offsets st ll full_message _).1
  · simp only [ne_eq, not_or, not_not] at hmiss
    rw [get_subline_hit render st ll sbr full_message hjson hmiss.1 hmiss.2]
    exact hinv

/-- No piece of a buffer split at its newlines holds a newline. -/
theorem physical_lines_no_newline (cs : List Char) :
    ∀ p ∈ physical_lines cs, '\n' ∉ p := by
  induction cs with
  | nil =>
    intro p hp
    simp only [physical_lines, List.mem_singleton] at hp
    subst hp
    simp
  | cons c cs ih =>
    intro p hp
    by_cases hc : c = '\n'
    · simp only [physical_lines, hc, if_true, List.mem_cons] at hp
      rcases hp with hp | hp
      · subst hp
        simp
      · exact ih p hp
    · cases hq : physical_lines cs with
      | nil => exact absurd hq (physical_lines_ne_nil cs)
      | cons l ls =>
        simp only [physical_lines, hc, if_false, hq, List.mem_cons] at hp
        rcases hp with hp | hp
        · subst hp
          intro hmem
          rcases List.mem_cons.1 hmem with h | h
          · exact hc h.symm
          · exact ih l (by rw [hq]; exact List.mem_cons_self _ _) h
        · exact ih p (by rw [hq]; exact List.mem_cons_of_mem _ hp)

/-- C16: after get_subline has rendered a record, every call with full_message = false
for a line whose sub-line index k is smaller than the number of pieces of the cached
buffer split at its newlines yields exactly the k-th piece, which holds no newline.
When the cached buffer is made of newline-terminated lines, the calls for the
sub-line indexes below the number of lines do not render again and yield these
lines, and the slices in order, each followed by a newline, are the cached buffer. -/
theorem get_subline_yields_physical_line
    (render : json_logline → List Char → Bool → render_outcome)
    (st : json_cache) (ll0 : json_logline) (sbr0 : List Char) (full_message0 : Bool)
    (hjson : st.elf_type ≠ elf_type_t.ELF_TYPE_TEXT)
    (hmiss : st.jlf_cached_offset ≠ ll0.ll_offset ∨ st.jlf_cached_full ≠ full_message0) :
    (∀ (ll : json_logline) (sbr piece : List Char),
      (physical_lines
        (get_subline render (get_subline render st ll0 sbr0 full_message0).1 ll sbr
          false).1.jlf_cached_line)[ll.ll_sub_offset]? = some piece →
      (get_subline render (get_subline render st ll0 sbr0 full_message0).1 ll sbr
          false).2.1 = piece ∧ '\n' ∉ piece) ∧
    (full_message0 = false →
      ∀ (lines : List (List Char)) (lls : Nat → json_logline) (sbr : List Char),
        (∀ l ∈ lines, '\n' ∉ l) →
        (get_subline render st ll0 sbr0 full_message0).1.jlf_cached_line = join_lines lines →
        (∀ k, (lls k).ll_offset = ll0.ll_offset ∧ (lls k).ll_sub_offset = k) →
        (∀ k l, lines[k]? = some l →
          get_subline render (get_subline render st ll0 sbr0 full_message0).1 (lls k) sbr
            false = ((get_subline render st ll0 sbr0 full_message0).1, l, 0)) ∧
        join_lines ((List.range lines.length).map (fun k =>
          (get_subline render (get_subline render st ll0 sbr0 full_message0).1 (lls k) sbr
            false).2.1)) =
          (get_subline render st ll0 sbr0 full_message0).1.jlf_cached_line) := by
  obtain ⟨k1, k2, k3, -⟩ := get_subline_sets_key render st ll0 sbr0 full_message0 hjson
  have hinv : (get_subline render st ll0 sbr0 full_message0).1.jlf_line_offsets =
      line_offsets_of (get_subline render st ll0 sbr0 full_message0).1.jlf_cached_line := by
    rw [get_subline_miss render st ll0 sbr0 full_message0 hjson hmiss]
    exact (rendered_cache_offsets st ll0 full_message0 _).1
  generalize get_subline render st ll0 sbr0 full_message0 = r at k1 k2 k3 hinv ⊢
  have hjson2 : r.1.elf_type ≠ elf_type_t.ELF_TYPE_TEXT := by
    rw [k3]
    exact hjson
  constructor
  · intro ll sbr piece hpiece
    have h4 := (get_subline_sets_key render r.1 ll sbr false hjson2).2.2.2
    have h5 := get_subline_offsets_inv render r.1 ll sbr false hjson2 hinv
    rw [h4, h5]
    exact ⟨subline_bytes_physical_line _ _ piece hpiece,
      physical_lines_no_newline _ piece (List.getElem?_mem hpiece)⟩
  · intro hfm lines lls sbr hnl hcs hlls
    subst hfm
    have hcall : ∀ k l, lines[k]? = some l →
        get_subline render r.1 (lls k) sbr false = (r.1, l, 0) := by
      intro k l hl
      rw [get_subline_hit render r.1 (lls k) sbr false hjson2 (by rw [k1, (hlls k).1]) k2,
        (hlls k).2, hinv]
      have hp : (physical_lines r.1.jlf_cached_line)[k]? = some l := by
        rw [hcs, physical_lines_join_lines lines hnl,
          List.getElem?_append_left (List.getElem?_eq_some.1 hl).1]
        exact hl
      rw [subline_bytes_physical_line _ k l hp]
    refine ⟨hcall, ?_⟩
    rw [hcs]
    congr 1
    apply List.ext_getElem
    · simp
    · intro n h1 h2
      simp only [List.getElem_map, List.getElem_range]
      rw [hcall n lines[n] (List.getElem?_eq_getElem h2)]

/-- Witness for C16: a format that has rendered the two lines a and b. -/
theorem get_subline_yields_physical_line_witness :
    (⟨elf_type_t.ELF_TYPE_JSON, -1, false, [], [], [], []⟩ : json_cache).elf_type ≠
        elf_type_t.ELF_TYPE_TEXT ∧
      (get_subline (fun _ _ _ => render_outcome.rendered ['a', '\n', 'b'] [] [] [])
        (get_subline (fun _ _ _ => render_outcome.rendered ['a', '\n', 'b'] [] [] [])
          ⟨elf_type_t.ELF_TYPE_JSON, -1, false, [], [], [], []⟩
          { ll_offset := 0, ll_time := ⟨5, 0⟩, ll_level := log_level_t.LEVEL_INFO,
            ll_module_id := 0, ll_opid := 0, ll_sub_offset := 0, ll_continued := false,
            ll_ignore := false } [] false).1
        { ll_offset := 0, ll_time := ⟨5, 0⟩, ll_level := log_level_t.LEVEL_INFO,
          ll_module_id := 0, ll_opid := 0, ll_sub_offset := 1, ll_continued := true,
          ll_ignore := false } [] false).2.1 = ['b'] :=
  ⟨by decide,
    ((get_subline_yields_physical_line
      (fun _ _ _ => render_outcome.rendered ['a', '\n', 'b'] [] [] [])
      ⟨elf_type_t.ELF_TYPE_JSON, -1, false, [], [], [], []⟩
      { ll_offset := 0, ll_time := ⟨5, 0⟩, ll_level := log_level_t.LEVEL_INFO,
        ll_module_id := 0, ll_opid := 0, ll_sub_offset := 0, ll_continued := false,
        ll_ignore := false } [] false (by decide) (Or.inl (by decide))).1
      { ll_offset := 0, ll_time := ⟨5, 0⟩, ll_level := log_level_t.LEVEL_INFO,
        ll_module_id := 0, ll_opid := 0, ll_sub_offset := 1, ll_continued := true,
        ll_ignore := false } [] ['b'] (by decide)).1⟩

/-! ## Properties of the rollover heuristic -/

/-- C17, amended: check_for_new_year leaves dst as it is when dst is empty, when the
new time is not earlier than the time of the last line, and when it is earlier by
less than 86400 seconds and the day was part of the parsed timestamp. In every other
case, that is when the new time is earlier by 86400 seconds or more, or earlier by
any amount with the day missing from the parsed timestamp, every line of dst gets the
time that the calendar step gives for its old time, unless that step gives -1: a
year back when the difference is at least 86400 and the month was parsed, a month
back when it is at least 86400 and the month was not parsed, a day back when it is
at least 3600 and less than 86400, an hour back when it is less than 3600. -/
theorem check_for_new_year_cases (back_date : Int → Int → Int → Int → Int → Int)
    (dst : List logline) (etm : et_flags_t) (log_tv : timeval) :
    (dst = [] → check_for_new_year back_date dst etm log_tv = dst) ∧
    (∀ last_line, dst.getLast? = some last_line →
      (last_line.ll_time.tv_sec - log_tv.tv_sec ≤ 0 ∨
        (last_line.ll_time.tv_sec - log_tv.tv_sec < 86400 ∧ etm.ETF_DAY_SET = true)) →
      check_for_new_year back_date dst etm log_tv = dst) ∧
    (∀ last_line, dst.getLast? = some last_line →
      0 < last_line.ll_time.tv_sec - log_tv.tv_sec →
      (86400 ≤ last_line.ll_time.tv_sec - log_tv.tv_sec ∨ etm.ETF_DAY_SET = false) →
      check_for_new_year back_date dst etm log_tv =
        dst.map (fun ll =>
          if back_date
              (if 86400 ≤ last_line.ll_time.tv_sec - log_tv.tv_sec ∧
                etm.ETF_MONTH_SET = true then 1 else 0)
              (if 86400 ≤ last_line.ll_time.tv_sec - log_tv.tv_sec ∧
                etm.ETF_MONTH_SET = false then 1 else 0)
              (if last_line.ll_time.tv_sec - log_tv.tv_sec < 86400 ∧
                3600 ≤ last_line.ll_time.tv_sec - log_tv.tv_sec then 1 else 0)
              (if last_line.ll_time.tv_sec - log_tv.tv_sec < 3600 then 1 else 0)
              ll.ll_time.tv_sec = -1 then ll
          else
            logline.mk ll.ll_offset
              ⟨back_date
                (if 86400 ≤ last_line.ll_time.tv_sec - log_tv.tv_sec ∧
                  etm.ETF_MONTH_SET = true then 1 else 0)
                (if 86400 ≤ last_line.ll_time.tv_sec - log_tv.tv_sec ∧
                  etm.ETF_MONTH_SET = false then 1 else 0)
                (if last_line.ll_time.tv_sec - log_tv.tv_sec < 86400 ∧
                  3600 ≤ last_line.ll_time.tv_sec - log_tv.tv_sec then 1 else 0)
                (if last_line.ll_time.tv_sec - log_tv.tv_sec < 3600 then 1 else 0)
                ll.ll_time.tv_sec, ll.ll_time.tv_usec⟩
              ll.ll_level ll.ll_module_id ll.ll_opid)) := by
  refine ⟨?_, ?_, ?_⟩
  · intro h
    subst h
    rfl
  · intro last_line hlast hcond
    unfold check_for_new_year
    simp only [hlast]
    by_cases hd : last_line.ll_time.tv_sec - log_tv.tv_sec ≤ 0
    · simp only [hd, if_true]
    · rcases hcond with h | ⟨h1, h2⟩
      · exact absurd h hd
      · have h3 : ¬ (86400 ≤ last_line.ll_time.tv_sec - log_tv.tv_sec) := by omega
        simp [h3, h2]
  · intro last_line hlast hpos hcond
    unfold check_for_new_year
    simp only [hlast]
    have hd : ¬ (last_line.ll_time.tv_sec - log_tv.tv_sec ≤ 0) := by omega
    simp only [hd, if_false]
    by_cases hbig : 86400 ≤ last_line.ll_time.tv_sec - log_tv.tv_sec
    · have h1 : last_line.ll_time.tv_sec - log_tv.tv_sec ≥ 24 * 60 * 60 := by omega
      have h2 : ¬ (last_line.ll_time.tv_sec - log_tv.tv_sec < 86400) := by omega
      have h3 : ¬ (last_line.ll_time.tv_sec - log_tv.tv_sec < 3600) := by omega
      cases hm : etm.ETF_MONTH_SET <;> simp [h1, h2, h3, hbig, hm]
    · have hday : etm.ETF_DAY_SET = false := by
        rcases hcond with h | h
        · exact absurd h hbig
        · exact h
      have h1 : ¬ (last_line.ll_time.tv_sec - log_tv.tv_sec ≥ 24 * 60 * 60) := by omega
      have h2 : last_line.ll_time.tv_sec - log_tv.tv_sec < 86400 := by omega
      by_cases hh : last_line.ll_time.tv_sec - log_tv.tv_sec ≥ 60 * 60
      · have h3 : ¬ (last_line.ll_time.tv_sec - log_tv.tv_sec < 3600) := by omega
        have h4 : 3600 ≤ last_line.ll_time.tv_sec - log_tv.tv_sec := by omega
        simp [h1, h2, h3, h4, hbig, hday, hh]
      · have h3 : last_line.ll_time.tv_sec - log_tv.tv_sec < 3600 := by omega
        have h4 : ¬ (3600 ≤ last_line.ll_time.tv_sec - log_tv.tv_sec) := by omega
        simp [h1, h2, h3, h4, hbig, hday, hh]

/-- Witness for C17: a line one hour earlier than the last line, with the day parsed
and with the day missing. -/
theorem check_for_new_year_cases_witness :
    check_for_new_year back_date_day_hour
        [logline.mk 0 ⟨1700003600, 0⟩ log_level_t.LEVEL_INFO 0 0]
        ⟨true, true, false⟩ ⟨1700000000, 0⟩ =
      [logline.mk 0 ⟨1700003600, 0⟩ log_level_t.LEVEL_INFO 0 0] :=
  (check_for_new_year_cases back_date_day_hour
    [logline.mk 0 ⟨1700003600, 0⟩ log_level_t.LEVEL_INFO 0 0]
    ⟨true, true, false⟩ ⟨1700000000, 0⟩).2.1
    (logline.mk 0 ⟨1700003600, 0⟩ log_level_t.LEVEL_INFO 0 0) rfl
    (Or.inr ⟨by decide, rfl⟩)

/-- Counterexample for C17: the last line is at 1700003600 and the new line is one
hour earlier, with hour and minute but no day in its timestamp. The difference is
3600 seconds, far less than 86400, and the line of dst is put back by a day. -/
theorem check_for_new_year_changes_within_a_day :
    check_for_new_year back_date_day_hour
        [logline.mk 0 ⟨1700003600, 0⟩ log_level_t.LEVEL_INFO 0 0]
        ⟨false, false, false⟩ ⟨1700000000, 0⟩ =
      [logline.mk 0 ⟨1699917200, 0⟩ log_level_t.LEVEL_INFO 0 0] ∧
    (1700003600 : Int) - 1700000000 < 86400 := by
  decide

/-! ## Properties of the values of a log line -/

/-- C18: the constructor of logline_value gives a BOOLEAN value 1 for the captures
true and yes and 0 for the captures True, no and truex, as the claim says, but it
also gives 1 for the capture t, for the capture ye and for the empty capture, where
the claim says 0: strncmp compares only as many bytes as the capture has. -/
theorem boolean_lv_value_prefix_is_true :
    boolean_lv_value default_line_range_ops ['t', 'r', 'u', 'e'] ⟨0, 4⟩ = some 1 ∧
      boolean_lv_value default_line_range_ops ['y', 'e', 's'] ⟨0, 3⟩ = some 1 ∧
      boolean_lv_value default_line_range_ops ['T', 'r', 'u', 'e'] ⟨0, 4⟩ = some 0 ∧
      boolean_lv_value default_line_range_ops ['n', 'o'] ⟨0, 2⟩ = some 0 ∧
      boolean_lv_value default_line_range_ops ['t', 'r', 'u', 'e', 'x'] ⟨0, 5⟩ = some 0 ∧
      boolean_lv_value default_line_range_ops ['t'] ⟨0, 1⟩ = some 1 ∧
      boolean_lv_value default_line_range_ops ['y', 'e'] ⟨0, 2⟩ = some 1 ∧
      boolean_lv_value default_line_range_ops ['x', '=', 't', ' '] ⟨2, 3⟩ = some 1 ∧
      boolean_lv_value default_line_range_ops ['n', 'o'] ⟨0, 0⟩ = some 1 := by
  decide

/-- On a capture without NUL bytes strncmp with the length of the capture gives 0
exactly when the capture is a prefix of the string literal. -/
theorem strncmp_capture (cap post lit : List Char) (hnul : Char.ofNat 0 ∉ cap) :
    ∃ r, strncmp (cap ++ post) lit cap.length = some r ∧ (r = 0 ↔ cap <+: lit) := by
  induction cap generalizing lit with
  | nil => exact ⟨0, by simp [strncmp], by simp⟩
  | cons c cap ih =>
    have hc : c ≠ Char.ofNat 0 := fun h => hnul (h ▸ List.mem_cons_self _ _)
    have hcap : Char.ofNat 0 ∉ cap := fun h => hnul (List.mem_cons_of_mem _ h)
    by_cases hne : c ≠ lit.headD (Char.ofNat 0)
    · refine ⟨(c.toNat : Int) - ((lit.headD (Char.ofNat 0)).toNat : Int), ?_, ?_⟩
      · simp only [List.cons_append, List.length_cons, strncmp]
        rw [if_pos hne]
      · constructor
        · intro h
          exfalso
          apply hne
          have ht : c.toNat = (lit.headD (Char.ofNat 0)).toNat := by omega
          rw [← Char.ofNat_toNat c, ht, Char.ofNat_toNat]
        · intro h
          exfalso
          cases lit with
          | nil => simp at h
          | cons d l =>
            rw [List.cons_prefix_cons] at h
            exact hne (by simp [h.1])
    · have heq : c = lit.headD (Char.ofNat 0) := not_not.1 hne
      cases lit with
      | nil => exact absurd heq hc
      | cons d l =>
        have hd : c = d := by simpa using heq
        subst hd
        obtain ⟨r, hr, hiff⟩ := ih l hcap
        refine ⟨r, ?_, ?_⟩
        · simp only [List.cons_append, List.length_cons, strncmp, List.headD_cons, ne_eq,
            not_true_eq_false, if_false, hc, List.tail_cons]
          exact hr
        · rw [hiff, List.cons_prefix_cons]
          simp

/-- For a capture without NUL bytes the BOOLEAN value is 1 exactly when the capture is
a prefix of true or a prefix of yes, the empty capture included. -/
theorem boolean_lv_value_iff_prefix (pre cap post : List Char)
    (hnul : Char.ofNat 0 ∉ cap) (hlen : (cap.length : Int) < 18446744073709551616) :
    boolean_lv_value default_line_range_ops (pre ++ cap ++ post)
        ⟨pre.length, pre.length + cap.length⟩ =
      some (if cap <+: ['t', 'r', 'u', 'e'] ∨ cap <+: ['y', 'e', 's'] then 1 else 0) := by
  obtain ⟨r1, h1, i1⟩ := strncmp_capture cap post ['t', 'r', 'u', 'e'] hnul
  obtain ⟨r2, h2, i2⟩ := strncmp_capture cap post ['y', 'e', 's'] hnul
  have hend : ((pre.length : Int) + cap.length = -1) = False := by
    apply eq_false
    omega
  have hn : (((pre.length : Int) + cap.length - pre.length) % 18446744073709551616).toNat =
      cap.length := by
    have : (pre.length : Int) + cap.length - pre.length = cap.length := by omega
    rw [this, Int.emod_eq_of_lt (by omega) hlen]
    simp
  have hdrop : List.drop pre.length (pre ++ cap ++ post) = cap ++ post := by
    rw [List.append_assoc, List.drop_left]
  have hneg : ¬ ((pre.length : Int) < 0) := by omega
  simp only [boolean_lv_value, default_line_range_ops, hneg, if_false, hend, Int.toNat_ofNat,
    hn, hdrop, h1, h2]
  by_cases hr1 : r1 = 0
  · simp [hr1, i1.1 hr1]
  · have np1 : ¬ cap <+: ['t', 'r', 'u', 'e'] := fun h => hr1 (i1.2 h)
    by_cases hr2 : r2 = 0
    · simp [hr1, hr2, i2.1 hr2]
    · have np2 : ¬ cap <+: ['y', 'e', 's'] := fun h => hr2 (i2.2 h)
      simp [hr1, hr2, np1, np2]

/-! ## Properties of the collision lists -/

/-- When no build pushes an error, every format goes to alpha_ordered_formats with
its collision list filled in. -/
theorem build_formats_no_errors (build_errors : external_log_format → List String)
    (ms : intern_string_t → intern_string_t → Bool) (formats : List external_log_format) :
    ∀ (rest alpha : List external_log_format), (∀ f ∈ rest, build_errors f = []) →
      build_formats build_errors ms formats rest [] alpha =
        ([], alpha ++ rest.map (collide ms formats)) := by
  intro rest
  induction rest with
  | nil => intro alpha _; simp [build_formats]
  | cons f rest ih =>
    intro alpha h
    have hf : build_errors f = [] := h f (List.mem_cons_self _ _)
    simp only [build_formats, hf, List.append_nil, List.isEmpty_nil, if_true]
    rw [ih _ (fun g hg => h g (List.mem_cons_of_mem _ hg))]
    simp

/-- The function match_samples is true exactly when some pattern with a compiled
expression matches some sample. -/
theorem match_samples_iff (order : List pcre_pattern) (samples : List (List Char)) :
    match_samples order samples = true ↔
      ∃ pat ∈ order, ∃ re, pat.p_pcre = some re ∧ ∃ s ∈ samples, re s = true := by
  unfold match_samples
  simp only [List.any_eq_true]
  constructor
  · rintro ⟨s, hs, pat, hpat, h⟩
    cases hre : pat.p_pcre with
    | none => simp [hre] at h
    | some re =>
      simp only [hre] at h
      exact ⟨pat, hpat, re, hre, s, hs, h⟩
  · rintro ⟨pat, hpat, re, hre, s, hs, h⟩
    exact ⟨s, hs, pat, hpat, by simp [hre, h]⟩

/-- C19, amended: when load_formats has built the collision lists of formats that
come with empty collision lists, the collision list of format A contains the name B
if and only if B is the name of a registered format other than A and some compiled
pattern of A, whether flagged module-format or not, matches some sample line of B;
no format lists itself. When no build pushes an error, alpha_ordered_formats holds
every registered format with this collision list. -/
theorem collision_list_iff (build_errors : external_log_format → List String)
    (format_patterns : intern_string_t → List pcre_pattern)
    (format_samples : intern_string_t → List (List Char))
    (formats : List external_log_format)
    (hfresh : ∀ f ∈ formats, f.elf_collision = []) :
    (∀ A ∈ formats, ∀ B : intern_string_t,
      B ∈ (collide (fun a b => match_samples (format_patterns a) (format_samples b))
          formats A).elf_collision ↔
        (B ≠ A.elf_name ∧ B ∈ formats.map (fun elf => elf.elf_name) ∧
          ∃ pat ∈ format_patterns A.elf_name, ∃ re, pat.p_pcre = some re ∧
            ∃ s ∈ format_samples B, re s = true)) ∧
    (∀ A ∈ formats,
      A.elf_name ∉ (collide (fun a b => match_samples (format_patterns a) (format_samples b))
        formats A).elf_collision) ∧
    ((∀ f ∈ formats, build_errors f = []) →
      build_formats build_errors
          (fun a b => match_samples (format_patterns a) (format_samples b))
          formats formats [] [] =
        ([], formats.map
          (collide (fun a b => match_samples (format_patterns a) (format_samples b))
            formats))) := by
  have hiff : ∀ A ∈ formats, ∀ B : intern_string_t,
      B ∈ (collide (fun a b => match_samples (format_patterns a) (format_samples b))
          formats A).elf_collision ↔
        (B ≠ A.elf_name ∧ B ∈ formats.map (fun elf => elf.elf_name) ∧
          ∃ pat ∈ format_patterns A.elf_name, ∃ re, pat.p_pcre = some re ∧
            ∃ s ∈ format_samples B, re s = true) := by
    intro A hA B
    simp only [collide, hfresh A hA, List.nil_append, List.mem_map, List.mem_filter,
      Bool.and_eq_true, bne_iff_ne, ne_eq, match_samples_iff]
    constructor
    · rintro ⟨c, ⟨hc, hne, hm⟩, rfl⟩
      exact ⟨hne, ⟨c, hc, rfl⟩, hm⟩
    · rintro ⟨hne, ⟨c, hc, rfl⟩, hm⟩
      exact ⟨c, ⟨hc, hne, hm⟩, rfl⟩
  refine ⟨hiff, ?_, ?_⟩
  · intro A hA hmem
    exact ((hiff A hA A.elf_name).1 hmem).1 rfl
  · intro hbuilt
    have := build_formats_no_errors build_errors
      (fun a b => match_samples (format_patterns a) (format_samples b)) formats formats []
      hbuilt
    simpa using this

/-- Witness for C19: format 1 has a pattern that matches the sample of format 2,
format 2 has a pattern that matches no sample. -/
theorem collision_list_iff_witness :
    (∀ f ∈ ([⟨1, true, []⟩, ⟨2, false, []⟩] : List external_log_format),
        f.elf_collision = []) ∧
      (collide (fun a b => match_samples
          ((fun n => if n = 1 then [⟨⟨false⟩, some (fun s => s == ['x'])⟩]
            else [⟨⟨false⟩, some (fun s => s == ['z'])⟩]) a)
          ((fun n => if n = 1 then [['y']] else [['x']]) b))
        [⟨1, true, []⟩, ⟨2, false, []⟩] ⟨1, true, []⟩).elf_collision = [2] ∧
      (1 : intern_string_t) ∉ (collide (fun a b => match_samples
          ((fun n => if n = 1 then [⟨⟨false⟩, some (fun s => s == ['x'])⟩]
            else [⟨⟨false⟩, some (fun s => s == ['z'])⟩]) a)
          ((fun n => if n = 1 then [['y']] else [['x']]) b))
        [⟨1, true, []⟩, ⟨2, false, []⟩] ⟨1, true, []⟩).elf_collision :=
  ⟨by decide, by decide,
    (collision_list_iff (fun _ => [])
      (fun n => if n = 1 then [⟨⟨false⟩, some (fun s => s == ['x'])⟩]
        else [⟨⟨false⟩, some (fun s => s == ['z'])⟩])
      (fun n => if n = 1 then [['y']] else [['x']])
      [⟨1, true, []⟩, ⟨2, false, []⟩] (by decide)).2.1 ⟨1, true, []⟩ (by decide)⟩

/-- Counterexample for C19: the only pattern of format 1 is flagged module-format
and matches the sample of format 2, and load_formats puts format 2 on the collision
list of format 1. -/
theorem module_format_pattern_collides :
    (collide (fun a b => match_samples
          ((fun n => if n = 1 then [⟨⟨true⟩, some (fun s => s == ['x'])⟩] else []) a)
          ((fun n => if n = 1 then [['y']] else [['x']]) b))
        [⟨1, true, []⟩, ⟨2, false, []⟩] ⟨1, true, []⟩).elf_collision = [2] ∧
      (build_formats (fun _ => []) (fun a b => match_samples
          ((fun n => if n = 1 then [⟨⟨true⟩, some (fun s => s == ['x'])⟩] else []) a)
          ((fun n => if n = 1 then [['y']] else [['x']]) b))
        [⟨1, true, []⟩, ⟨2, false, []⟩] [⟨1, true, []⟩, ⟨2, false, []⟩] [] []).2 =
        [⟨1, true, [2]⟩, ⟨2, false, []⟩] := by
  decide

/-! ## Properties of the module formats -/

/-- The while loop of module_scan ends within the allowance, at the first pattern
from curr_fmt + 1 on that is flagged module-format and matches, if there is one. -/
theorem module_scan_patterns_first (elf : module_log_format) (pat_match : Nat → Bool) :
    ∀ (fuel c : Nat), c ≤ elf.elf_pattern_order.length →
      elf.elf_pattern_order.length < c + fuel →
      (module_scan_patterns elf pat_match fuel ((c : Int) - 1) = some none ∧
        ∀ j, c ≤ j → ¬ module_pattern_matches elf pat_match j) ∨
      ∃ k : Nat, module_scan_patterns elf pat_match fuel ((c : Int) - 1) = some (some (k : Int)) ∧
        c ≤ k ∧ module_pattern_matches elf pat_match k ∧
        ∀ j, c ≤ j → j < k → ¬ module_pattern_matches elf pat_match j := by
  intro fuel
  induction fuel with
  | zero => intro c h1 h2; omega
  | succ fuel ih =>
    intro c h1 h2
    have hnf : next_format elf.elf_pattern_order.length ((c : Int) - 1) (-1) =
        (decide ((c : Int) < (elf.elf_pattern_order.length : Int)), (c : Int)) := by
      simp [next_format]
    by_cases hc : c < elf.elf_pattern_order.length
    · have hcz : ((c : Int) < (elf.elf_pattern_order.length : Int)) := by omega
      have hget : elf.elf_pattern_order[c]? = some (elf.elf_pattern_order[c]) :=
        List.getElem?_eq_getElem hc
      have hneg : ¬ ((c : Int) < 0) := by omega
      have hstep : ((c : Int) + 1 - 1) = (c : Int) := by omega
      have hrec := ih (c + 1) (by omega) (by omega)
      rw [Nat.cast_add, Nat.cast_one, hstep] at hrec
      have hskip : ¬ module_pattern_matches elf pat_match c →
          ((module_scan_patterns elf pat_match fuel (c : Int) = some none ∧
            ∀ j, c + 1 ≤ j → ¬ module_pattern_matches elf pat_match j) ∨
          ∃ k : Nat, module_scan_patterns elf pat_match fuel (c : Int) = some (some (k : Int)) ∧
            c + 1 ≤ k ∧ module_pattern_matches elf pat_match k ∧
            ∀ j, c + 1 ≤ j → j < k → ¬ module_pattern_matches elf pat_match j) →
          ((module_scan_patterns elf pat_match fuel (c : Int) = some none ∧
            ∀ j, c ≤ j → ¬ module_pattern_matches elf pat_match j) ∨
          ∃ k : Nat, module_scan_patterns elf pat_match fuel (c : Int) = some (some (k : Int)) ∧
            c ≤ k ∧ module_pattern_matches elf pat_match k ∧
            ∀ j, c ≤ j → j < k → ¬ module_pattern_matches elf pat_match j) := by
        intro hno h
        rcases h with ⟨hr, hall⟩ | ⟨k, hr, hk, hm, hall⟩
        · left
          refine ⟨hr, ?_⟩
          intro j hj
          rcases Nat.eq_or_lt_of_le hj with h | h
          · subst h; exact hno
          · exact hall j h
        · right
          refine ⟨k, hr, by omega, hm, ?_⟩
          intro j hj hjk
          rcases Nat.eq_or_lt_of_le hj with h | h
          · subst h; exact hno
          · exact hall j h hjk
      simp only [module_scan_patterns, hnf, hcz, decide_True, Bool.true_eq_false, if_false,
        hneg, Int.toNat_ofNat, hget]
      by_cases hmod : (elf.elf_pattern_order[c]).p_module_format = true
      · by_cases hpm : pat_match c = true
        · right
          refine ⟨c, ?_, Nat.le_refl c, ⟨_, hget, hmod, hpm⟩, ?_⟩
          · simp [hmod, hpm]
          · intro j h3 h4
            omega
        · have hno : ¬ module_pattern_matches elf pat_match c := by
            rintro ⟨fpat, -, -, h⟩
            exact hpm h
          simp only [hmod, Bool.not_true, Bool.false_eq_true, if_false, hpm, Bool.not_false,
            if_true]
          exact hskip hno hrec
      · have hno : ¬ module_pattern_matches elf pat_match c := by
          rintro ⟨fpat, hf, h, -⟩
          rw [hget] at hf
          cases hf
          exact hmod h
        simp only [hmod, Bool.not_false, if_true]
        exact hskip hno hrec
    · have hcn : c = elf.elf_pattern_order.length := by omega
      have hcz : ¬ ((c : Int) < (elf.elf_pattern_order.length : Int)) := by omega
      left
      refine ⟨?_, ?_⟩
      · simp [module_scan_patterns, hnf, hcz]
      · rintro j hj ⟨fpat, hf, -, -⟩
        have := (List.getElem?_eq_some.1 hf).1
        omega

/-- The for loop of module_scan ends at the first format, in the order of the list,
that has a pattern flagged module-format that matches, and at the first such pattern
of that format. -/
theorem module_scan_formats_first (pat_match : Nat → Nat → List Char → Bool)
    (body : List Char) :
    ∀ (rest : List module_log_format) (i : Nat),
      (module_scan_formats pat_match body i rest = some none ∧
        ∀ idx elf, rest[idx]? = some elf →
          ∀ j, ¬ module_pattern_matches elf (fun k => pat_match (i + idx) k body) j) ∨
      ∃ (idx : Nat) (elf : module_log_format) (k : Nat),
        module_scan_formats pat_match body i rest = some (some (i + idx, elf, (k : Int))) ∧
          rest[idx]? = some elf ∧
          module_pattern_matches elf (fun k => pat_match (i + idx) k body) k ∧
          (∀ j, j < k → ¬ module_pattern_matches elf (fun k => pat_match (i + idx) k body) j) ∧
          ∀ idx2, idx2 < idx → ∀ elf2, rest[idx2]? = some elf2 →
            ∀ j, ¬ module_pattern_matches elf2 (fun k => pat_match (i + idx2) k body) j := by
  intro rest
  induction rest with
  | nil =>
    intro i
    left
    refine ⟨rfl, ?_⟩
    intro idx elf h
    simp at h
  | cons elf rest ih =>
    intro i
    have hinner := module_scan_patterns_first elf (fun k => pat_match i k body)
      (elf.elf_pattern_order.length + 1) 0 (Nat.zero_le _) (by omega)
    have hm1 : ((0 : Nat) : Int) - 1 = -1 := by simp
    rw [hm1] at hinner
    rcases hinner with ⟨hr, hall⟩ | ⟨k, hr, -, hm, hall⟩
    · have hstep : module_scan_formats pat_match body i (elf :: rest) =
          module_scan_formats pat_match body (i + 1) rest := by
        simp only [module_scan_formats, hr]
      rcases ih (i + 1) with ⟨hr2, hall2⟩ | ⟨idx, elf2, k, hr2, hget, hm, hmin, hbefore⟩
      · left
        refine ⟨by rw [hstep, hr2], ?_⟩
        intro idx e he
        cases idx with
        | zero =>
          simp only [List.getElem?_cons_zero, Option.some.injEq] at he
          subst he
          intro j
          exact hall j (Nat.zero_le _)
        | succ idx =>
          simp only [List.getElem?_cons_succ] at he
          have := hall2 idx e he
          have hi : i + (idx + 1) = i + 1 + idx := by omega
          rw [hi]
          exact this
      · right
        have hi : i + (idx + 1) = i + 1 + idx := by omega
        refine ⟨idx + 1, elf2, k, ?_, by simpa using hget, ?_, ?_, ?_⟩
        · rw [hstep, hr2, hi]
        · rw [hi]; exact hm
        · rw [hi]; exact hmin
        · intro idx2 h2 e he
          cases idx2 with
          | zero =>
            simp only [List.getElem?_cons_zero, Option.some.injEq] at he
            subst he
            intro j
            exact hall j (Nat.zero_le _)
          | succ idx2 =>
            simp only [List.getElem?_cons_succ] at he
            have := hbefore idx2 (by omega) e he
            have hi2 : i + (idx2 + 1) = i + 1 + idx2 := by omega
            rw [hi2]
            exact this
    · right
      refine ⟨0, elf, k, ?_, by simp, hm, ?_, ?_⟩
      · simp only [module_scan_formats, hr, Nat.add_zero]
      · intro j hj
        exact hall j (Nat.zero_le _) hj
      · intro idx2 h2
        omega

/-- C20: module_scan returns, and afterwards MODULE_FORMATS has an entry for
mod_name while the entries for all other names are as before. The entry holds a
format if and only if some format of GRAPH_ORDERED_FORMATS has a pattern flagged
module-format that matches the body with its leading white space trimmed. For the
first such format in the order of the list and its first such pattern, the entry
holds the clone that specialized gives for that pattern, which is specialized, has
the patterns of the format and has that pattern as its authoritative index, and the
return value is the module index of the format. When the entry is empty the return
value is 0. The lines of scan that look a module name up call module_scan when
MODULE_FORMATS has no entry for the name and otherwise leave MODULE_FORMATS and
GRAPH_ORDERED_FORMATS as they are. -/
theorem module_scan_memoizes (st : module_state)
    (pat_match : Nat → Nat → List Char → Bool) (body : List Char)
    (mod_name : intern_string_t) :
    (∃ ret st2, module_scan st pat_match body mod_name = some (ret, st2) ∧
      (∀ n, n ≠ mod_name → st2.MODULE_FORMATS n = st.MODULE_FORMATS n) ∧
      ∃ mf, st2.MODULE_FORMATS mod_name = some mf ∧
        (mf.mf_mod_format ≠ none ↔
          ∃ i elf k, st.GRAPH_ORDERED_FORMATS[i]? = some elf ∧
            module_pattern_matches elf (fun k => pat_match i k (ltrim body)) k) ∧
        (mf.mf_mod_format = none → ret = 0) ∧
        ∀ (i : Nat) (elf : module_log_format) (k : Nat),
          st.GRAPH_ORDERED_FORMATS[i]? = some elf →
          module_pattern_matches elf (fun k => pat_match i k (ltrim body)) k →
          (∀ j, j < k →
            ¬ module_pattern_matches elf (fun k => pat_match i k (ltrim body)) j) →
          (∀ i2, i2 < i → ∀ elf2, st.GRAPH_ORDERED_FORMATS[i2]? = some elf2 →
            ∀ j, ¬ module_pattern_matches elf2 (fun k => pat_match i2 k (ltrim body)) j) →
          mf.mf_mod_format =
              some ⟨(specialized elf.tolog_format (k : Int)).1, elf.lf_mod_index⟩ ∧
            ret = elf.lf_mod_index ∧
            (specialized elf.tolog_format (k : Int)).1.lf_specialized = true ∧
            (specialized elf.tolog_format (k : Int)).1.elf_pattern_order =
              elf.elf_pattern_order ∧
            last_pattern_index (specialized elf.tolog_format (k : Int)).1.lf_pattern_locks =
              (k : Int)) ∧
    (∀ mf0, st.MODULE_FORMATS mod_name = some mf0 →
      ∃ ret0, scan_module_index st pat_match body mod_name = some (ret0, st)) ∧
    (st.MODULE_FORMATS mod_name = none →
      scan_module_index st pat_match body mod_name =
        module_scan st pat_match body mod_name) := by
  refine ⟨?_, ?_, ?_⟩
  · rcases module_scan_formats_first pat_match (ltrim body) st.GRAPH_ORDERED_FORMATS 0 with
      ⟨hr, hall⟩ | ⟨idx, elf0, k0, hr, hget, hm, hmin, hbefore⟩
    · simp only [Nat.zero_add] at hall
      refine ⟨0, { st with
          MODULE_FORMATS := fun n =>
            if n = mod_name then some ⟨none⟩ else st.MODULE_FORMATS n },
        by simp only [module_scan, hr], ?_, ⟨none⟩, by simp, ?_, fun _ => rfl, ?_⟩
      · intro n hn
        simp [hn]
      · constructor
        · intro h
          exact absurd rfl h
        · rintro ⟨i, elf, k, hg, hmk⟩
          exact absurd hmk (hall i elf hg k)
      · intro i elf k hg hmk
        exact absurd hmk (hall i elf hg k)
    · simp only [Nat.zero_add] at hr hm hmin hbefore
      refine ⟨elf0.lf_mod_index,
        { MODULE_FORMATS := fun n =>
            if n = mod_name then
              some ⟨some ⟨(specialized elf0.tolog_format (k0 : Int)).1, elf0.lf_mod_index⟩⟩
            else st.MODULE_FORMATS n,
          GRAPH_ORDERED_FORMATS :=
            st.GRAPH_ORDERED_FORMATS.set idx
              ⟨(specialized elf0.tolog_format (k0 : Int)).2, elf0.lf_mod_index⟩ },
        by simp only [module_scan, hr], ?_,
        ⟨some ⟨(specialized elf0.tolog_format (k0 : Int)).1, elf0.lf_mod_index⟩⟩, by simp,
        ?_, ?_, ?_⟩
      · intro n hn
        simp [hn]
      · constructor
        · intro _
          exact ⟨idx, elf0, k0, hget, hm⟩
        · intro _ h
          cases h
      · intro h
        cases h
      · intro i elf k hg hmk hkmin hibefore
        have hi : i = idx := by
          rcases Nat.lt_trichotomy i idx with h | h | h
          · exact absurd hmk (hbefore i h elf hg k)
          · exact h
          · exact absurd hm (hibefore idx h elf0 hget k0)
        subst hi
        have he : elf = elf0 := by
          rw [hg] at hget
          exact Option.some.inj hget
        subst he
        have hk : k = k0 := by
          rcases Nat.lt_trichotomy k k0 with h | h | h
          · exact absurd hmk (hmin k h)
          · exact h
          · exact absurd hm (hkmin k0 h)
        subst hk
        have hne : ((k : Int) ≠ -1) := by omega
        refine ⟨rfl, rfl, ?_, ?_, ?_⟩
        · simp only [specialized]
          split <;> rfl
        · simp only [specialized]
          split <;> rfl
        · simp [specialized, hne, last_pattern_index]
  · intro mf0 h0
    unfold scan_module_index
    rw [h0]
    cases hf : mf0.mf_mod_format with
    | none => exact ⟨0, by simp [hf]⟩
    | some f => exact ⟨f.lf_mod_index, by simp [hf]⟩
  · intro h0
    unfold scan_module_index
    rw [h0]

/-- Witness for C20: MODULE_FORMATS already has an empty entry for module 7, and the
lookup in scan leaves both static members as they are although the pattern of the
format would match. -/
theorem module_scan_memoizes_witness :
    (fun n : intern_string_t => if n = 7 then some (⟨none⟩ : module_format) else none) 7 =
        some ⟨none⟩ ∧
      ∃ ret0, scan_module_index ⟨fun n => if n = 7 then some ⟨none⟩ else none,
          [⟨⟨[⟨true⟩], [], false, false, ⟨false, false, false⟩⟩, 1⟩]⟩
          (fun _ _ _ => true) ['x'] 7 =
        some (ret0, ⟨fun n => if n = 7 then some ⟨none⟩ else none,
          [⟨⟨[⟨true⟩], [], false, false, ⟨false, false, false⟩⟩, 1⟩]⟩) :=
  ⟨rfl, (module_scan_memoizes ⟨fun n => if n = 7 then some ⟨none⟩ else none,
      [⟨⟨[⟨true⟩], [], false, false, ⟨false, false, false⟩⟩, 1⟩]⟩
    (fun _ _ _ => true) ['x'] 7).2.1 ⟨none⟩ rfl⟩

/-- An example of module_scan: the second pattern of the second format is the first pattern
flagged module-format that matches the trimmed body x. The entry for module 7 holds
the clone locked on pattern 1, the return value is the module index 3 of the format,
the entries of other modules stay absent, and a later lookup of module 7 by scan
finds the entry. -/
theorem module_scan_example :
    (module_scan ⟨fun _ => none,
        [⟨⟨[⟨false⟩], [], false, false, ⟨false, false, false⟩⟩, 0⟩,
          ⟨⟨[⟨false⟩, ⟨true⟩, ⟨true⟩], [], false, false, ⟨false, false, false⟩⟩, 3⟩]⟩
        (fun i k b => (i == 0 || (i == 1 && 1 ≤ k)) && b == ['x']) [' ', 'x'] 7).map
        (fun r => (r.1, r.2.MODULE_FORMATS 7, r.2.MODULE_FORMATS 8)) =
      some (3,
        some ⟨some ⟨⟨[⟨false⟩, ⟨true⟩, ⟨true⟩], [⟨0, 1⟩], true, false,
          ⟨false, false, false⟩⟩, 3⟩⟩, none) ∧
    (scan_module_index ⟨fun n => if n = 7 then some ⟨none⟩ else none,
        [⟨⟨[⟨true⟩], [], false, false, ⟨false, false, false⟩⟩, 1⟩]⟩
        (fun _ _ _ => true) ['x'] 7).map
        (fun r => (r.1, r.2.MODULE_FORMATS 7, r.2.GRAPH_ORDERED_FORMATS)) =
      some (0, some ⟨none⟩, [⟨⟨[⟨true⟩], [], false, false, ⟨false, false, false⟩⟩, 1⟩]) := by
  decide

/-! ## Properties of cycle breaking -/

/-- The walk over the remaining formats clears the collision list of the first format
that is not builtin and leaves every other format as it is; it reports failure
exactly when every format is builtin. -/
theorem break_cycle_non_builtin_first (alpha : List external_log_format) :
    (∀ broken, break_cycle_non_builtin alpha = some broken →
      ∃ i elf, alpha[i]? = some elf ∧ elf.elf_builtin_format = false ∧
        (∀ j e, j < i → alpha[j]? = some e → e.elf_builtin_format = true) ∧
        broken = alpha.set i (emitted_form elf)) ∧
    (break_cycle_non_builtin alpha = none → ∀ e ∈ alpha, e.elf_builtin_format = true) := by
  induction alpha with
  | nil =>
    constructor
    · intro broken h
      simp [break_cycle_non_builtin] at h
    · intro _ e he
      simp at he
  | cons elf rest ih =>
    by_cases hb : elf.elf_builtin_format = true
    · constructor
      · intro broken h
        simp only [break_cycle_non_builtin, hb, if_true, Option.map_eq_some'] at h
        obtain ⟨r, hr, rfl⟩ := h
        obtain ⟨i, e, hi, hnb, hbefore, hset⟩ := ih.1 r hr
        refine ⟨i + 1, e, by simpa using hi, hnb, ?_, by simp [hset]⟩
        intro j e2 hj he2
        cases j with
        | zero =>
          simp only [List.getElem?_cons_zero, Option.some.injEq] at he2
          subst he2
          exact hb
        | succ j =>
          simp only [List.getElem?_cons_succ] at he2
          exact hbefore j e2 (by omega) he2
      · intro h e he
        simp only [break_cycle_non_builtin, hb, if_true, Option.map_eq_none'] at h
        rcases List.mem_cons.1 he with h1 | h1
        · subst h1
          exact hb
        · exact ih.2 h e h1
    · have hb2 : elf.elf_builtin_format = false := by simpa using hb
      constructor
      · intro broken h
        simp only [break_cycle_non_builtin, hb, Bool.false_eq_true, if_false,
          Option.some.injEq] at h
        subst h
        refine ⟨0, elf, by simp, hb2, ?_, by simp [emitted_form, hb2]⟩
        intro j e hj
        omega
      · intro h
        simp [break_cycle_non_builtin, hb2] at h

/-- C24: in an iteration of the ordering loop in which formats remain and none of
them has an empty collision list, nothing is moved to graph_ordered_formats and
exactly one remaining format, at position i, has its collision list cleared: the
first format that is not builtin when there is one, otherwise the first format.
Every other remaining format, every builtin format in front of the cleared one
included, is the same after the iteration. -/
theorem order_pass_breaks_one_cycle (alpha graph : List external_log_format)
    (hne : alpha ≠ []) (hall : ∀ elf ∈ alpha, elf.elf_collision ≠ []) :
    ∃ i elf, alpha[i]? = some elf ∧
      order_pass alpha graph = (alpha.set i (emitted_form elf), graph) ∧
      ((elf.elf_builtin_format = false ∧
          ∀ j e, j < i → alpha[j]? = some e → e.elf_builtin_format = true) ∨
        (i = 0 ∧ ∀ e ∈ alpha, e.elf_builtin_format = true)) ∧
      ∀ j, j ≠ i → (order_pass alpha graph).1[j]? = alpha[j]? := by
  have hpop : alpha.filter (fun elf => elf.elf_collision.isEmpty) = [] := by
    rw [List.filter_eq_nil_iff]
    intro elf helf
    simpa [List.isEmpty_iff] using hall elf helf
  have hrem : alpha.filter (fun elf => !elf.elf_collision.isEmpty) = alpha := by
    rw [List.filter_eq_self]
    intro elf helf
    simpa [List.isEmpty_iff] using hall elf helf
  have hiso : alpha.isEmpty = false := by
    cases alpha with
    | nil => exact absurd rfl hne
    | cons a l => rfl
  have hpass : order_pass alpha graph = (break_cycle alpha, graph) := by
    simp [order_pass, hpop, hrem, hiso, remove_popped_nil]
  have hkey : ∃ i elf, alpha[i]? = some elf ∧ break_cycle alpha = alpha.set i (emitted_form elf) ∧
      ((elf.elf_builtin_format = false ∧
          ∀ j e, j < i → alpha[j]? = some e → e.elf_builtin_format = true) ∨
        (i = 0 ∧ ∀ e ∈ alpha, e.elf_builtin_format = true)) := by
    unfold break_cycle
    cases hb : break_cycle_non_builtin alpha with
    | some broken =>
      obtain ⟨i, elf, hi, hnb, hbefore, hset⟩ := (break_cycle_non_builtin_first alpha).1 broken hb
      exact ⟨i, elf, hi, hset, Or.inl ⟨hnb, hbefore⟩⟩
    | none =>
      have hallb := (break_cycle_non_builtin_first alpha).2 hb
      cases alpha with
      | nil => exact absurd rfl hne
      | cons a l =>
        exact ⟨0, a, by simp, by simp [clear_front, emitted_form], Or.inr ⟨rfl, hallb⟩⟩
  obtain ⟨i, elf, hi, hbc, hcase⟩ := hkey
  refine ⟨i, elf, hi, by rw [hpass, hbc], hcase, ?_⟩
  intro j hj
  rw [hpass, hbc]
  simp only
  rw [List.getElem?_set_ne (Ne.symm hj)]

/-- Witness for C24: a builtin format and two others in a cycle; the second format is
the first that is not builtin. -/
theorem order_pass_breaks_one_cycle_witness :
    ([⟨1, true, [2]⟩, ⟨2, false, [3]⟩, ⟨3, false, [1]⟩] : List external_log_format) ≠ [] ∧
    (∀ elf ∈ ([⟨1, true, [2]⟩, ⟨2, false, [3]⟩, ⟨3, false, [1]⟩] : List external_log_format),
      elf.elf_collision ≠ []) ∧
    order_pass [⟨1, true, [2]⟩, ⟨2, false, [3]⟩, ⟨3, false, [1]⟩] [] =
      ([⟨1, true, [2]⟩, ⟨2, false, []⟩, ⟨3, false, [1]⟩], []) ∧
    ∃ i elf, ([⟨1, true, [2]⟩, ⟨2, false, [3]⟩, ⟨3, false, [1]⟩] :
        List external_log_format)[i]? = some elf ∧
      order_pass [⟨1, true, [2]⟩, ⟨2, false, [3]⟩, ⟨3, false, [1]⟩] [] =
        (([⟨1, true, [2]⟩, ⟨2, false, [3]⟩, ⟨3, false, [1]⟩] :
          List external_log_format).set i (emitted_form elf), []) ∧
      ((elf.elf_builtin_format = false ∧
          ∀ j e, j < i → ([⟨1, true, [2]⟩, ⟨2, false, [3]⟩, ⟨3, false, [1]⟩] :
            List external_log_format)[j]? = some e → e.elf_builtin_format = true) ∨
        (i = 0 ∧ ∀ e ∈ ([⟨1, true, [2]⟩, ⟨2, false, [3]⟩, ⟨3, false, [1]⟩] :
          List external_log_format), e.elf_builtin_format = true)) ∧
      ∀ j, j ≠ i →
        (order_pass [⟨1, true, [2]⟩, ⟨2, false, [3]⟩, ⟨3, false, [1]⟩] []).1[j]? =
          ([⟨1, true, [2]⟩, ⟨2, false, [3]⟩, ⟨3, false, [1]⟩] :
            List external_log_format)[j]? :=
  ⟨by decide, by decide, by decide,
    order_pass_breaks_one_cycle [⟨1, true, [2]⟩, ⟨2, false, [3]⟩, ⟨3, false, [1]⟩] []
      (by decide) (by decide)⟩

/-! ## Properties of string fragments -/

/-- The bytes counted by consume are the longest run at the front for which the
predicate holds. -/
theorem consume_count_spec (pred : Char → Bool) (l : List Char) :
    l.drop (consume_count pred l) = l.dropWhile pred ∧
      l.take (consume_count pred l) = l.takeWhile pred ∧
      consume_count pred l ≤ l.length := by
  induction l with
  | nil => simp [consume_count]
  | cons c cs ih =>
    by_cases hc : pred c = true
    · simp [consume_count, hc, ih.1, ih.2.1, ih.2.2]
    · simp [consume_count, hc]

/-- The first byte left by dropWhile does not satisfy the predicate. -/
theorem dropWhile_head_not (pred : Char → Bool) (l : List Char) :
    ∀ c rest, l.dropWhile pred = c :: rest → pred c = false := by
  induction l with
  | nil => intro c rest h; simp at h
  | cons a l ih =>
    intro c rest h
    by_cases ha : pred a = true
    · rw [List.dropWhile_cons_of_pos ha] at h
      exact ih c rest h
    · rw [List.dropWhile_cons_of_neg ha] at h
      simp only [List.cons.injEq] at h
      rw [← h.1]
      simpa using ha

/-- C23: for every fragment and predicate, consume(pred) has a value if and only if
the fragment is not empty and pred holds for its first byte. When it has a value,
the value is a fragment of the same string with the same end whose bytes are those
of the fragment without the longest run of bytes at the front for which pred holds:
the run is not empty, pred holds for all of it, and pred does not hold for the first
byte of the value. On the fragments of the test: foo  =  bar has no value for the
colon, the fragment with the bytes =  bar gives two blanks and bar for the equals
sign, that one gives bar for isspace, and a fragment that is one double quote gives
an empty fragment for the double quote. -/
theorem consume_removes_leading_run (sf : string_fragment) (pred : Char → Bool) :
    ((consume sf pred).isSome = true ↔
      ∃ c rest, sf_to_string sf = c :: rest ∧ pred c = true) ∧
    (∀ r, consume sf pred = some r →
      r.sf_string = sf.sf_string ∧ r.sf_end = sf.sf_end ∧
        sf_to_string r = (sf_to_string sf).dropWhile pred ∧
        sf_to_string sf = (sf_to_string sf).takeWhile pred ++ sf_to_string r ∧
        (sf_to_string sf).takeWhile pred ≠ [] ∧
        (∀ c ∈ (sf_to_string sf).takeWhile pred, pred c = true) ∧
        ∀ c rest, sf_to_string r = c :: rest → pred c = false) ∧
    (consume ⟨"foo  =  bar".toList, 0, 11⟩ (fun c => c == ':') = none ∧
      (consume ⟨"foo  =  bar".toList, 5, 11⟩ (fun c => c == '=')).map sf_to_string =
        some "  bar".toList ∧
      (consume ⟨"foo  =  bar".toList, 6, 11⟩ isspace).map sf_to_string =
        some "bar".toList ∧
      (consume ⟨"\"foo \\\" bar\"".toList, 11, 12⟩ (fun c => c == '"')).map sf_to_string =
        some []) := by
  refine ⟨?_, ?_, by decide⟩
  · unfold consume
    constructor
    · intro h
      cases hs : sf_to_string sf with
      | nil => simp [hs, consume_count] at h
      | cons c rest =>
        refine ⟨c, rest, rfl, ?_⟩
        by_cases hc : pred c = true
        · exact hc
        · simp [hs, consume_count, hc] at h
    · rintro ⟨c, rest, hs, hc⟩
      simp [hs, consume_count, hc]
  · intro r hr
    unfold consume at hr
    by_cases h0 : consume_count pred (sf_to_string sf) = 0
    · simp [h0] at hr
    · simp only [h0, if_false, Option.some.injEq] at hr
      subst hr
      obtain ⟨hdrop, htake, hle⟩ := consume_count_spec pred (sf_to_string sf)
      have hstr : sf_to_string
          { sf with sf_begin := sf.sf_begin + consume_count pred (sf_to_string sf) } =
          (sf_to_string sf).dropWhile pred := by
        rw [← hdrop]
        simp only [sf_to_string]
        rw [List.drop_take, List.drop_drop]
        congr 1
        omega
      refine ⟨rfl, rfl, hstr, ?_, ?_, ?_, ?_⟩
      · rw [hstr]
        exact (List.takeWhile_append_dropWhile pred (sf_to_string sf)).symm
      · intro hnil
        rw [← htake] at hnil
        have hlen := congrArg List.length hnil
        simp only [List.length_take, List.length_nil] at hlen
        omega
      · intro c hc
        exact List.mem_takeWhile_imp hc
      · intro c rest hcr
        rw [hstr] at hcr
        exact dropWhile_head_not pred (sf_to_string sf) c rest hcr

/-- Witness for C23: the fragment with the bytes of two blanks and bar in the string
of the test. -/
theorem consume_removes_leading_run_witness :
    consume ⟨"foo  =  bar".toList, 6, 11⟩ isspace = some ⟨"foo  =  bar".toList, 8, 11⟩ ∧
      sf_to_string ⟨"foo  =  bar".toList, 8, 11⟩ =
        (sf_to_string ⟨"foo  =  bar".toList, 6, 11⟩).dropWhile isspace :=
  ⟨by decide,
    ((consume_removes_leading_run ⟨"foo  =  bar".toList, 6, 11⟩ isspace).2.1
      ⟨"foo  =  bar".toList, 8, 11⟩ (by decide)).2.2.1⟩

/-! ## Properties of SQL identifier quoting -/

/-- What the first loop of sql_quote_ident computes. -/
theorem quote_scan_spec (l : List Char) :
    ∀ (lpc : Nat) (nq : Bool) (qc : Nat),
      quote_scan l lpc (nq, qc) =
        (nq || (decide (lpc = 0) &&
            (match l with
              | [] => false
              | c :: _ => isdigit c)) ||
          l.any (fun c => !isalnum c && c != '_'),
          qc + l.count '"') := by
  induction l with
  | nil => intro lpc nq qc; simp [quote_scan]
  | cons c rest ih =>
    intro lpc nq qc
    simp only [quote_scan]
    rw [ih]
    have h1 : decide (lpc + 1 = 0) = false := by simp
    rw [h1]
    refine Prod.ext ?_ ?_
    · simp only [Bool.false_and, Bool.or_false, List.any_cons]
      by_cases hd : lpc = 0 <;> cases hdig : isdigit c <;> cases hal : isalnum c <;>
        by_cases hu : c = '_' <;> cases nq <;> simp [hd, hdig, hal, hu]
    · simp only [List.count_cons]
      by_cases hq : c = '"'
      · simp [hq]
        omega
      · have : (c == '"') = false := by simpa using hq
        simp [hq, this]

/-- The second loop of sql_quote_ident writes the identifier with every double quote
doubled. -/
theorem quote_body_eq (l : List Char) : quote_body l = double_quotes l := by
  induction l with
  | nil => rfl
  | cons c rest ih =>
    by_cases hq : c = '"'
    · simp [quote_body, double_quotes, hq, ih]
    · simp [quote_body, double_quotes, hq, ih]

/-- Doubling the double quotes adds one byte for each of them. -/
theorem double_quotes_length (l : List Char) :
    (double_quotes l).length = l.length + l.count '"' := by
  induction l with
  | nil => rfl
  | cons c rest ih =>
    by_cases hq : c = '"'
    · simp [double_quotes, hq, ih]
      omega
    · have : (c == '"') = false := by simpa using hq
      simp [double_quotes, hq, ih, List.count_cons, this]
      omega

/-- An identifier that needs no quotes holds no double quote, so doubling leaves it
as it is. -/
theorem double_quotes_of_not_needs (l : List Char)
    (h : l.any (fun c => !isalnum c && c != '_') = false) :
    double_quotes l = l ∧ l.count '"' = 0 := by
  induction l with
  | nil => exact ⟨rfl, rfl⟩
  | cons c rest ih =>
    simp only [List.any_cons, Bool.or_eq_false_iff] at h
    have hq : c ≠ '"' := by
      intro hc
      subst hc
      have hbad : (!isalnum '"' && '"' != '_') = true := by decide
      rw [hbad] at h
      exact absurd h.1 (by decide)
    have hq2 : (c == '"') = false := by simpa using hq
    obtain ⟨h1, h2⟩ := ih h.2
    exact ⟨by simp [double_quotes, hq, h1], by simp [List.count_cons, hq2, h2]⟩

/-- C27: when the allocation of sql_quote_ident succeeds, for an identifier whose
allocation size fits the int that sqlite3_malloc takes, the function returns the
identifier with every double quote doubled, enclosed in one pair of double quotes,
when the identifier begins with a digit or holds a byte that is neither alphanumeric
nor an underscore, and the identifier unchanged otherwise; the bytes written and the
NUL that closes them fit the allocated size. When the allocation fails the function
returns NULL. -/
theorem sql_quote_ident_quotes (sqlite3_malloc : Int → Bool) (ident : List Char)
    (hsize : ident.length + ident.count '"' * 2 + 3 ≤ 2147483647) :
    (sqlite3_malloc ((ident.length + ident.count '"' * 2 +
        (if ident_needs_quote ident = true then 2 else 0) + 1 : Nat) : Int) = true →
      sql_quote_ident sqlite3_malloc ident =
          some (some (if ident_needs_quote ident = true then
            '"' :: double_quotes ident ++ ['"'] else ident)) ∧
        (if ident_needs_quote ident = true then
            '"' :: double_quotes ident ++ ['"'] else ident).length + 1 ≤
          ident.length + ident.count '"' * 2 +
            (if ident_needs_quote ident = true then 2 else 0) + 1) ∧
    (sqlite3_malloc ((ident.length + ident.count '"' * 2 +
        (if ident_needs_quote ident = true then 2 else 0) + 1 : Nat) : Int) = false →
      sql_quote_ident sqlite3_malloc ident = some none) := by
  have hscan : quote_scan ident 0 (false, 0) = (ident_needs_quote ident, ident.count '"') := by
    rw [quote_scan_spec]
    simp [ident_needs_quote]
  have hlen : ¬ (2147483647 < ident.length) := by omega
  have hn : ∀ a : Nat, a ≤ 2147483647 →
      ((((a % 2 ^ 64 + 2 ^ 31) % 2 ^ 32 : Nat) : Int) - 2 ^ 31) = (a : Int) := by
    intro a ha
    norm_num
    omega
  have halloc : ident.length + ident.count '"' * 2 +
      (if ident_needs_quote ident = true then 2 else 0) + 1 ≤ 2147483647 := by
    split <;> omega
  constructor
  · intro hm
    constructor
    · simp only [sql_quote_ident, hlen, if_false, hscan, hn _ halloc, hm, quote_body_eq]
      cases hq : ident_needs_quote ident with
      | true =>
        simp only [if_true, Bool.true_eq_false, if_false]
        have : ((['"'] ++ double_quotes ident ++ ['"']).length : Int) + 1 ≤
            ((ident.length + ident.count '"' * 2 + 2 + 1 : Nat) : Int) := by
          simp only [List.length_append, List.length_cons, List.length_nil,
            double_quotes_length]
          push_cast
          omega
        simp only [this, if_true]
        rfl
      | false =>
        have hany : ident.any (fun c => !isalnum c && c != '_') = false := by
          simp only [ident_needs_quote, Bool.or_eq_false_iff] at hq
          exact hq.2
        obtain ⟨hd, hc⟩ := double_quotes_of_not_needs ident hany
        simp only [Bool.false_eq_true, if_false, List.nil_append, List.append_nil, hd, hc]
        simp
    · cases hq : ident_needs_quote ident with
      | true =>
        simp only [if_true, List.length_cons, List.length_append, List.length_nil,
          double_quotes_length]
        omega
      | false =>
        simp only [Bool.false_eq_true, if_false]
        omega
  · intro hm
    simp only [sql_quote_ident, hlen, if_false, hscan, hn _ halloc, hm, if_true]

/-- Witness for C27: an identifier with a double quote in it. -/
theorem sql_quote_ident_quotes_witness :
    "a\"b".toList.length + "a\"b".toList.count '"' * 2 + 3 ≤ 2147483647 ∧
    sql_quote_ident (fun n => decide (0 < n)) "a\"b".toList =
      some (some "\"a\"\"b\"".toList) :=
  ⟨by decide,
    ((sql_quote_ident_quotes (fun n => decide (0 < n)) "a\"b".toList (by decide)).1
      (by decide)).1⟩

/-! ## Properties of the timestamp divisor -/

/-- C28: the loader accepts the timestamp-divisor 0.5, which is greater than zero;
read_json_int converts it to the long long 0 and the division of the timestamp by it
is undefined. For the divisor 1000 the timestamp 1700000000123 gives 1700000000
seconds and the remainder 123. -/
theorem read_json_int_divides_by_zero :
    read_format_double ⟨1, 0⟩ ⟨1, -1⟩ = (1, ⟨1, -1⟩) ∧
      double_to_long_long ⟨1, -1⟩ = some 0 ∧
      read_json_int_time (read_format_double ⟨1, 0⟩ ⟨1, -1⟩).2 1700000000 = none ∧
      read_json_int_time (read_format_int ⟨1, 0⟩ 1000).2 1700000000123 =
        some (1700000000, 123) := by
  decide

/-- A divisor that the loader accepted as an integer, or as a double that is at least
1, is not 0 in read_json_int: when its conversion to long long is defined, the
division of every timestamp by it is defined. -/
theorem read_json_int_time_defined (d : double_value) (val : Int)
    (h : (∃ v, 0 < v ∧ d = long_long_to_double v) ∨
      (0 < d.mant ∧ (d.exp < 0 → 2 ^ (-d.exp).toNat ≤ d.mant)))
    (hconv : double_to_long_long d ≠ none) :
    ∃ divisor, double_to_long_long d = some divisor ∧ 0 < divisor ∧
      read_json_int_time d val = some (Int.tdiv val divisor, Int.tmod val divisor) := by
  have hpos : 0 < d.mant ∧ (d.exp < 0 → 2 ^ (-d.exp).toNat ≤ d.mant) := by
    rcases h with ⟨v, hv, rfl⟩ | h
    · unfold long_long_to_double
      split
      · exact ⟨hv, fun h => absurd h (by simp)⟩
      · rename_i hbig
        have hvn : ¬ v < 0 := by omega
        simp only [hvn, if_false]
        constructor
        · have hq : 0 < v.natAbs / 2 ^ (Nat.log2 v.natAbs + 1 - 53) := by
            apply Nat.div_pos
            · have hlt := Nat.lt_log2_self (n := v.natAbs)
              have hne : v.natAbs ≠ 0 := by omega
              have hle := Nat.log2_self_le hne
              calc 2 ^ (Nat.log2 v.natAbs + 1 - 53) ≤ 2 ^ Nat.log2 v.natAbs :=
                    Nat.pow_le_pow_right (by omega) (by omega)
                _ ≤ v.natAbs := hle
            · exact Nat.pos_pow_of_pos _ (by omega)
          split <;> omega
        · intro hneg
          omega
    · exact h
  cases hc : double_to_long_long d with
  | none => exact absurd hc hconv
  | some divisor =>
    have ht : (0 : Int) < (if 0 ≤ d.exp then d.mant * 2 ^ d.exp.toNat
        else Int.tdiv d.mant (2 ^ (-d.exp).toNat)) := by
      by_cases he : 0 ≤ d.exp
      · simp only [he, if_true]
        exact Int.mul_pos hpos.1 (by positivity)
      · simp only [he, if_false]
        have hle := hpos.2 (by omega)
        have hpw : (0 : Int) < 2 ^ (-d.exp).toNat := by positivity
        rw [Int.tdiv_eq_ediv (by omega) (by omega)]
        have h1 : (1 : Int) ≤ d.mant / 2 ^ (-d.exp).toNat :=
          Int.le_ediv_of_mul_le hpw (by omega)
        omega
    have hdiv : 0 < divisor := by
      have hdef : double_to_long_long d =
          if -(2 ^ 63) ≤ (if 0 ≤ d.exp then d.mant * 2 ^ d.exp.toNat
              else Int.tdiv d.mant (2 ^ (-d.exp).toNat)) ∧
            (if 0 ≤ d.exp then d.mant * 2 ^ d.exp.toNat
              else Int.tdiv d.mant (2 ^ (-d.exp).toNat)) < 2 ^ 63
          then some (if 0 ≤ d.exp then d.mant * 2 ^ d.exp.toNat
              else Int.tdiv d.mant (2 ^ (-d.exp).toNat))
          else none := rfl
      rw [hdef] at hc
      generalize (if 0 ≤ d.exp then d.mant * 2 ^ d.exp.toNat
        else Int.tdiv d.mant (2 ^ (-d.exp).toNat)) = t at hc ht
      by_cases hr : -(2 ^ 63) ≤ t ∧ t < 2 ^ 63
      · rw [if_pos hr] at hc
        rw [← Option.some.inj hc]
        exact ht
      · rw [if_neg hr] at hc
        exact absurd hc (by simp)
    refine ⟨divisor, rfl, hdiv, ?_⟩
    have hne : divisor ≠ 0 := by omega
    simp [read_json_int_time, hc, hne]

/-! ## Properties of the sample check -/

/-- The inner loop of the sample check only pushes onto the error list, and it sets
found only when a compiled pattern matches the sample. -/
theorem sample_pattern_loop_spec (name ts_field : String)
    (match_errors : List Char → Nat → List String) (s_line : List Char) :
    ∀ (order : List build_pattern) (idx : Nat) (found : Bool) (errors : List String),
      (∃ pushed, (sample_pattern_loop name ts_field match_errors s_line order idx
        (found, errors)).2 = errors ++ pushed) ∧
      ((∀ pat ∈ order, ∀ re, pat.p_pcre = some re → re s_line = false) →
        (sample_pattern_loop name ts_field match_errors s_line order idx
          (found, errors)).1 = found) := by
  intro order
  induction order with
  | nil =>
    intro idx found errors
    exact ⟨⟨[], by simp [sample_pattern_loop]⟩, fun _ => rfl⟩
  | cons pat rest ih =>
    intro idx found errors
    cases found with
    | true => exact ⟨⟨[], by simp [sample_pattern_loop]⟩, fun _ => by simp [sample_pattern_loop]⟩
    | false =>
      cases hre : pat.p_pcre with
      | none =>
        simp only [sample_pattern_loop, Bool.false_eq_true, if_false, hre]
        refine ⟨(ih (idx + 1) false errors).1, fun h => (ih (idx + 1) false errors).2 ?_⟩
        intro p hp
        exact h p (List.mem_cons_of_mem _ hp)
      | some re =>
        simp only [sample_pattern_loop, Bool.false_eq_true, if_false, hre]
        split
        · obtain ⟨pushed, hp⟩ := (ih (idx + 1) false (errors ++ ["error:" ++ name ++
            ":timestamp field '" ++ ts_field ++ "' not found in pattern -- " ++
            pat.p_string])).1
          refine ⟨⟨["error:" ++ name ++ ":timestamp field '" ++ ts_field ++
            "' not found in pattern -- " ++ pat.p_string] ++ pushed, by rw [hp]; simp⟩,
            fun h => ?_⟩
          exact (ih (idx + 1) false _).2 (fun p hp => h p (List.mem_cons_of_mem _ hp))
        · by_cases hm : re s_line = true
          · simp only [hm, if_true]
            refine ⟨?_, fun h => ?_⟩
            · split
              · exact (ih (idx + 1) true errors).1
              · obtain ⟨pushed, hp⟩ := (ih (idx + 1) true
                  (errors ++ match_errors s_line idx)).1
                exact ⟨match_errors s_line idx ++ pushed, by rw [hp]; simp⟩
            · have := h pat (List.mem_cons_self _ _) re hre
              rw [hm] at this
              exact absurd this (by decide)
          · simp only [hm, Bool.false_eq_true, if_false]
            refine ⟨(ih (idx + 1) false errors).1, fun h => (ih (idx + 1) false errors).2 ?_⟩
            intro p hp
            exact h p (List.mem_cons_of_mem _ hp)

/-- The check of one sample only pushes onto the error list, and it pushes at least
one error for a sample that no compiled pattern matches. -/
theorem check_sample_spec (name ts_field : String)
    (match_errors : List Char → Nat → List String) (order : List build_pattern)
    (errors : List String) (s_line : List Char) :
    (∃ pushed, check_sample name ts_field match_errors order errors s_line =
      errors ++ pushed) ∧
    ((∀ pat ∈ order, ∀ re, pat.p_pcre = some re → re s_line = false) →
      check_sample name ts_field match_errors order errors s_line ≠ []) := by
  obtain ⟨⟨pushed, hp⟩, hfound⟩ :=
    sample_pattern_loop_spec name ts_field match_errors s_line order 0 false errors
  constructor
  · unfold check_sample
    simp only
    split
    · exact ⟨pushed ++ ["error:" ++ name ++ ":invalid sample         -- " ++
        String.mk s_line] ++ partial_match_errors name s_line order, by rw [hp]; simp⟩
    · exact ⟨pushed, hp⟩
  · intro h
    unfold check_sample
    simp only [hfound h, if_true]
    simp

/-- The loop over the samples only pushes onto the error list, and the list is not
empty after it when it was not empty before or some sample is matched by no
compiled pattern. -/
theorem check_samples_spec (name ts_field : String)
    (match_errors : List Char → Nat → List String) (order : List build_pattern) :
    ∀ (samples : List (List Char)) (errors : List String),
      (errors ≠ [] ∨ ∃ s_line ∈ samples,
        ∀ pat ∈ order, ∀ re, pat.p_pcre = some re → re s_line = false) →
      check_samples name ts_field match_errors order samples errors ≠ [] := by
  intro samples
  induction samples with
  | nil =>
    intro errors h
    rcases h with h | ⟨s, hs, -⟩
    · simpa [check_samples] using h
    · simp at hs
  | cons s rest ih =>
    intro errors h
    simp only [check_samples]
    apply ih
    rcases h with h | ⟨s2, hs2, hno⟩
    · left
      obtain ⟨pushed, hp⟩ := (check_sample_spec name ts_field match_errors order errors s).1
      rw [hp]
      simp [h]
    · rcases List.mem_cons.1 hs2 with h1 | h1
      · subst h1
        left
        exact (check_sample_spec name ts_field match_errors order errors s2).2 hno
      · right
        exact ⟨s2, h1, hno⟩

/-- What the inner loop of the sample check pushes does not depend on the errors
that are in the list already. -/
theorem sample_pattern_loop_append (name ts_field : String)
    (match_errors : List Char → Nat → List String) (s_line : List Char) :
    ∀ (order : List build_pattern) (idx : Nat) (found : Bool) (errors : List String),
      sample_pattern_loop name ts_field match_errors s_line order idx (found, errors) =
        ((sample_pattern_loop name ts_field match_errors s_line order idx (found, [])).1,
          errors ++
            (sample_pattern_loop name ts_field match_errors s_line order idx (found, [])).2) := by
  intro order
  induction order with
  | nil => intro idx found errors; simp [sample_pattern_loop]
  | cons pat rest ih =>
    intro idx found errors
    cases found with
    | true => simp [sample_pattern_loop]
    | false =>
      cases hre : pat.p_pcre with
      | none =>
        simp only [sample_pattern_loop, Bool.false_eq_true, if_false, hre]
        exact ih (idx + 1) false errors
      | some re =>
        simp only [sample_pattern_loop, Bool.false_eq_true, if_false, hre, List.nil_append]
        split
        · rw [ih (idx + 1) false (errors ++ _), ih (idx + 1) false [_]]
          simp
        · split
          · split
            · exact ih (idx + 1) true errors
            · rw [ih (idx + 1) true (errors ++ _), ih (idx + 1) true (match_errors s_line idx)]
              simp
          · exact ih (idx + 1) false errors

/-- What the loop over the samples pushes does not depend on the errors that are in
the list already. -/
theorem check_samples_append (name ts_field : String)
    (match_errors : List Char → Nat → List String) (order : List build_pattern) :
    ∀ (samples : List (List Char)) (errors : List String),
      check_samples name ts_field match_errors order samples errors =
        errors ++ check_samples name ts_field match_errors order samples [] := by
  have hone : ∀ (errors : List String) (s : List Char),
      check_sample name ts_field match_errors order errors s =
        errors ++ check_sample name ts_field match_errors order [] s := by
    intro errors s
    unfold check_sample
    simp only
    rw [sample_pattern_loop_append name ts_field match_errors s order 0 false errors]
    split <;> simp
  intro samples
  induction samples with
  | nil => intro errors; simp [check_samples]
  | cons s rest ih =>
    intro errors
    simp only [check_samples]
    rw [ih (check_sample name ts_field match_errors order errors s),
      ih (check_sample name ts_field match_errors order [] s), hone errors s]
    simp

/-- The function build only pushes onto the error list of the caller. -/
theorem build_append (v : build_view) (errors : List String) :
    build v errors = errors ++ build v [] := by
  unfold build
  rw [check_samples_append v.name v.ts_field v.match_errors v.elf_pattern_order v.elf_samples
      (errors ++ v.errors_before),
    check_samples_append v.name v.ts_field v.match_errors v.elf_pattern_order v.elf_samples
      ([] ++ v.errors_before)]
  simp

/-- C21: when some declared sample line of a format is matched by none of its
compiled patterns, build pushes at least one error: whatever the error list of the
caller held, it is not empty after build, and build only adds to it. When such a
format is among those that load_formats builds, load_formats returns with a
non-empty error list and leaves GRAPH_ORDERED_FORMATS and the root formats as they
were, so the format set is not activated. -/
theorem build_reports_unmatched_sample (views : external_log_format → build_view)
    (match_samples : intern_string_t → intern_string_t → Bool)
    (generic_log : intern_string_t) (formats : List external_log_format)
    (st : loader_state) (f : external_log_format) (s_line : List Char)
    (hf : f ∈ formats) (hs : s_line ∈ (views f).elf_samples)
    (hno : ∀ pat ∈ (views f).elf_pattern_order, ∀ re, pat.p_pcre = some re →
      re s_line = false) :
    (∀ errors, build (views f) errors ≠ [] ∧
      build (views f) errors = errors ++ build (views f) []) ∧
    ∃ st2, load_formats (fun elf => build (views elf) []) match_samples generic_log
        formats st = some st2 ∧
      st2.graph_ordered_formats = st.graph_ordered_formats ∧
      st2.root_formats = st.root_formats ∧ st2.errors ≠ [] := by
  have hbuild : ∀ errors, build (views f) errors ≠ [] := by
    intro errors
    unfold build
    have := check_samples_spec (views f).name (views f).ts_field (views f).match_errors
      (views f).elf_pattern_order (views f).elf_samples (errors ++ (views f).errors_before)
      (Or.inr ⟨s_line, hs, hno⟩)
    intro h
    exact this (List.append_eq_nil.1 h).1
  refine ⟨fun errors => ⟨hbuild errors, build_append (views f) errors⟩, ?_⟩
  have hne := build_formats_errors_ne_nil (fun elf => build (views elf) []) match_samples
    formats formats st.errors [] (Or.inr ⟨f, hf, hbuild []⟩)
  refine ⟨{ st with errors := (build_formats (fun elf => build (views elf) []) match_samples
    formats formats st.errors []).1 }, ?_, rfl, rfl, hne⟩
  unfold load_formats
  have hemp : (build_formats (fun elf => build (views elf) []) match_samples formats formats
      st.errors []).1.isEmpty = false := by
    cases hb : (build_formats (fun elf => build (views elf) []) match_samples formats formats
        st.errors []).1 with
    | nil => exact absurd hb hne
    | cons _ _ => rfl
  simp [hemp]

/-- Witness for C21: a format whose only pattern matches the line x and whose sample
is the line y. -/
theorem build_reports_unmatched_sample_witness :
    (⟨1, true, []⟩ : external_log_format) ∈ [(⟨1, true, []⟩ : external_log_format)] ∧
    build ⟨"f", "ts", [⟨⟨⟨false⟩, some (fun s => s == ['x'])⟩, 0, fun _ => 0, "f/regex/std", "x"⟩],
        [['y']], fun _ _ => [], [], []⟩ [] =
      ["error:f:invalid sample         -- y", "error:f:no partial match found"] ∧
    ∃ st2, load_formats (fun elf => build ((fun _ => ⟨"f", "ts",
          [⟨⟨⟨false⟩, some (fun s => s == ['x'])⟩, 0, fun _ => 0, "f/regex/std", "x"⟩],
          [['y']], fun _ _ => [], [], []⟩) elf) []) (fun _ _ => false) 100
        [⟨1, true, []⟩] ⟨[], [⟨9, true, []⟩], [7, 100, 8]⟩ = some st2 ∧
      st2.graph_ordered_formats = [⟨9, true, []⟩] ∧
      st2.root_formats = [7, 100, 8] ∧ st2.errors ≠ [] :=
  ⟨by decide, by decide,
    (build_reports_unmatched_sample (fun _ => ⟨"f", "ts",
        [⟨⟨⟨false⟩, some (fun s => s == ['x'])⟩, 0, fun _ => 0, "f/regex/std", "x"⟩],
        [['y']], fun _ _ => [], [], []⟩) (fun _ _ => false) 100
      [⟨1, true, []⟩] ⟨[], [⟨9, true, []⟩], [7, 100, 8]⟩ ⟨1, true, []⟩ ['y']
      (by decide) (by decide)
      (by
        intro pat hp re hre
        rw [List.mem_singleton] at hp
        subst hp
        simp only [Option.some.injEq] at hre
        subst hre
        decide)).2⟩

/-! ## Properties of the column indexes -/

/-- Giving a value definition its column keeps the state of the column indexes, keeps
every value definition, and leaves the definition named with a column unless it is
internal. -/
theorem assign_column_spec (st : column_state) (name : intern_string_t)
    (hinv : columns_inv st) :
    columns_inv (assign_column st name) ∧ columns_kept st (assign_column st name) ∧
      ∀ vd2, (assign_column st name).elf_value_defs name = some vd2 →
        vd2.vd_internal = false → vd2.lvm_column ≠ -1 := by
  obtain ⟨h0, hrange, hint, hinj, hsurj⟩ := hinv
  unfold assign_column
  cases hd : st.elf_value_defs name with
  | none =>
    refine ⟨⟨h0, hrange, hint, hinj, hsurj⟩, ?_, ?_⟩
    · intro n
      exact ⟨fun h => h, fun vd h => ⟨vd, h, rfl, fun _ => rfl⟩⟩
    · intro vd2 h
      simp only at h
      rw [hd] at h
      exact absurd h (by simp)
  | some vd =>
    by_cases hc : (!vd.vd_internal && vd.lvm_column == -1) = true
    · simp only [hc, if_true]
      simp only [Bool.and_eq_true, Bool.not_eq_true', beq_iff_eq] at hc
      obtain ⟨hni, hcol⟩ := hc
      refine ⟨⟨by simp only; omega, ?_, ?_, ?_, ?_⟩, ?_, ?_⟩
      · intro n v hv
        simp only at hv ⊢
        by_cases hn : n = name
        · simp only [hn, if_true, Option.some.injEq] at hv
          subst hv
          right
          simp only
          omega
        · simp only [hn, if_false] at hv
          rcases hrange n v hv with h | h
          · exact Or.inl h
          · right
            omega
      · intro n v hv hi
        simp only at hv
        by_cases hn : n = name
        · simp only [hn, if_true, Option.some.injEq] at hv
          subst hv
          simp only at hi
          rw [hni] at hi
          exact absurd hi (by decide)
        · simp only [hn, if_false] at hv
          exact hint n v hv hi
      · intro n1 n2 v1 v2 hv1 hv2 hne heq
        simp only at hv1 hv2
        by_cases hn1 : n1 = name <;> by_cases hn2 : n2 = name
        · rw [hn1, hn2]
        · simp only [hn1, if_true, Option.some.injEq] at hv1
          simp only [hn2, if_false] at hv2
          subst hv1
          simp only at heq
          rcases hrange n2 v2 hv2 with h | h <;> omega
        · simp only [hn2, if_true, Option.some.injEq] at hv2
          simp only [hn1, if_false] at hv1
          subst hv2
          simp only at heq
          rcases hrange n1 v1 hv1 with h | h <;> omega
        · simp only [hn1, if_false] at hv1
          simp only [hn2, if_false] at hv2
          exact hinj n1 n2 v1 v2 hv1 hv2 hne heq
      · intro c hc0 hc1
        simp only at hc1 ⊢
        by_cases hlast : c = st.elf_column_count
        · exact ⟨name, { vd with lvm_column := st.elf_column_count }, by simp, by simp [hlast]⟩
        · obtain ⟨n, v, hv, hvc⟩ := hsurj c hc0 (by omega)
          have hn : n ≠ name := by
            intro h
            rw [h, hd] at hv
            have := Option.some.inj hv
            rw [← this] at hvc
            omega
          exact ⟨n, v, by simp [hn, hv], hvc⟩
      · intro n
        simp only
        constructor
        · intro h
          by_cases hn : n = name
          · rw [hn, hd] at h
            exact absurd h (by simp)
          · simp [hn, h]
        · intro v hv
          by_cases hn : n = name
          · rw [hn, hd] at hv
            have := Option.some.inj hv
            subst this
            exact ⟨{ vd with lvm_column := st.elf_column_count }, by simp [hn], rfl,
              fun h => absurd hcol h⟩
          · exact ⟨v, by simp [hn, hv], rfl, fun _ => rfl⟩
      · intro vd2 h _
        simp only [if_true, Option.some.injEq] at h
        rw [← h]
        simp only
        omega
    · simp only [hc, Bool.false_eq_true, if_false]
      refine ⟨⟨h0, hrange, hint, hinj, hsurj⟩, ?_, ?_⟩
      · intro n
        exact ⟨fun h => h, fun v h => ⟨v, h, rfl, fun _ => rfl⟩⟩
      · intro vd2 h hi
        rw [hd] at h
        have := Option.some.inj h
        subst this
        intro hcol
        apply hc
        simp [hi, hcol]

/-- Keeping the value definitions composes. -/
theorem columns_kept_trans (a b c : column_state) (h1 : columns_kept a b)
    (h2 : columns_kept b c) : columns_kept a c := by
  intro n
  constructor
  · intro h
    exact (h2 n).1 ((h1 n).1 h)
  · intro vd h
    obtain ⟨v1, hv1, hi1, hc1⟩ := (h1 n).2 vd h
    obtain ⟨v2, hv2, hi2, hc2⟩ := (h2 n).2 v1 hv1
    refine ⟨v2, hv2, by rw [hi2, hi1], ?_⟩
    intro hne
    have := hc1 hne
    rw [hc2 (by rw [this]; exact hne), this]

/-- A run of column assignments keeps the state of the column indexes, keeps every
value definition, and leaves every definition named with a column unless it is
internal. -/
theorem foldl_assign_column_spec :
    ∀ (names : List intern_string_t) (st : column_state), columns_inv st →
      columns_inv (names.foldl assign_column st) ∧
        columns_kept st (names.foldl assign_column st) ∧
        ∀ name ∈ names, ∀ vd2, (names.foldl assign_column st).elf_value_defs name = some vd2 →
          vd2.vd_internal = false → vd2.lvm_column ≠ -1 := by
  intro names
  induction names with
  | nil =>
    intro st hinv
    refine ⟨hinv, fun n => ⟨fun h => h, fun vd h => ⟨vd, h, rfl, fun _ => rfl⟩⟩, ?_⟩
    intro name hn
    simp at hn
  | cons n rest ih =>
    intro st hinv
    obtain ⟨hinv1, hkept1, hassigned1⟩ := assign_column_spec st n hinv
    obtain ⟨hinv2, hkept2, hassigned2⟩ := ih (assign_column st n) hinv1
    simp only [List.foldl_cons]
    refine ⟨hinv2, columns_kept_trans _ _ _ hkept1 hkept2, ?_⟩
    intro name hname vd2 hvd2 hni
    rcases List.mem_cons.1 hname with h | h
    · subst h
      cases h1 : (assign_column st name).elf_value_defs name with
      | none =>
        rw [(hkept2 name).1 h1] at hvd2
        exact absurd hvd2 (by simp)
      | some v1 =>
        obtain ⟨v2, hv2, hi2, hc2⟩ := (hkept2 name).2 v1 h1
        rw [hv2] at hvd2
        have := Option.some.inj hvd2
        subst this
        have hv1 := hassigned1 v1 h1 (by rw [← hi2]; exact hni)
        rw [hc2 hv1]
        exact hv1
    · exact hassigned2 name h vd2 hvd2 hni

/-- The assignments for the captures of the patterns keep the state of the column
indexes and every value definition. -/
theorem foldl_captures_spec :
    ∀ (captures : List (List intern_string_t)) (st : column_state), columns_inv st →
      columns_inv (captures.foldl (fun s names => names.foldl assign_column s) st) ∧
        columns_kept st (captures.foldl (fun s names => names.foldl assign_column s) st) := by
  intro captures
  induction captures with
  | nil =>
    intro st hinv
    exact ⟨hinv, fun n => ⟨fun h => h, fun vd h => ⟨vd, h, rfl, fun _ => rfl⟩⟩⟩
  | cons names rest ih =>
    intro st hinv
    obtain ⟨hinv1, hkept1, -⟩ := foldl_assign_column_spec names st hinv
    obtain ⟨hinv2, hkept2⟩ := ih (names.foldl assign_column st) hinv1
    simp only [List.foldl_cons]
    exact ⟨hinv2, columns_kept_trans _ _ _ hkept1 hkept2⟩

/-- Marking a field internal while no column has been given leaves no column given,
makes the field internal and keeps the others internal. -/
theorem mark_internal_spec (st : column_state) (field : intern_string_t)
    (hpre : st.elf_column_count = 0 ∧
      ∀ n vd, st.elf_value_defs n = some vd → vd.lvm_column = -1) :
    ((mark_internal st field).elf_column_count = 0 ∧
      ∀ n vd, (mark_internal st field).elf_value_defs n = some vd → vd.lvm_column = -1) ∧
    (∃ vd, (mark_internal st field).elf_value_defs field = some vd ∧ vd.vd_internal = true) ∧
    ∀ g, (∃ vd, st.elf_value_defs g = some vd ∧ vd.vd_internal = true) →
      ∃ vd, (mark_internal st field).elf_value_defs g = some vd ∧ vd.vd_internal = true := by
  refine ⟨⟨hpre.1, ?_⟩, by simp [mark_internal], ?_⟩
  · intro n vd h
    simp only [mark_internal] at h
    by_cases hn : n = field
    · simp only [hn, if_true, Option.some.injEq] at h
      rw [← h]
      simp only
      cases hf : st.elf_value_defs field with
      | none => rfl
      | some v => exact hpre.2 field v hf
    · simp only [hn, if_false] at h
      exact hpre.2 n vd h
  · rintro g ⟨vd, hvd, hi⟩
    by_cases hg : g = field
    · simp [mark_internal, hg]
    · exact ⟨vd, by simp [mark_internal, hg, hvd], hi⟩

/-- The function get_columns meets its requirement when every column index is -1 or
below elf_column_count. -/
theorem get_columns_defined (st : column_state)
    (hrange : ∀ n vd, st.elf_value_defs n = some vd →
      vd.lvm_column = -1 ∨ (0 ≤ vd.lvm_column ∧ vd.lvm_column < st.elf_column_count))
    (order : List intern_string_t) : (get_columns st order).isSome = true := by
  unfold get_columns
  generalize List.replicate st.elf_column_count.toNat none = cols
  induction order generalizing cols with
  | nil => rfl
  | cons name rest ih =>
    simp only [List.foldl_cons]
    cases hd : st.elf_value_defs name with
    | none => exact ih cols
    | some vd =>
      simp only
      rcases hrange name vd hd with h | h
      · simp only [h, if_true]
        exact ih cols
      · have hne : ¬ vd.lvm_column = -1 := by omega
        simp only [hne, if_false, h, and_self, if_true]
        exact ih _

/-- After lines 1510-1549 of build no column has been given yet, and the timestamp
field, the body field and a level field without a value definition are internal. -/
theorem mark_fields_spec
    (lf_timestamp_field elf_level_field elf_body_field : Option intern_string_t)
    (st : column_state)
    (hpre : st.elf_column_count = 0 ∧
      ∀ n vd, st.elf_value_defs n = some vd → vd.lvm_column = -1) :
    ((mark_field (mark_level_field (mark_field st lf_timestamp_field) elf_level_field)
        elf_body_field).elf_column_count = 0 ∧
      ∀ n vd, (mark_field (mark_level_field (mark_field st lf_timestamp_field)
          elf_level_field) elf_body_field).elf_value_defs n = some vd →
        vd.lvm_column = -1) ∧
    ∀ f, (lf_timestamp_field = some f ∨ elf_body_field = some f ∨
        (elf_level_field = some f ∧ st.elf_value_defs f = none)) →
      ∃ vd, (mark_field (mark_level_field (mark_field st lf_timestamp_field)
          elf_level_field) elf_body_field).elf_value_defs f = some vd ∧
        vd.vd_internal = true := by
  -- the state after the timestamp field
  have h1 : (((mark_field st lf_timestamp_field).elf_column_count = 0 ∧
        ∀ n vd, (mark_field st lf_timestamp_field).elf_value_defs n = some vd →
          vd.lvm_column = -1) ∧
      (∀ f, lf_timestamp_field = some f →
        ∃ vd, (mark_field st lf_timestamp_field).elf_value_defs f = some vd ∧
          vd.vd_internal = true) ∧
      (∀ f, lf_timestamp_field ≠ some f →
        (mark_field st lf_timestamp_field).elf_value_defs f = st.elf_value_defs f)) := by
    cases lf_timestamp_field with
    | none => exact ⟨hpre, fun f h => absurd h (by simp), fun f _ => rfl⟩
    | some t =>
      refine ⟨(mark_internal_spec st t hpre).1, ?_, ?_⟩
      · intro f hf
        rw [← Option.some.inj hf]
        exact (mark_internal_spec st t hpre).2.1
      · intro f hf
        have : f ≠ t := fun h => hf (by rw [h])
        simp [mark_field, mark_internal, this]
  obtain ⟨hpre1, hts1, hother1⟩ := h1
  generalize mark_field st lf_timestamp_field = st1 at hpre1 hts1 hother1 ⊢
  -- the state after the level field
  have h2 : ((mark_level_field st1 elf_level_field).elf_column_count = 0 ∧
        ∀ n vd, (mark_level_field st1 elf_level_field).elf_value_defs n = some vd →
          vd.lvm_column = -1) ∧
      (∀ f, (lf_timestamp_field = some f ∨
          (elf_level_field = some f ∧ st.elf_value_defs f = none)) →
        ∃ vd, (mark_level_field st1 elf_level_field).elf_value_defs f = some vd ∧
          vd.vd_internal = true) := by
    cases elf_level_field with
    | none =>
      refine ⟨hpre1, ?_⟩
      rintro f (h | ⟨h, -⟩)
      · exact hts1 f h
      · exact absurd h (by simp)
    | some l =>
      cases hl : st1.elf_value_defs l with
      | none =>
        have hm : mark_level_field st1 (some l) = mark_internal st1 l := by
          simp [mark_level_field, hl]
        rw [hm]
        refine ⟨(mark_internal_spec st1 l hpre1).1, ?_⟩
        rintro f (h | ⟨h, -⟩)
        · exact (mark_internal_spec st1 l hpre1).2.2 f (hts1 f h)
        · rw [← Option.some.inj h]
          exact (mark_internal_spec st1 l hpre1).2.1
      | some v =>
        have hm : mark_level_field st1 (some l) = st1 := by
          simp [mark_level_field, hl]
        rw [hm]
        refine ⟨hpre1, ?_⟩
        rintro f (h | ⟨h, hnone⟩)
        · exact hts1 f h
        · have hfl : l = f := Option.some.inj h
          subst hfl
          by_cases hts : lf_timestamp_field = some l
          · exact hts1 l hts
          · rw [hother1 l hts, hnone] at hl
            exact absurd hl (by simp)
  obtain ⟨hpre2, hint2⟩ := h2
  generalize mark_level_field st1 elf_level_field = st2 at hpre2 hint2 ⊢
  -- the state after the body field
  cases elf_body_field with
  | none =>
    refine ⟨hpre2, ?_⟩
    rintro f (h | h | h)
    · exact hint2 f (Or.inl h)
    · exact absurd h (by simp)
    · exact hint2 f (Or.inr h)
  | some b =>
    refine ⟨(mark_internal_spec st2 b hpre2).1, ?_⟩
    rintro f (h | h | h)
    · exact (mark_internal_spec st2 b hpre2).2.2 f (hint2 f (Or.inl h))
    · rw [← Option.some.inj h]
      exact (mark_internal_spec st2 b hpre2).2.1
    · exact (mark_internal_spec st2 b hpre2).2.2 f (hint2 f (Or.inr h))

/-- C22: if before build every value definition has column index -1 and
elf_column_count is 0, then after build every value definition of
elf_value_def_order that is not internal has a column index from 0 up to but not
including elf_column_count, no two value definitions share a column index other than
-1, every internal value definition has -1, among them the timestamp field, the body
field and a level field that build created, and the column indexes given are exactly
the numbers below elf_column_count, so elf_column_count is the number of indexes
given. Hence every column index is -1 or within bounds and get_columns meets its
requirement for every value definition. -/
theorem build_columns_assigns
    (lf_timestamp_field elf_level_field elf_body_field : Option intern_string_t)
    (captures : List (List intern_string_t)) (order : List intern_string_t)
    (st : column_state)
    (hpre : st.elf_column_count = 0 ∧
      ∀ n vd, st.elf_value_defs n = some vd → vd.lvm_column = -1) :
    (∀ name ∈ order, ∀ vd,
      (build_columns lf_timestamp_field elf_level_field elf_body_field captures order
        st).elf_value_defs name = some vd → vd.vd_internal = false →
      0 ≤ vd.lvm_column ∧ vd.lvm_column <
        (build_columns lf_timestamp_field elf_level_field elf_body_field captures order
          st).elf_column_count) ∧
    (∀ n1 n2 vd1 vd2,
      (build_columns lf_timestamp_field elf_level_field elf_body_field captures order
        st).elf_value_defs n1 = some vd1 →
      (build_columns lf_timestamp_field elf_level_field elf_body_field captures order
        st).elf_value_defs n2 = some vd2 →
      vd1.lvm_column ≠ -1 → vd1.lvm_column = vd2.lvm_column → n1 = n2) ∧
    (∀ n vd,
      (build_columns lf_timestamp_field elf_level_field elf_body_field captures order
        st).elf_value_defs n = some vd → vd.vd_internal = true → vd.lvm_column = -1) ∧
    (∀ f, (lf_timestamp_field = some f ∨ elf_body_field = some f ∨
        (elf_level_field = some f ∧ st.elf_value_defs f = none)) →
      ∃ vd, (build_columns lf_timestamp_field elf_level_field elf_body_field captures order
          st).elf_value_defs f = some vd ∧ vd.vd_internal = true ∧ vd.lvm_column = -1) ∧
    (∀ c : Int, (0 ≤ c ∧ c <
        (build_columns lf_timestamp_field elf_level_field elf_body_field captures order
          st).elf_column_count) ↔
      (c ≠ -1 ∧ ∃ n vd,
        (build_columns lf_timestamp_field elf_level_field elf_body_field captures order
          st).elf_value_defs n = some vd ∧ vd.lvm_column = c)) ∧
    (get_columns
      (build_columns lf_timestamp_field elf_level_field elf_body_field captures order st)
      order).isSome = true := by
  obtain ⟨hpre3, hint3⟩ :=
    mark_fields_spec lf_timestamp_field elf_level_field elf_body_field st hpre
  unfold build_columns
  generalize mark_field (mark_level_field (mark_field st lf_timestamp_field) elf_level_field)
    elf_body_field = st3 at hpre3 hint3 ⊢
  have hinv3 : columns_inv st3 := by
    refine ⟨by omega, fun n vd h => Or.inl (hpre3.2 n vd h), fun n vd h _ => hpre3.2 n vd h,
      ?_, ?_⟩
    · intro n1 n2 vd1 vd2 h1 _ hne
      exact absurd (hpre3.2 n1 vd1 h1) hne
    · intro c h0 h1
      omega
  obtain ⟨hinv4, hkept4⟩ := foldl_captures_spec captures st3 hinv3
  generalize captures.foldl (fun s names => names.foldl assign_column s) st3 = st4
    at hinv4 hkept4 ⊢
  obtain ⟨hinv5, hkept5, hassigned⟩ := foldl_assign_column_spec order st4 hinv4
  have hkept := columns_kept_trans _ _ _ hkept4 hkept5
  generalize order.foldl assign_column st4 = st5 at hinv5 hkept5 hassigned hkept ⊢
  obtain ⟨h0, hrange, hint, hinj, hsurj⟩ := hinv5
  refine ⟨?_, hinj, hint, ?_, ?_, get_columns_defined st5 hrange order⟩
  · intro name hname vd hvd hni
    rcases hrange name vd hvd with h | h
    · exact absurd h (hassigned name hname vd hvd hni)
    · exact h
  · intro f hf
    obtain ⟨vd3, hvd3, hi3⟩ := hint3 f hf
    obtain ⟨vd5, hvd5, hi5, -⟩ := (hkept f).2 vd3 hvd3
    have hi : vd5.vd_internal = true := by rw [hi5, hi3]
    exact ⟨vd5, hvd5, hi, hint f vd5 hvd5 hi⟩
  · intro c
    constructor
    · rintro ⟨hc0, hc1⟩
      exact ⟨by omega, hsurj c hc0 hc1⟩
    · rintro ⟨hne, n, vd, hvd, hc⟩
      rcases hrange n vd hvd with h | h
      · rw [hc] at h
        exact absurd h hne
      · rw [hc] at h
        exact h

/-- Witness for C22: the value definitions 1 (the timestamp field), 2 and 3; a pattern
captures 3 and then 1. After build 3 has column 0, 2 has column 1, and the
timestamp field has none. -/
theorem build_columns_assigns_witness :
    ((⟨fun n => if n = 1 ∨ n = 2 ∨ n = 3 then some ⟨false, -1⟩ else none, 0⟩ :
        column_state).elf_column_count = 0) ∧
    ((build_columns (some 1) none none [[3, 1]] [1, 2, 3]
        ⟨fun n => if n = 1 ∨ n = 2 ∨ n = 3 then some ⟨false, -1⟩ else none, 0⟩).elf_value_defs 3 =
      some ⟨false, 0⟩) ∧
    ((build_columns (some 1) none none [[3, 1]] [1, 2, 3]
        ⟨fun n => if n = 1 ∨ n = 2 ∨ n = 3 then some ⟨false, -1⟩ else none, 0⟩).elf_value_defs 2 =
      some ⟨false, 1⟩) ∧
    ((build_columns (some 1) none none [[3, 1]] [1, 2, 3]
        ⟨fun n => if n = 1 ∨ n = 2 ∨ n = 3 then some ⟨false, -1⟩ else none, 0⟩).elf_value_defs 1 =
      some ⟨true, -1⟩) ∧
    (get_columns (build_columns (some 1) none none [[3, 1]] [1, 2, 3]
        ⟨fun n => if n = 1 ∨ n = 2 ∨ n = 3 then some ⟨false, -1⟩ else none, 0⟩)
      [1, 2, 3]).isSome = true :=
  ⟨rfl, by decide, by decide, by decide,
    (build_columns_assigns (some 1) none none [[3, 1]] [1, 2, 3]
      ⟨fun n => if n = 1 ∨ n = 2 ∨ n = 3 then some ⟨false, -1⟩ else none, 0⟩
      ⟨rfl, by
        intro n vd h
        simp only at h
        split at h
        · rw [← Option.some.inj h]
        · exact absurd h (by simp)⟩).2.2.2.2.2⟩

/-! ## Properties of the candidate patterns -/

/-- An index that is not a candidate does not show in the candidate sequence. -/
theorem candidates_through_skip (fmt : log_format) (outcome : Nat → pattern_outcome)
    (k : Nat) (rest : List Nat) (h : is_candidate fmt k = false) :
    candidates_through fmt outcome (k :: rest) = candidates_through fmt outcome rest := by
  simp [candidates_through, List.filter_cons, h]

/-- A candidate that does not match with a timestamp that parses is followed by the
candidates after it. -/
theorem candidates_through_next (fmt : log_format) (outcome : Nat → pattern_outcome)
    (k : Nat) (rest : List Nat) (h : is_candidate fmt k = true)
    (hm : is_matched (outcome k) = false) :
    candidates_through fmt outcome (k :: rest) =
      k :: candidates_through fmt outcome rest := by
  simp [candidates_through, List.filter_cons, h, hm, List.takeWhile_cons,
    List.dropWhile_cons]

/-- A candidate that matches with a timestamp that parses ends the candidate
sequence. -/
theorem candidates_through_stop (fmt : log_format) (outcome : Nat → pattern_outcome)
    (k : Nat) (rest : List Nat) (h : is_candidate fmt k = true)
    (hm : is_matched (outcome k) = true) :
    candidates_through fmt outcome (k :: rest) = [k] := by
  simp [candidates_through, List.filter_cons, h, hm, List.takeWhile_cons,
    List.dropWhile_cons]

/-- The unlocked sweep of the loop of scan over the patterns from index c on tries
the candidates among them in ascending order, up to and including the first that
matches with a timestamp that parses. -/
theorem scan_tried_sweep (fmt : log_format) (outcome : Nat → pattern_outcome) :
    ∀ (d fuel c : Nat), c + d = fmt.elf_pattern_order.length → d + 1 ≤ fuel →
      scan_tried fmt outcome fuel ((c : Int) - 1) (-1) =
        candidates_through fmt outcome (List.range' c d) := by
  intro d
  induction d with
  | zero =>
    intro fuel c hc hf
    obtain ⟨fuel, rfl⟩ : ∃ f, fuel = f + 1 := ⟨fuel - 1, by omega⟩
    unfold scan_tried
    have hsub : (c : Int) - 1 + 1 = (c : Int) := by omega
    have hge : ¬ ((c : Int) < (fmt.elf_pattern_order.length : Int)) := by omega
    simp [next_format, hsub, hge, candidates_through]
  | succ d ih =>
    intro fuel c hc hf
    obtain ⟨fuel, rfl⟩ : ∃ f, fuel = f + 1 := ⟨fuel - 1, by omega⟩
    have hrec := ih fuel (c + 1) (by omega) (by omega)
    have hcast : (((c + 1 : Nat) : Int) - 1) = (c : Int) := by omega
    rw [hcast] at hrec
    have hlt : (c : Int) - 1 + 1 < (fmt.elf_pattern_order.length : Int) := by omega
    have hidx : c < fmt.elf_pattern_order.length := by omega
    have hget : fmt.elf_pattern_order[c]? = some (fmt.elf_pattern_order[c]) :=
      List.getElem?_eq_getElem hidx
    have hsub : (c : Int) - 1 + 1 = (c : Int) := by omega
    have hlt2 : (c : Int) < (fmt.elf_pattern_order.length : Int) := by omega
    have hnf : next_format fmt.elf_pattern_order.length ((c : Int) - 1) (-1) =
        (true, (c : Int)) := by
      simp only [next_format, if_true, hsub, hlt2, decide_True]
    have hnn : ¬ ((c : Int) < 0) := by omega
    unfold scan_tried
    simp only [hnf, Bool.true_eq_false, if_false, hnn, Int.toNat_ofNat, hget]
    rw [List.range'_succ]
    by_cases hm : (fmt.elf_pattern_order[c]).p_module_format = true
    · have hcand : is_candidate fmt c = false := by simp [is_candidate, hget, hm]
      simp only [hm, if_true]
      rw [candidates_through_skip fmt outcome c _ hcand]
      exact hrec
    · have hm2 : (fmt.elf_pattern_order[c]).p_module_format = false := by simpa using hm
      have hcand : is_candidate fmt c = true := by simp [is_candidate, hget, hm2]
      simp only [hm2, Bool.false_eq_true, if_false]
      cases ho : outcome c with
      | no_match =>
        simp only [bne_self_eq_false, Bool.and_false, Bool.false_eq_true, if_false]
        rw [candidates_through_next fmt outcome c _ hcand (by simp [ho, is_matched]), hrec]
      | bad_timestamp =>
        simp only
        rw [candidates_through_next fmt outcome c _ hcand (by simp [ho, is_matched]), hrec]
      | matched m =>
        simp only
        rw [candidates_through_stop fmt outcome c _ hcand (by simp [ho, is_matched])]

/-- The indexes recorded by scan_tried are those of the loop that scan_search runs:
when the loop ends with a match, the pattern that matched is the last one tried,
and when it ends without one, no pattern tried matched with a timestamp that
parses. -/
theorem scan_tried_agrees (fmt : log_format) (outcome : Nat → pattern_outcome) :
    ∀ (fuel : Nat) (c p : Int),
      (∀ k m, scan_search fmt outcome fuel c p = search_result.found k m →
        (scan_tried fmt outcome fuel c p).getLast? = some k.toNat ∧
          outcome k.toNat = pattern_outcome.matched m) ∧
      (scan_search fmt outcome fuel c p = search_result.no_pattern →
        ∀ k ∈ scan_tried fmt outcome fuel c p, is_matched (outcome k) = false) := by
  intro fuel
  induction fuel with
  | zero =>
    intro c p
    constructor
    · intro k m h
      simp [scan_search] at h
    · intro h
      simp [scan_search] at h
  | succ fuel ih =>
    intro c p
    have hcons : ∀ (a : Nat) (l : List Nat) (x : Nat), l.getLast? = some x →
        (a :: l).getLast? = some x := by
      intro a l x hx
      cases l with
      | nil => simp at hx
      | cons b l => simpa [List.getLast?_cons_cons] using hx
    unfold scan_search scan_tried
    simp only
    split
    · exact ⟨fun k m h => by simp at h, fun _ k hk => by simp at hk⟩
    · split
      · exact ⟨fun k m h => by simp at h, fun h => by simp at h⟩
      · split
        · exact ⟨fun k m h => by simp at h, fun h => by simp at h⟩
        · rename_i fpat hfpat
          split
          · exact ih _ _
          · cases ho : outcome (next_format fmt.elf_pattern_order.length c p).2.toNat with
            | no_match =>
              simp only
              split
              · constructor
                · intro k m h
                  exact ⟨hcons _ _ _ ((ih _ _).1 k m h).1, ((ih _ _).1 k m h).2⟩
                · intro h k hk
                  rcases List.mem_cons.1 hk with h1 | h1
                  · rw [h1, ho]
                    rfl
                  · exact (ih _ _).2 h k h1
              · constructor
                · intro k m h
                  exact ⟨hcons _ _ _ ((ih _ _).1 k m h).1, ((ih _ _).1 k m h).2⟩
                · intro h k hk
                  rcases List.mem_cons.1 hk with h1 | h1
                  · rw [h1, ho]
                    rfl
                  · exact (ih _ _).2 h k h1
            | bad_timestamp =>
              simp only
              constructor
              · intro k m h
                exact ⟨hcons _ _ _ ((ih _ _).1 k m h).1, ((ih _ _).1 k m h).2⟩
              · intro h k hk
                rcases List.mem_cons.1 hk with h1 | h1
                · rw [h1, ho]
                  rfl
                · exact (ih _ _).2 h k h1
            | matched m0 =>
              simp only
              constructor
              · intro k m h
                simp only [search_result.found.injEq] at h
                obtain ⟨h1, h2⟩ := h
                subst h1
                subst h2
                exact ⟨rfl, ho⟩
              · intro h
                simp at h

/-- C25: the pattern indexes at which scan tries a match, for a text format with n
patterns. When the lock list is empty they are the indexes from 0 to n - 1 of the
patterns not flagged module-format, in ascending order, up to and including the
first that matches with a timestamp that parses. When the format is locked on the
pattern with index p: nothing, if that pattern is flagged module-format; only p, if
pattern p matches the line, whether its timestamp parses or not; and p followed by
the sequence of the unlocked case, if pattern p does not match the line. The last
index tried is the pattern of the match when scan finds one. -/
theorem scan_candidate_sequence (fmt : log_format) (outcome : Nat → pattern_outcome) :
    (fmt.lf_pattern_locks = [] →
      scan_tried fmt outcome (fmt.elf_pattern_order.length + 2) (-1)
          (last_pattern_index fmt.lf_pattern_locks) =
        candidates_through fmt outcome (List.range fmt.elf_pattern_order.length)) ∧
    (∀ (p : Nat) (fpat : pattern), fmt.lf_pattern_locks ≠ [] →
      last_pattern_index fmt.lf_pattern_locks = (p : Int) →
      fmt.elf_pattern_order[p]? = some fpat →
      (fpat.p_module_format = true →
        scan_tried fmt outcome (fmt.elf_pattern_order.length + 2) (-1) (p : Int) = []) ∧
      (fpat.p_module_format = false → outcome p ≠ pattern_outcome.no_match →
        scan_tried fmt outcome (fmt.elf_pattern_order.length + 2) (-1) (p : Int) = [p]) ∧
      (fpat.p_module_format = false → outcome p = pattern_outcome.no_match →
        scan_tried fmt outcome (fmt.elf_pattern_order.length + 2) (-1) (p : Int) =
          p :: candidates_through fmt outcome (List.range fmt.elf_pattern_order.length))) ∧
    (∀ k m, scan_search fmt outcome (fmt.elf_pattern_order.length + 2) (-1)
        (last_pattern_index fmt.lf_pattern_locks) = search_result.found k m →
      (scan_tried fmt outcome (fmt.elf_pattern_order.length + 2) (-1)
          (last_pattern_index fmt.lf_pattern_locks)).getLast? = some k.toNat ∧
        outcome k.toNat = pattern_outcome.matched m) := by
  have hsweep : ∀ fuel, fmt.elf_pattern_order.length + 1 ≤ fuel →
      scan_tried fmt outcome fuel (-1) (-1) =
        candidates_through fmt outcome (List.range fmt.elf_pattern_order.length) := by
    intro fuel hf
    have := scan_tried_sweep fmt outcome fmt.elf_pattern_order.length fuel 0 (by omega) hf
    rw [List.range_eq_range']
    simpa using this
  refine ⟨?_, ?_, fun k m h => (scan_tried_agrees fmt outcome _ _ _).1 k m h⟩
  · intro hempty
    rw [hempty]
    exact hsweep _ (by omega)
  · intro p fpat hne hlast hget
    have hp1 : (p : Int) ≠ -1 := by omega
    have hp2 : (-1 : Int) ≠ (p : Int) := by omega
    have hnn : ¬ ((p : Int) < 0) := by omega
    have hnf : next_format fmt.elf_pattern_order.length (-1) (p : Int) = (true, (p : Int)) := by
      simp [next_format, hp1, hp2]
    have hlocked : ∀ fuel, scan_tried fmt outcome (fuel + 1) (p : Int) (p : Int) = [] := by
      intro fuel
      unfold scan_tried
      simp [next_format, hp1]
    have hiso : fmt.lf_pattern_locks.isEmpty = false := by
      cases hl : fmt.lf_pattern_locks with
      | nil => exact absurd hl hne
      | cons _ _ => rfl
    have hstep : scan_tried fmt outcome (fmt.elf_pattern_order.length + 2) (-1) (p : Int) =
        if fpat.p_module_format then
          scan_tried fmt outcome (fmt.elf_pattern_order.length + 1) (p : Int) (p : Int)
        else
          match outcome p with
          | pattern_outcome.no_match =>
            p :: scan_tried fmt outcome (fmt.elf_pattern_order.length + 1) (-1) (-1)
          | pattern_outcome.bad_timestamp =>
            p :: scan_tried fmt outcome (fmt.elf_pattern_order.length + 1) (p : Int) (p : Int)
          | pattern_outcome.matched _ => [p] := by
      conv_lhs => unfold scan_tried
      simp only [hnf, Bool.true_eq_false, if_false, hnn, Int.toNat_ofNat, hget, hiso,
        Bool.not_false, Bool.true_and, bne_iff_ne, ne_eq, hp1, not_false_eq_true, if_true]
    refine ⟨?_, ?_, ?_⟩
    · intro hm
      rw [hstep, hm]
      simp only [if_true]
      exact hlocked _
    · intro hm ho
      rw [hstep, hm]
      simp only [Bool.false_eq_true, if_false]
      cases h : outcome p with
      | no_match => exact absurd h ho
      | bad_timestamp =>
        simp only
        rw [hlocked]
      | matched m => rfl
    · intro hm ho
      rw [hstep, hm, ho]
      simp only [Bool.false_eq_true, if_false]
      rw [hsweep _ (by omega)]

/-- Witness for C25: a format with three patterns, the second flagged module-format,
locked on the third pattern, which does not match the line; the first pattern does. -/
theorem scan_candidate_sequence_witness :
    scan_tried ⟨[⟨false⟩, ⟨true⟩, ⟨false⟩], [⟨0, 2⟩], true, false, ⟨false, false, false⟩⟩
        (only_pattern_matches 0) (3 + 2) (-1) 2 =
      [2, 0] ∧
    scan_tried ⟨[⟨false⟩, ⟨true⟩, ⟨false⟩], [⟨0, 2⟩], true, false, ⟨false, false, false⟩⟩
        (only_pattern_matches 0) (3 + 2) (-1) ((2 : Nat) : Int) =
      2 :: candidates_through
        ⟨[⟨false⟩, ⟨true⟩, ⟨false⟩], [⟨0, 2⟩], true, false, ⟨false, false, false⟩⟩
        (only_pattern_matches 0) (List.range 3) :=
  ⟨by decide,
    ((scan_candidate_sequence
      ⟨[⟨false⟩, ⟨true⟩, ⟨false⟩], [⟨0, 2⟩], true, false, ⟨false, false, false⟩⟩
      (only_pattern_matches 0)).2.1 2 ⟨false⟩ (by decide) (by decide) (by decide)).2.2
      (by decide) (by decide)⟩

/-! ## Properties of the rendering of a JSON record -/

/-- With overflow TRUNCATE, a value longer than a max-width w that is not negative
renders as its first w bytes. -/
theorem render_overflow_truncate (env : render_env) (jfe : json_format_element)
    (cached str : List Char) (ht : jfe.jfe_overflow = overflow_t.TRUNCATE)
    (hw : 0 ≤ jfe.jfe_max_width) (hlong : jfe.jfe_max_width < (str.length : Int))
    (hsize : str.length < 2 ^ 31) :
    render_overflow env jfe cached str = some (cached ++ str.take jfe.jfe_max_width.toNat) ∧
      (str.take jfe.jfe_max_width.toNat).length = jfe.jfe_max_width.toNat := by
  have hle : jfe.jfe_max_width.toNat ≤ str.length := by omega
  have hm : (jfe.jfe_max_width % 2 ^ 64) = jfe.jfe_max_width :=
    Int.emod_eq_of_lt hw (by omega)
  refine ⟨?_, by simp [List.length_take, hle]⟩
  simp only [render_overflow, ht, hm, json_append_to_cache]
  have h1 : jfe.jfe_max_width.toNat ≤ str.length + 1 := by omega
  simp only [h1, if_true, List.take_append_of_le_length hle]

/-- With overflow DOTDOT, a value longer than a max-width w of at least 2 renders as
w bytes: its first w / 2 - 1 bytes, two dots, and its last w - (w / 2 - 1) - 2
bytes. -/
theorem render_overflow_dotdot (env : render_env) (jfe : json_format_element)
    (cached str : List Char) (ht : jfe.jfe_overflow = overflow_t.DOTDOT)
    (hw : 2 ≤ jfe.jfe_max_width) (hlong : jfe.jfe_max_width < (str.length : Int))
    (hsize : str.length < 2 ^ 31) :
    render_overflow env jfe cached str =
        some (cached ++ (str.take (jfe.jfe_max_width.toNat / 2 - 1) ++ ['.', '.'] ++
          str.drop (str.length -
            (jfe.jfe_max_width.toNat - (jfe.jfe_max_width.toNat / 2 - 1) - 2)))) ∧
      (str.take (jfe.jfe_max_width.toNat / 2 - 1) ++ ['.', '.'] ++
          str.drop (str.length -
            (jfe.jfe_max_width.toNat - (jfe.jfe_max_width.toNat / 2 - 1) - 2))).length =
        jfe.jfe_max_width.toNat := by
  obtain ⟨w, hwn⟩ : ∃ w : Nat, jfe.jfe_max_width = (w : Int) :=
    ⟨jfe.jfe_max_width.toNat, by omega⟩
  rw [hwn] at hw hlong ⊢
  have hw2 : 2 ≤ w := by omega
  have hwl : w < str.length := by omega
  have hmid : ((Int.tdiv (w : Int) 2 - 1) % 2 ^ 64).toNat = w / 2 - 1 := by
    have h1 : Int.tdiv (w : Int) 2 = ((w / 2 : Nat) : Int) := by
      rw [Int.tdiv_eq_ediv (by omega) (by omega)]
      rfl
    rw [h1]
    have h2 : (((w / 2 : Nat) : Int) - 1) % 2 ^ 64 = ((w / 2 : Nat) : Int) - 1 :=
      Int.emod_eq_of_lt (by omega) (by omega)
    rw [h2]
    omega
  have hrest : (((w : Int) - ((w / 2 - 1 : Nat) : Int) - 2) % 2 ^ 64).toNat =
      w - (w / 2 - 1) - 2 := by
    have h2 : ((w : Int) - ((w / 2 - 1 : Nat) : Int) - 2) % 2 ^ 64 =
        (w : Int) - ((w / 2 - 1 : Nat) : Int) - 2 :=
      Int.emod_eq_of_lt (by omega) (by omega)
    rw [h2]
    omega
  simp only [Int.toNat_ofNat]
  constructor
  · simp only [render_overflow, ht, hwn, hmid, hrest, json_append_to_cache]
    have h1 : w / 2 - 1 ≤ str.length + 1 := by omega
    have h1b : w / 2 - 1 ≤ str.length := by omega
    have h3 : ¬ (str.length < w - (w / 2 - 1) - 2) := by omega
    have h4 : w - (w / 2 - 1) - 2 ≤ (str.drop (str.length - (w - (w / 2 - 1) - 2))).length + 1 := by
      simp only [List.length_drop]
      omega
    have h5 : w - (w / 2 - 1) - 2 ≤ (str.drop (str.length - (w - (w / 2 - 1) - 2))).length := by
      simp only [List.length_drop]
      omega
    simp only [h1, if_true, List.take_append_of_le_length h1b, List.length_cons,
      List.length_nil, Nat.le_refl, Nat.reduceAdd, Nat.reduceLeDiff, h3, if_false, h4,
      List.take_append_of_le_length h5]
    have h6 : List.take (w - (w / 2 - 1) - 2) (str.drop (str.length - (w - (w / 2 - 1) - 2))) =
        str.drop (str.length - (w - (w / 2 - 1) - 2)) := by
      apply List.take_of_length_le
      simp only [List.length_drop]
      omega
    rw [h6]
    simp
  · simp only [List.length_append, List.length_take, List.length_drop, List.length_cons,
      List.length_nil]
    omega

/-- The overflow rendering off the two narrow widths: for a value whose string is
longer than the max-width w of the element (and shorter than 2 ^ 31 bytes, the range
of the int that line 1308 compares), overflow TRUNCATE with w not negative appends
exactly the first w bytes of the string, and overflow DOTDOT with w at least 2
appends exactly w bytes, namely the first w / 2 - 1 bytes of the string, two dots,
and the last w - (w / 2 - 1) - 2 bytes of the string. -/
theorem render_overflow_widths (env : render_env) (jfe : json_format_element)
    (cached str : List Char) (hlong : jfe.jfe_max_width < (str.length : Int))
    (hsize : str.length < 2 ^ 31) :
    (jfe.jfe_overflow = overflow_t.TRUNCATE → 0 ≤ jfe.jfe_max_width →
      render_overflow env jfe cached str =
          some (cached ++ str.take jfe.jfe_max_width.toNat) ∧
        (str.take jfe.jfe_max_width.toNat).length = jfe.jfe_max_width.toNat) ∧
    (jfe.jfe_overflow = overflow_t.DOTDOT → 2 ≤ jfe.jfe_max_width →
      render_overflow env jfe cached str =
          some (cached ++ (str.take (jfe.jfe_max_width.toNat / 2 - 1) ++ ['.', '.'] ++
            str.drop (str.length -
              (jfe.jfe_max_width.toNat - (jfe.jfe_max_width.toNat / 2 - 1) - 2)))) ∧
        (str.take (jfe.jfe_max_width.toNat / 2 - 1) ++ ['.', '.'] ++
            str.drop (str.length -
              (jfe.jfe_max_width.toNat - (jfe.jfe_max_width.toNat / 2 - 1) - 2))).length =
          jfe.jfe_max_width.toNat) :=
  ⟨fun ht hw => render_overflow_truncate env jfe cached str ht hw hlong hsize,
    fun ht hw => render_overflow_dotdot env jfe cached str ht hw hlong hsize⟩

/-- An instance of the overflow rendering: the value abcdefgh with max-width 4 and
overflow DOTDOT renders as a..h. -/
theorem render_overflow_widths_example :
    (4 : Int) < ("abcdefgh".toList.length : Int) ∧
    render_overflow plain_render_env
        ⟨json_log_field.JLF_VARIABLE, 5, [], 4, overflow_t.DOTDOT, transform_t.NONE⟩ []
        "abcdefgh".toList = some "a..h".toList :=
  ⟨by decide,
    ((render_overflow_widths plain_render_env
      ⟨json_log_field.JLF_VARIABLE, 5, [], 4, overflow_t.DOTDOT, transform_t.NONE⟩ []
      "abcdefgh".toList (by decide) (by decide)).2 rfl (by decide)).1⟩

/-- Under DOTDOT the three calls of json_append_to_cache are given the lengths
dotdot_middle w, 2 and dotdot_rest w. -/
theorem render_overflow_dotdot_lengths (env : render_env) (jfe : json_format_element)
    (cached str : List Char) (ht : jfe.jfe_overflow = overflow_t.DOTDOT) :
    render_overflow env jfe cached str =
      match json_append_to_cache cached str (dotdot_middle jfe.jfe_max_width) with
      | none => none
      | some c1 =>
        match json_append_to_cache c1 ['.', '.'] 2 with
        | none => none
        | some c2 =>
          if str.length < dotdot_rest jfe.jfe_max_width then none
          else json_append_to_cache c2 (str.drop (str.length - dotdot_rest jfe.jfe_max_width))
            (dotdot_rest jfe.jfe_max_width) := by
  simp only [render_overflow, ht, dotdot_middle, dotdot_rest]

/-- C26: overflow DOTDOT at the max-widths 1 and 0, which the loader accepts, does not
render w bytes. For the element of field 5 and the value abc, line 1328 computes
middle = (w / 2) - 1 = -1, as size_t 2 ^ 64 - 1, and the first call of
json_append_to_cache is asked for that many bytes of a string of 3 bytes; at width 0
rest is 2 ^ 64 - 1 as well. The rendering of the element is undefined. The same
element renders w bytes at width 4 (a..h for abcdefgh), and with overflow TRUNCATE at
the widths 3 and 0 (abc and nothing for abcdef). -/
theorem render_dotdot_narrow_width :
    dotdot_middle 1 = 2 ^ 64 - 1 ∧ dotdot_rest 1 = 0 ∧
    dotdot_middle 0 = 2 ^ 64 - 1 ∧ dotdot_rest 0 = 2 ^ 64 - 1 ∧
    render_element plain_render_env false
        ⟨[], 1, [⟨⟨5, ⟨0, 0⟩, 0⟩, "abc".toList, false, false⟩], [false]⟩
        ⟨json_log_field.JLF_VARIABLE, 5, [], 1, overflow_t.DOTDOT, transform_t.NONE⟩ =
      none ∧
    render_element plain_render_env false
        ⟨[], 1, [⟨⟨5, ⟨0, 0⟩, 0⟩, "abc".toList, false, false⟩], [false]⟩
        ⟨json_log_field.JLF_VARIABLE, 5, [], 0, overflow_t.DOTDOT, transform_t.NONE⟩ =
      none ∧
    (render_element plain_render_env false
        ⟨[], 1, [⟨⟨5, ⟨0, 0⟩, 0⟩, "abcdefgh".toList, false, false⟩], [false]⟩
        ⟨json_log_field.JLF_VARIABLE, 5, [], 4, overflow_t.DOTDOT, transform_t.NONE⟩).map
        (fun st => st.jlf_cached_line) =
      some "a..h".toList ∧
    (render_element plain_render_env false
        ⟨[], 1, [⟨⟨5, ⟨0, 0⟩, 0⟩, "abcdef".toList, false, false⟩], [false]⟩
        ⟨json_log_field.JLF_VARIABLE, 5, [], 3, overflow_t.TRUNCATE, transform_t.NONE⟩).map
        (fun st => st.jlf_cached_line) =
      some "abc".toList ∧
    (render_element plain_render_env false
        ⟨[], 1, [⟨⟨5, ⟨0, 0⟩, 0⟩, "abcdef".toList, false, false⟩], [false]⟩
        ⟨json_log_field.JLF_VARIABLE, 5, [], 0, overflow_t.TRUNCATE, transform_t.NONE⟩).map
        (fun st => st.jlf_cached_line) =
      some [] := by
  decide

/-- The accesses of the text transforms UPPERCASE and LOWERCASE, and those of
CAPITALIZE when the element has appended a byte, lie at indexes from begin_size up to
but not including the size of the cached line. -/
theorem transform_accesses_in_bounds (t : transform_t) (begin_size size : Nat)
    (h : t ≠ transform_t.CAPITALIZE ∨ begin_size < size) :
    ∀ a ∈ transform_accesses t begin_size size, begin_size ≤ a.1 ∧ a.1 < size := by
  intro a ha
  cases t with
  | NONE => simp [transform_accesses] at ha
  | UPPERCASE =>
    simp only [transform_accesses, List.mem_map, List.mem_range'_1] at ha
    obtain ⟨i, hi, rfl⟩ := ha
    simp only
    omega
  | LOWERCASE =>
    simp only [transform_accesses, List.mem_map, List.mem_range'_1] at ha
    obtain ⟨i, hi, rfl⟩ := ha
    simp only
    omega
  | CAPITALIZE =>
    have hlt : begin_size < size := by
      rcases h with h | h
      · exact absurd rfl h
      · exact h
    simp only [transform_accesses, List.mem_cons, List.mem_map, List.mem_range'_1] at ha
    rcases ha with rfl | ⟨i, hi, rfl⟩
    · simp only
      omega
    · simp only
      omega

/-- Accesses at indexes from b up to the size of the cached line are all defined; they
keep the size and leave the bytes in front of b as they are. -/
theorem apply_accesses_in_bounds (b : Nat) :
    ∀ (accesses : List (Nat × (Char → Char))) (cached : List Char),
      (∀ a ∈ accesses, b ≤ a.1 ∧ a.1 < cached.length) →
      ∃ c, apply_accesses accesses cached = some c ∧ c.length = cached.length ∧
        c.take b = cached.take b := by
  intro accesses
  induction accesses with
  | nil => intro cached _; exact ⟨cached, rfl, rfl, rfl⟩
  | cons a rest ih =>
    intro cached h
    obtain ⟨hb, hlt⟩ := h a (List.mem_cons_self _ _)
    obtain ⟨c, hc, hlen, htake⟩ := ih (cached.set a.1 (a.2 cached[a.1]))
      (fun x hx => by
        have := h x (List.mem_cons_of_mem _ hx)
        simpa using this)
    refine ⟨c, ?_, by simpa using hlen, ?_⟩
    · obtain ⟨i, f⟩ := a
      simp only [apply_accesses, List.getElem?_eq_getElem hlt]
      exact hc
    · rw [htake]
      apply List.ext_getElem?
      intro j
      by_cases hj : j < b
      · simp only [List.getElem?_take, hj, if_true]
        rw [List.getElem?_set_ne (by omega)]
      · simp [List.getElem?_take, hj]

/-- The text transforms UPPERCASE and LOWERCASE, and CAPITALIZE when the element has
appended a byte, are defined; they keep the size of the cached line and leave the
bytes in front of begin_size as they are. -/
theorem apply_transform_in_bounds (t : transform_t) (begin_size : Nat) (cached : List Char)
    (h : t ≠ transform_t.CAPITALIZE ∨ begin_size < cached.length) :
    ∃ c, apply_transform t begin_size cached = some c ∧ c.length = cached.length ∧
      c.take begin_size = cached.take begin_size :=
  apply_accesses_in_bounds begin_size _ cached
    (transform_accesses_in_bounds t begin_size cached.length h)

/-- C30: the text transforms UPPERCASE and LOWERCASE access only indexes from
begin_size up to the size of the cached line, also for an element that rendered no
byte, and CAPITALIZE of an element that rendered the bytes aBc gives Abc. But for an
element that rendered no byte, begin_size is the size of the cached line, and the
first loop of CAPITALIZE still accesses jlf_cached_line[begin_size], one past the
last byte: the access is outside the vector, as for a value abc with max-width 0 and
overflow TRUNCATE. -/
theorem capitalize_accesses_past_end :
    (transform_accesses transform_t.UPPERCASE 3 3).map (fun a => a.1) = [] ∧
      (transform_accesses transform_t.LOWERCASE 3 5).map (fun a => a.1) = [3, 4] ∧
      apply_transform transform_t.CAPITALIZE 3 "xy:aBc".toList = some "xy:Abc".toList ∧
      (transform_accesses transform_t.CAPITALIZE 3 3).map (fun a => a.1) = [3] ∧
      apply_transform transform_t.CAPITALIZE 3 "xy:".toList = none ∧
      render_element plain_render_env false
        ⟨"xy:".toList, 1, [⟨⟨5, ⟨0, 0⟩, 0⟩, "abc".toList, false, false⟩], [false]⟩
        ⟨json_log_field.JLF_VARIABLE, 5, [], 0, overflow_t.TRUNCATE,
          transform_t.CAPITALIZE⟩ = none ∧
      render_element plain_render_env false
        ⟨"xy:".toList, 1, [⟨⟨5, ⟨0, 0⟩, 0⟩, [], false, false⟩], [false]⟩
        ⟨json_log_field.JLF_VARIABLE, 5, [], 10, overflow_t.ABBREV,
          transform_t.CAPITALIZE⟩ = none := by
  decide

/-- C29: for a record whose line format renders the value msg = a, newline, bcd
unshortened, the unused value x gets lv_sub_offset 2 and its line starts on physical
line 2 of the buffer, as the claim says. With max-width 3 and overflow TRUNCATE the
line format renders a, newline, b, but the newline is not counted: the unused value
x gets lv_sub_offset 1 while two newlines precede its line in the buffer. -/
theorem unused_value_sub_offset_after_truncate :
    (render_record plain_render_env false
        [⟨json_log_field.JLF_VARIABLE, 5, [], 10, overflow_t.TRUNCATE, transform_t.NONE⟩] 0
        [⟨⟨5, ⟨0, 0⟩, 0⟩, "a\nbcd".toList, false, false⟩,
          ⟨⟨6, ⟨0, 0⟩, 0⟩, "1".toList, false, false⟩]).map
        (fun st => (st.jlf_cached_line, st.jlf_line_values.map (fun lv => lv.lv_sub_offset))) =
      some ("a\nbcd\n".toList ++ "  x: 1\n".toList, [0, 2]) ∧
    "a\nbcd\n".toList.count '\n' = 2 ∧
    (render_record plain_render_env false
        [⟨json_log_field.JLF_VARIABLE, 5, [], 3, overflow_t.TRUNCATE, transform_t.NONE⟩] 0
        [⟨⟨5, ⟨0, 0⟩, 0⟩, "a\nbcd".toList, false, false⟩,
          ⟨⟨6, ⟨0, 0⟩, 0⟩, "1".toList, false, false⟩]).map
        (fun st => (st.jlf_cached_line, st.jlf_line_values.map (fun lv => lv.lv_sub_offset))) =
      some ("a\nb\n".toList ++ "  x: 1\n".toList, [0, 1]) ∧
    "a\nb\n".toList.count '\n' = 2 := by
  decide

/-- The lines appended for an unused value whose name holds no newline hold one
newline for each piece of its string. -/
theorem unused_value_text_count (name str : List Char) (hname : name.count '\n' = 0) :
    (unused_value_text name str).count '\n' = (physical_lines str).length := by
  have hpieces : ∀ p ∈ physical_lines str, p.count '\n' = 0 := fun p hp =>
    List.count_eq_zero.2 (physical_lines_no_newline str p hp)
  unfold unused_value_text
  generalize physical_lines str = pieces at hpieces
  induction pieces with
  | nil => rfl
  | cons p rest ih =>
    have hp := hpieces p (List.mem_cons_self _ _)
    have hrest := ih (fun q hq => hpieces q (List.mem_cons_of_mem _ hq))
    simp only [List.map_cons, List.flatten_cons, List.count_append, List.count_cons,
      List.length_cons, hrest, hname, hp]
    simp
    omega

/-- The loop over the unused values keeps sub_offset equal to the number of newlines
in the cached line; it only appends to the cached line, leaves the line values in
front of lpc alone, and a value that it does not skip gets as lv_sub_offset the
number of newlines in front of its lines. -/
theorem render_unused_spec (env : render_env)
    (hname : ∀ n, (env.name_text n).count '\n' = 0) :
    ∀ (vals : List json_line_value) (lpc : Nat) (st : render_state),
      st.sub_offset = (st.jlf_cached_line.count '\n' : Int) →
      (render_unused env vals lpc st).sub_offset =
          ((render_unused env vals lpc st).jlf_cached_line.count '\n' : Int) ∧
        (∃ suffix, (render_unused env vals lpc st).jlf_cached_line =
          st.jlf_cached_line ++ suffix) ∧
        (∀ j, j < lpc → (render_unused env vals lpc st).jlf_line_values[j]? =
          st.jlf_line_values[j]?) ∧
        ∀ i lv, vals[i]? = some lv → lpc + i < st.jlf_line_values.length →
          ¬ (lv.lvm_hidden = true ∨ st.used_values[lpc + i]? = some true ∨
            env.body_name = lv.lvm_name) →
          ∃ lv2 pre post, (render_unused env vals lpc st).jlf_line_values[lpc + i]? = some lv2 ∧
            (render_unused env vals lpc st).jlf_cached_line =
              pre ++ unused_value_text (env.name_text lv.lvm_name) lv.lv_str ++ post ∧
            lv2.lv_sub_offset = (pre.count '\n' : Int) := by
  intro vals
  induction vals with
  | nil =>
    intro lpc st hinv
    refine ⟨hinv, ⟨[], by simp [render_unused]⟩, fun j _ => rfl, ?_⟩
    intro i lv h
    simp at h
  | cons lv0 rest ih =>
    intro lpc st hinv
    by_cases hskip : lv0.lvm_hidden = true ∨ st.used_values[lpc]? = some true ∨
        env.body_name = lv0.lvm_name
    · have hstep : render_unused env (lv0 :: rest) lpc st = render_unused env rest (lpc + 1) st := by
        simp only [render_unused, hskip, if_true]
      rw [hstep]
      obtain ⟨h1, h2, h3, h4⟩ := ih (lpc + 1) st hinv
      refine ⟨h1, h2, fun j hj => h3 j (by omega), ?_⟩
      intro i lv hlv hlen hns
      cases i with
      | zero =>
        simp only [List.getElem?_cons_zero, Option.some.injEq] at hlv
        subst hlv
        exact absurd hskip hns
      | succ i =>
        simp only [List.getElem?_cons_succ] at hlv
        have hidx : lpc + (i + 1) = lpc + 1 + i := by omega
        rw [hidx] at hlen hns ⊢
        exact h4 i lv hlv hlen hns
    · have hstep : render_unused env (lv0 :: rest) lpc st =
          render_unused env rest (lpc + 1)
            ⟨st.jlf_cached_line ++ unused_value_text (env.name_text lv0.lvm_name) lv0.lv_str,
              st.sub_offset + ((physical_lines lv0.lv_str).length : Int),
              st.jlf_line_values.set lpc
                { lv0 with
                  lv_sub_offset := st.sub_offset,
                  lv_origin :=
                    ⟨2 + ((env.name_text lv0.lvm_name).length : Int) + 2,
                      lv0.lv_origin.lr_end⟩ },
              st.used_values⟩ := by
        simp only [render_unused, hskip, if_false]
      rw [hstep]
      have hinv2 : st.sub_offset + ((physical_lines lv0.lv_str).length : Int) =
          (((st.jlf_cached_line ++
            unused_value_text (env.name_text lv0.lvm_name) lv0.lv_str).count '\n' : Nat) : Int) := by
        rw [List.count_append, unused_value_text_count _ _ (hname lv0.lvm_name), hinv]
        push_cast
        rfl
      obtain ⟨h1, ⟨suffix, h2⟩, h3, h4⟩ := ih (lpc + 1)
        ⟨st.jlf_cached_line ++ unused_value_text (env.name_text lv0.lvm_name) lv0.lv_str,
          st.sub_offset + ((physical_lines lv0.lv_str).length : Int),
          st.jlf_line_values.set lpc
            { lv0 with
              lv_sub_offset := st.sub_offset,
              lv_origin :=
                ⟨2 + ((env.name_text lv0.lvm_name).length : Int) + 2,
                  lv0.lv_origin.lr_end⟩ },
          st.used_values⟩ hinv2
      simp only at h2 h3 h4
      refine ⟨h1, ⟨unused_value_text (env.name_text lv0.lvm_name) lv0.lv_str ++ suffix,
        by rw [h2, List.append_assoc]⟩, ?_, ?_⟩
      · intro j hj
        rw [h3 j (by omega), List.getElem?_set_ne (by omega)]
      · intro i lv hlv hlen hns
        cases i with
        | zero =>
          simp only [List.getElem?_cons_zero, Option.some.injEq] at hlv
          subst hlv
          simp only [Nat.add_zero] at hlen ⊢
          refine ⟨{ lv0 with
              lv_sub_offset := st.sub_offset,
              lv_origin :=
                ⟨2 + ((env.name_text lv0.lvm_name).length : Int) + 2, lv0.lv_origin.lr_end⟩ },
            st.jlf_cached_line, suffix, ?_, h2, hinv⟩
          rw [h3 lpc (by omega), List.getElem?_set_self hlen]
        | succ i =>
          simp only [List.getElem?_cons_succ] at hlv
          have hidx : lpc + (i + 1) = lpc + 1 + i := by omega
          rw [hidx] at hlen hns ⊢
          exact h4 i lv hlv (by simpa using hlen) hns

/-- The index that find_value gives lies within the line values. -/
theorem find_value_lt (values : List json_line_value) (name : intern_string_t) (i : Nat)
    (h : find_value values name = some i) : i < values.length := by
  unfold find_value at h
  split at h
  · rename_i hlt
    rw [← Option.some.inj h]
    exact hlt
  · exact absurd h (by simp)

/-- Replacing a line value by one with the same string leaves the strings of the line
values as they are. -/
theorem map_lv_str_set (values : List json_line_value) (i : Nat) (lv lv2 : json_line_value)
    (hget : values[i]? = some lv) (hstr : lv2.lv_str = lv.lv_str) :
    (values.set i lv2).map (fun v => v.lv_str) = values.map (fun v => v.lv_str) := by
  apply List.ext_getElem?
  intro j
  by_cases hj : j = i
  · subst hj
    have hlt : j < values.length := (List.getElem?_eq_some.1 hget).1
    rw [List.getElem?_map, List.getElem?_set_self hlt, List.getElem?_map, hget]
    simp [hstr]
  · rw [List.getElem?_map, List.getElem?_set_ne (Ne.symm hj), List.getElem?_map]

/-- One element of the line format, when it is a constant or a variable without text
transform whose default value holds no newline and for which every value fits the
max-width: the element is rendered, sub_offset stays 1 + the newlines of the cached
line + the newlines of the constants still to come, and the strings of the line
values stay as they are. -/
theorem render_element_counts (env : render_env) (full_message : Bool)
    (happend : ∀ jfe s, (env.json_append jfe s).count '\n' = s.count '\n')
    (hts : ∀ jfe, (env.ts_text jfe).count '\n' = 0)
    (hlevel : env.level_name.count '\n' = 0)
    (st : render_state) (jfe : json_format_element) (rest : List json_format_element)
    (hvar : jfe.jfe_type = json_log_field.JLF_VARIABLE →
      jfe.jfe_text_transform = transform_t.NONE ∧ jfe.jfe_default_value.count '\n' = 0 ∧
        ∀ s ∈ st.jlf_line_values.map (fun v => v.lv_str),
          ¬ jfe.jfe_max_width < to_int32 (s.length : Int))
    (hinv : st.sub_offset = 1 + (st.jlf_cached_line.count '\n' : Int) +
      (line_format_init_count (jfe :: rest) : Int)) :
    ∃ st2, render_element env full_message st jfe = some st2 ∧
      st2.sub_offset = 1 + (st2.jlf_cached_line.count '\n' : Int) +
        (line_format_init_count rest : Int) ∧
      st2.jlf_line_values.map (fun v => v.lv_str) =
        st.jlf_line_values.map (fun v => v.lv_str) := by
  cases htype : jfe.jfe_type with
  | JLF_CONSTANT =>
    have hlen : jfe.jfe_default_value.length ≤ jfe.jfe_default_value.length + 1 := by omega
    refine ⟨{ st with jlf_cached_line := st.jlf_cached_line ++ jfe.jfe_default_value }, ?_, ?_,
      rfl⟩
    · simp [render_element, htype, json_append_to_cache, List.take_append_of_le_length]
    · simp only [line_format_init_count, htype] at hinv
      simp only [List.count_append, hinv]
      push_cast
      omega
  | JLF_VARIABLE =>
    obtain ⟨htr, hdef, hfit⟩ := hvar htype
    simp only [line_format_init_count, htype, Nat.zero_add] at hinv
    have htrans : ∀ (n : Nat) (c : List Char),
        apply_transform jfe.jfe_text_transform n c = some c := by
      intro n c
      simp [htr, apply_transform, transform_accesses, apply_accesses]
    cases hfind : find_value st.jlf_line_values jfe.jfe_value with
    | some i =>
      have hlt := find_value_lt _ _ _ hfind
      have hget : st.jlf_line_values[i]? = some (st.jlf_line_values[i]) :=
        List.getElem?_eq_getElem hlt
      have hnofit : ¬ jfe.jfe_max_width <
          to_int32 ((st.jlf_line_values[i]).lv_str.length : Int) :=
        hfit _ (List.mem_map.2 ⟨_, List.getElem_mem hlt, rfl⟩)
      simp only [render_element, htype, hfind, hget, hnofit, if_false, Option.map_some', htrans,
        Option.some.injEq, exists_eq_left']
      refine ⟨?_, ?_⟩
      · simp only [List.count_append, happend, hinv]
        push_cast
        omega
      · exact map_lv_str_set _ _ _ _ hget rfl
    | none =>
      by_cases h1 : jfe.jfe_value = env.ts_field
      · have hfind1 := hfind
        rw [h1] at hfind1
        simp only [render_element, htype, hfind, hfind1, h1, if_true, Option.map_some', htrans,
          Option.some.injEq, exists_eq_left']
        refine ⟨?_, by first | rfl | trivial⟩
        simp only [List.count_append, hts, hinv]
        push_cast
        omega
      · by_cases h2 : jfe.jfe_value = env.level_field
        · have hfind2 := hfind
          rw [h2] at hfind2
          have h12 : ¬ env.level_field = env.ts_field := fun h => h1 (h2.trans h)
          simp only [render_element, htype, hfind, hfind2, h2, h12, if_false, if_true,
            Option.map_some', htrans, Option.some.injEq, exists_eq_left']
          refine ⟨?_, by first | rfl | trivial⟩
          simp only [List.count_append, happend, hlevel, hinv]
          push_cast
          omega
        · simp only [render_element, htype, hfind, h1, if_false, h2, Option.map_some',
            htrans, Option.some.injEq, exists_eq_left']
          refine ⟨?_, by first | rfl | trivial⟩
          simp only [List.count_append, happend, hdef, hinv]
          push_cast
          omega

/-- The loop over the line format, when every variable element has no text transform, a
default value without newline, and a max-width that every value fits: the loop ends,
and sub_offset is then 1 + the number of newlines in the cached line. -/
theorem render_line_format_counts (env : render_env) (full_message : Bool)
    (happend : ∀ jfe s, (env.json_append jfe s).count '\n' = s.count '\n')
    (hts : ∀ jfe, (env.ts_text jfe).count '\n' = 0)
    (hlevel : env.level_name.count '\n' = 0) :
    ∀ (fmt : List json_format_element) (st : render_state),
      (∀ jfe ∈ fmt, jfe.jfe_type = json_log_field.JLF_VARIABLE →
        jfe.jfe_text_transform = transform_t.NONE ∧ jfe.jfe_default_value.count '\n' = 0 ∧
          ∀ s ∈ st.jlf_line_values.map (fun v => v.lv_str),
            ¬ jfe.jfe_max_width < to_int32 (s.length : Int)) →
      st.sub_offset = 1 + (st.jlf_cached_line.count '\n' : Int) +
        (line_format_init_count fmt : Int) →
      ∃ st2, render_line_format env full_message fmt st = some st2 ∧
        st2.sub_offset = 1 + (st2.jlf_cached_line.count '\n' : Int) ∧
        st2.jlf_line_values.map (fun v => v.lv_str) =
          st.jlf_line_values.map (fun v => v.lv_str) := by
  intro fmt
  induction fmt with
  | nil =>
    intro st _ hinv
    refine ⟨st, rfl, ?_, rfl⟩
    simpa [line_format_init_count] using hinv
  | cons jfe rest ih =>
    intro st hfmt hinv
    obtain ⟨st1, h1, hinv1, hstr1⟩ :=
      render_element_counts env full_message happend hts hlevel st jfe rest
        (hfmt jfe (List.mem_cons_self _ _)) hinv
    have hfmt1 : ∀ e ∈ rest, e.jfe_type = json_log_field.JLF_VARIABLE →
        e.jfe_text_transform = transform_t.NONE ∧ e.jfe_default_value.count '\n' = 0 ∧
          ∀ s ∈ st1.jlf_line_values.map (fun v => v.lv_str),
            ¬ e.jfe_max_width < to_int32 (s.length : Int) := by
      intro e he hvar
      rw [hstr1]
      exact hfmt e (List.mem_cons_of_mem _ he) hvar
    obtain ⟨st2, h2, hinv2, hstr2⟩ := ih st1 hfmt1 hinv1
    refine ⟨st2, ?_, hinv2, hstr2.trans hstr1⟩
    simp only [render_line_format, h1]
    exact h2

/-- The whole rendering of a record in which no value overflows its element: every
value that the loop over the unused values renders gets as lv_sub_offset the number
of newlines before its text in the cached line, that is the index of the physical
line on which its text begins. -/
theorem render_record_unused_sub_offsets (env : render_env) (full_message : Bool)
    (fmt : List json_format_element) (values : List json_line_value)
    (happend : ∀ jfe s, (env.json_append jfe s).count '\n' = s.count '\n')
    (hts : ∀ jfe, (env.ts_text jfe).count '\n' = 0)
    (hlevel : env.level_name.count '\n' = 0)
    (hname : ∀ n, (env.name_text n).count '\n' = 0)
    (hfmt : ∀ jfe ∈ fmt, jfe.jfe_type = json_log_field.JLF_VARIABLE →
      jfe.jfe_text_transform = transform_t.NONE ∧ jfe.jfe_default_value.count '\n' = 0 ∧
        ∀ lv ∈ values, ¬ jfe.jfe_max_width < to_int32 (lv.lv_str.length : Int)) :
    ∃ st fin,
      render_line_format env full_message fmt
        { jlf_cached_line := [],
          sub_offset := 1 + (line_format_init_count fmt : Int),
          jlf_line_values := values,
          used_values := List.replicate values.length false } = some st ∧
      render_record env full_message fmt (line_format_init_count fmt) values = some fin ∧
      ∀ (i : Nat) (lv : json_line_value), st.jlf_line_values[i]? = some lv →
        ¬ (lv.lvm_hidden = true ∨ st.used_values[i]? = some true ∨ env.body_name = lv.lvm_name) →
        ∃ (lv2 : json_line_value) (pre post : List Char), fin.jlf_line_values[i]? = some lv2 ∧
          fin.jlf_cached_line = pre ++ unused_value_text (env.name_text lv.lvm_name) lv.lv_str ++ post ∧
          lv2.lv_sub_offset = (pre.count '\n' : Int) := by
  obtain ⟨st, hst, hinv, _⟩ :=
    render_line_format_counts env full_message happend hts hlevel fmt
      { jlf_cached_line := [],
        sub_offset := 1 + (line_format_init_count fmt : Int),
        jlf_line_values := values,
        used_values := List.replicate values.length false }
      (by
        intro jfe hjfe hvar
        obtain ⟨h1, h2, h3⟩ := hfmt jfe hjfe hvar
        refine ⟨h1, h2, ?_⟩
        intro s hs
        obtain ⟨lv, hlv, rfl⟩ := List.mem_map.1 hs
        exact h3 lv hlv)
      (by simp)
  have hspec := render_unused_spec env hname st.jlf_line_values 0
    { st with jlf_cached_line := st.jlf_cached_line ++ ['\n'] }
    (by
      show st.sub_offset = (((st.jlf_cached_line ++ ['\n']).count '\n' : Nat) : Int)
      rw [hinv, List.count_append]
      simp
      omega)
  refine ⟨st, render_unused env st.jlf_line_values 0
    { st with jlf_cached_line := st.jlf_cached_line ++ ['\n'] }, hst, ?_, ?_⟩
  · simp only [render_record, hst]
  · intro i lv hget hskip
    have hlt : 0 + i < st.jlf_line_values.length := by
      have := (List.getElem?_eq_some.1 hget).1
      omega
    have h := hspec.2.2.2 i lv hget hlt (by simpa using hskip)
    simpa using h

end Lnav
